import Mathlib

/-!
Verification of the beam-search caption decoder in `base_model.py`
(repository `image_captioning`).

The embedding models:

* `Caption` — the hypothesis value type (token sequence, opaque recurrent
  state `memory`/`output` of a type parameter `σ`, cumulative
  log-probability `score`).  `Caption.__cmp__` compares by `score` alone.
* `TopN` — the bounded priority container.  Its `_data` field is
  `Option (List (Caption σ))`: `none` models the drained state
  (`self._data = None`), and operations return `none` to model a Python
  `AssertionError`/`IndexError`.  The underlying heap operations
  `heappush`/`heappushpop` (with their `_siftdown`/`_siftup` loops) are
  translated from CPython's pure-Python `heapq`, which the source calls.
* `beam_search` — the batched beam-search loop, `Option`-valued, over an
  abstract step function standing for the `sess.run` of one decoder step.

Python `float` log-probabilities are idealised as rationals; Python's
stable `list.sort` is modelled by a stable insertion sort.
-/

/-- Model of `Caption` (`base_model.py` lines 47-61): one (partial)
caption hypothesis.  The recurrent state snapshot is opaque to the
search logic and is modelled by a type parameter `σ`. -/
structure Caption (σ : Type) where
  sentence : List Nat
  memory : σ
  output : σ
  score : ℚ
deriving DecidableEq

/-- Model of CPython's `heapq._siftdown(heap, startpos, pos)` loop: the
item `newitem` conceptually sits at `pos`; walk up towards `startpos`,
moving parents down, and finally store `newitem`.  The `getD` default is
never used for in-bounds calls (out-of-bounds indexing cannot occur on
the call sites below). -/
def siftdownLoop {σ : Type} (newitem : Caption σ) (startpos pos : Nat)
    (heap : List (Caption σ)) : List (Caption σ) :=
  if startpos < pos then
    let parentpos := (pos - 1) / 2
    let parent := heap.getD parentpos newitem
    if newitem.score < parent.score then
      siftdownLoop newitem startpos parentpos (heap.set pos parent)
    else heap.set pos newitem
  else heap.set pos newitem
termination_by pos
decreasing_by omega

/-- Model of `heapq.heappush`: append, then sift the new item up from
the last position. -/
def heappush {σ : Type} (heap : List (Caption σ)) (item : Caption σ) :
    List (Caption σ) :=
  siftdownLoop item 0 heap.length (heap ++ [item])

/-- The child selection in CPython's `heapq._siftup`: `childpos` is the
left child `2*pos+1`, `rightpos = childpos + 1`, and `childpos` moves to
`rightpos` when `rightpos < endpos and not heap[childpos] < heap[rightpos]`. -/
def chooseChild {σ : Type} (newitem : Caption σ) (endpos pos : Nat)
    (heap : List (Caption σ)) : Nat :=
  if 2 * pos + 1 + 1 < endpos ∧
      ¬ (heap.getD (2 * pos + 1) newitem).score <
        (heap.getD (2 * pos + 1 + 1) newitem).score
  then 2 * pos + 1 + 1 else 2 * pos + 1

/-- The while-loop of CPython's `heapq._siftup`: move the hole at `pos`
down to a leaf, always following the child chosen by `chooseChild`;
returns the final hole position and the (hole-containing) array. -/
def siftupLoop {σ : Type} (newitem : Caption σ) (endpos : Nat) (pos : Nat)
    (heap : List (Caption σ)) : Nat × List (Caption σ) :=
  if 2 * pos + 1 < endpos then
    siftupLoop newitem endpos (chooseChild newitem endpos pos heap)
      (heap.set pos (heap.getD (chooseChild newitem endpos pos heap) newitem))
  else (pos, heap)
termination_by endpos - pos
decreasing_by
  unfold chooseChild
  split <;> omega

/-- Model of `heapq._siftup(heap, pos)`: read `newitem = heap[pos]`,
move the hole to a leaf (`siftupLoop`), store `newitem` there, then
bubble it up with `_siftdown`. -/
def siftup {σ : Type} (heap : List (Caption σ)) (pos : Nat) : List (Caption σ) :=
  match heap.get? pos with
  | none => heap
  | some newitem =>
    let r := siftupLoop newitem heap.length pos heap
    siftdownLoop newitem pos r.1 (r.2.set r.1 newitem)

/-- Model of `heapq.heappushpop(heap, item)`: if the heap is nonempty
and its root compares below `item`, replace the root by `item` and sift
up; the popped element (the first component) is discarded by
`TopN.push`. -/
def heappushpop {σ : Type} (heap : List (Caption σ)) (item : Caption σ) :
    Caption σ × List (Caption σ) :=
  match heap with
  | [] => (item, [])
  | root :: rest =>
    if root.score < item.score then
      (root, siftup (item :: rest) 0)
    else (item, root :: rest)

/-- Model of `TopN` (`base_model.py` lines 63-88).  `n` is the capacity
as given to `__init__` (an arbitrary Python `int`, hence `Int`);
`data = none` models `self._data = None` after `extract`. -/
structure TopN (σ : Type) where
  n : Int
  data : Option (List (Caption σ))
deriving DecidableEq

/-- `TopN.__init__`: fresh empty container. -/
def TopN.new (σ : Type) (n : Int) : TopN σ := ⟨n, some []⟩

/-- `TopN.size`: `assert self._data is not None; return len(self._data)`.
`none` models the assertion failure. -/
def TopN.size {σ : Type} (t : TopN σ) : Option Nat :=
  t.data.map List.length

/-- Stable insertion of `x` into a sorted-descending list: `x` is placed
before the first element whose key is `≤ key x`.  Together with
`sortDescBy` this models Python's stable descending sort. -/
def insDescBy {α : Type} (key : α → ℚ) (x : α) : List α → List α
  | [] => [x]
  | y :: ys => if key y ≤ key x then x :: y :: ys else y :: insDescBy key x ys

/-- Model of Python's stable `list.sort` in descending key order
(`sort(reverse=True)` under `__cmp__`-by-score, and
`sort(key=lambda x: -x[1])` for candidate selection): equal-key elements
keep their original relative order. -/
def sortDescBy {α : Type} (key : α → ℚ) : List α → List α
  | [] => []
  | y :: ys => insDescBy key y (sortDescBy key ys)

/-- `TopN.push`: `assert self._data is not None`, then `heappush` below
capacity and `heappushpop` at or above capacity. -/
def TopN.push {σ : Type} (t : TopN σ) (x : Caption σ) : Option (TopN σ) :=
  match t.data with
  | none => none
  | some d =>
    if (d.length : Int) < t.n then some ⟨t.n, some (heappush d x)⟩
    else some ⟨t.n, some (heappushpop d x).2⟩

/-- `TopN.extract`: returns the data (sorted descending by score when
`sort` is true) and leaves the container drained (`_data = None`). -/
def TopN.extract {σ : Type} (t : TopN σ) (sort : Bool) :
    Option (List (Caption σ) × TopN σ) :=
  match t.data with
  | none => none
  | some d =>
    some (if sort then sortDescBy Caption.score d else d, ⟨t.n, none⟩)

/-- `TopN.reset`: `self._data = []`. -/
def TopN.reset {σ : Type} (t : TopN σ) : TopN σ := ⟨t.n, some []⟩

/-- Folding `TopN.push` over a list of hypotheses (a "sequence of
pushes" in the specification's sense). -/
def pushAll {σ : Type} (t : TopN σ) : List (Caption σ) → Option (TopN σ)
  | [] => some t
  | c :: cs =>
    match t.push c with
    | some t' => pushAll t' cs
    | none => none

/-- The retained contents after a sequence of pushes into a fresh
container of capacity `n`. -/
def retained (σ : Type) (n : Int) (cs : List (Caption σ)) :
    Option (List (Caption σ)) :=
  match pushAll (TopN.new σ n) cs with
  | some t => t.data
  | none => none

/-! ### The beam-search decoder (`BaseModel.beam_search`, lines 326-396) -/

/-- The decoder configuration drawn from `self`: batch size, beam size,
`max_sent_len`, and the word table's index-to-word mapping (used only
through the stop-token test `idx2word[w] == "."`). -/
structure Cfg where
  batch_size : Nat
  beam_size : Nat
  max_sent_len : Nat
  idx2word : Nat → String

/-- The stop-token test of line 385: `self.word_table.idx2word[w] == "."`. -/
def isStopWord (cfg : Cfg) (w : Nat) : Bool := cfg.idx2word w == "."

/-- One batched result of the step network (`sess.run` of
`[self.memory, self.output, self.logprobs]`): per-example new memory,
new output and next-token log-probability rows. -/
structure StepOutput (σ : Type) where
  memory : List σ
  output : List σ
  logprobs : List (List ℚ)

/-- The black-box step function: arguments are the `initial_step` flag
(`idx == 0`), the batched `last_word`, `last_memory` and `last_output`.
The fixed `contexts` and the session are absorbed into the closure. -/
def StepFun (σ : Type) : Type :=
  Bool → List Nat → List σ → List σ → StepOutput σ

/-- The per-batch search state: `live` is the source's
`partial_captions` list (one `TopN` per example; renamed because
`partial` is a Lean keyword) and `comp` is `complete_captions`. -/
structure BeamState (σ : Type) where
  live : List (TopN σ)
  comp : List (TopN σ)
deriving DecidableEq

/-- Option-valued traversal: models a Python list comprehension or
`for`-loop in which any `IndexError`/`AssertionError` aborts the whole
`beam_search` call. -/
def optMap {α β : Type} (f : α → Option β) : List α → Option (List β)
  | [] => some []
  | x :: xs =>
    match f x, optMap f xs with
    | some y, some ys => some (y :: ys)
    | _, _ => none

/-- Python's `enumerate` over a log-probability row, starting at `i`. -/
def pyEnumFrom (i : Nat) : List ℚ → List (Nat × ℚ)
  | [] => []
  | x :: xs => (i, x) :: pyEnumFrom (i + 1) xs

/-- `list(enumerate(logprobs[k]))`. -/
def pyEnum (l : List ℚ) : List (Nat × ℚ) := pyEnumFrom 0 l

/-- Lines 376-378: `words_and_logprobs = list(enumerate(logprobs[k]))`,
stable sort by descending log-probability, then keep the first
`beam_size` candidates. -/
def selectTop (bs : Nat) (lp : List ℚ) : List (Nat × ℚ) :=
  (sortDescBy Prod.snd (pyEnum lp)).take bs

/-- Lines 382-384: the one-token extension of `partial_caption` by the
candidate `p = (w, lp)`: `sentence + [w]`, the example's new recurrent
state, `score + lp`. -/
def extendCap {σ : Type} (pcap : Caption σ) (m o : σ) (p : Nat × ℚ) : Caption σ :=
  ⟨pcap.sentence ++ [p.1], m, o, pcap.score + p.2⟩

/-- Lines 381-388: push each candidate extension into the example's
completed set when the chosen word is the stop token, else into its
partial set. -/
def expandCandidates {σ : Type} (cfg : Cfg) (pcap : Caption σ) (m o : σ)
    (pc cc : TopN σ) : List (Nat × ℚ) → Option (TopN σ × TopN σ)
  | [] => some (pc, cc)
  | p :: rest =>
    let beam := extendCap pcap m o p
    if isStopWord cfg p.1 then
      match cc.push beam with
      | some cc1 => expandCandidates cfg pcap m o pc cc1 rest
      | none => none
    else
      match pc.push beam with
      | some pc1 => expandCandidates cfg pcap m o pc1 cc rest
      | none => none

/-- The body of the `for k in range(self.batch_size)` loop of lines
374-388 for one example `k`: look up the example's slot-`b` partial
caption and its step-output rows, then expand the selected candidates.
The Python loop mutates only the example's own two sets, so the batch
update is the pointwise map of this function (see `runSlot`). -/
def processExample {σ : Type} (cfg : Cfg) (b : Nat)
    (lists : List (List (Caption σ))) (so : StepOutput σ)
    (pcs ccs : List (TopN σ)) (k : Nat) : Option (TopN σ × TopN σ) :=
  match lists.get? k, so.logprobs.get? k, so.memory.get? k, so.output.get? k,
        pcs.get? k, ccs.get? k with
  | some pcl, some lp, some m, some o, some pc, some cc =>
    match pcl.get? b with
    | some pcap => expandCandidates cfg pcap m o pc cc (selectTop cfg.beam_size lp)
    | none => none
  | _, _, _, _, _, _ => none

/-- One beam slot `b` of one timestep (lines 356-388): gather
`last_word` (zeros at the initial timestep, else each example's slot-`b`
last token), `last_memory`, `last_output`; invoke the step function once
for the whole batch; then run the per-example expansion loop. -/
def runSlot {σ : Type} (cfg : Cfg) (step : StepFun σ) (idx b : Nat)
    (lists : List (List (Caption σ))) (st : BeamState σ) :
    Option (BeamState σ) :=
  let lwo :=
    if idx == 0 then some (List.replicate cfg.batch_size 0)
    else optMap (fun pcl => (pcl.get? b).bind (fun c => c.sentence.getLast?)) lists
  match lwo,
        optMap (fun pcl => (pcl.get? b).map Caption.memory) lists,
        optMap (fun pcl => (pcl.get? b).map Caption.output) lists with
  | some last_word, some last_memory, some last_output =>
    let so := step (idx == 0) last_word last_memory last_output
    match optMap (processExample cfg b lists so st.live st.comp)
        (List.range cfg.batch_size) with
    | some pairs => some ⟨pairs.map Prod.fst, pairs.map Prod.snd⟩
    | none => none
  | _, _, _ => none

/-- The `for b in range(num_steps)` loop. -/
def runSlots {σ : Type} (cfg : Cfg) (step : StepFun σ) (idx : Nat)
    (lists : List (List (Caption σ))) :
    List Nat → BeamState σ → Option (BeamState σ)
  | [], st => some st
  | b :: bs, st =>
    match runSlot cfg step idx b lists st with
    | some st' => runSlots cfg step idx lists bs st'
    | none => none

/-- One timestep `idx` (lines 350-388): extract every example's partial
set (reset each for reuse), compute `num_steps`, and run the slot loop. -/
def runTimestep {σ : Type} (cfg : Cfg) (step : StepFun σ) (idx : Nat)
    (st : BeamState σ) : Option (BeamState σ) :=
  match optMap (fun t => t.extract false) st.live with
  | none => none
  | some pairs =>
    let lists := pairs.map Prod.fst
    let st1 : BeamState σ := ⟨pairs.map (fun p => p.2.reset), st.comp⟩
    let num_steps := if idx == 0 then 1 else cfg.beam_size
    runSlots cfg step idx lists (List.range num_steps) st1

/-- The `for idx in range(self.max_sent_len)` loop, with `fuel` the
number of remaining timesteps. -/
def runLoop {σ : Type} (cfg : Cfg) (step : StepFun σ) :
    Nat → Nat → BeamState σ → Option (BeamState σ)
  | _, 0, st => some st
  | idx, fuel + 1, st =>
    match runTimestep cfg step idx st with
    | some st' => runLoop cfg step (idx + 1) fuel st'
    | none => none

/-- Lines 336-345: seed each example's partial set with the empty
caption carrying that example's initial memory and output, score `0.0`;
the completed sets start empty. -/
def initState (σ : Type) (cfg : Cfg) (initial_memory initial_output : List σ) :
    Option (BeamState σ) :=
  match optMap (fun k =>
      match initial_memory.get? k, initial_output.get? k with
      | some m, some o => (TopN.new σ (cfg.beam_size : Int)).push ⟨[], m, o, 0⟩
      | _, _ => none) (List.range cfg.batch_size) with
  | some pcs =>
    some ⟨pcs, List.replicate cfg.batch_size (TopN.new σ (cfg.beam_size : Int))⟩
  | none => none

/-- Lines 390-394 for one example: if the completed set is empty,
substitute the partial set; extract the chosen set with `sort=True`. -/
def finalizeExample {σ : Type} (pcs ccs : List (TopN σ)) (k : Nat) :
    Option (List (Caption σ)) :=
  match ccs.get? k, pcs.get? k with
  | some cc0, some pc =>
    match cc0.size with
    | some sz =>
      match (if sz == 0 then pc else cc0).extract true with
      | some (res, _) => some res
      | none => none
    | none => none
  | _, _ => none

/-- `BaseModel.beam_search` (lines 326-396) over an abstract step
function: initialise the per-example hypothesis sets, run
`max_sent_len` timesteps, then produce each example's ranked caption
list.  `none` models an uncaught Python exception. -/
def beam_search (σ : Type) (cfg : Cfg) (step : StepFun σ)
    (initial_memory initial_output : List σ) :
    Option (List (List (Caption σ))) :=
  match initState σ cfg initial_memory initial_output with
  | none => none
  | some st0 =>
    match runLoop cfg step 0 cfg.max_sent_len st0 with
    | some stF => optMap (finalizeExample stF.live stF.comp) (List.range cfg.batch_size)
    | none => none

/-! ### The greedy decoder

The greedy decoding path (`val_greedy`/`test_greedy`) evaluates
`self.results` and `self.scores`, which are built inside the TensorFlow
graph by the model subclass; that code is not part of this file's
source. -/

/-- One example's greedy decoding state. -/
structure GreedyEx (σ : Type) where
  tokens : List Nat
  memory : σ
  output : σ
  score : ℚ
  done : Bool
deriving DecidableEq

/-- The single highest-log-probability next token, ties broken in
favour of the smaller vocabulary index (the first element of the stable
descending sort over the enumerated row). -/
def argmaxPair (lp : List ℚ)  : Option (Nat × ℚ) :=
  (sortDescBy Prod.snd (pyEnum lp)).head?

/-- Modelled from the spec: the GreedyDecoder's initial state (the
greedy decoder itself lives in the TensorFlow graph and is absent from
`src/`): one hypothesis per example with empty token list, the
example's initial memory and output, score 0, not finished. -/
def greedyInit (σ : Type) (cfg : Cfg) (im io : List σ) :
    Option (List (GreedyEx σ)) :=
  optMap (fun k =>
      match im.get? k, io.get? k with
      | some m, some o => some (⟨[], m, o, 0, false⟩ : GreedyEx σ)
      | _, _ => none) (List.range cfg.batch_size)

/-- Modelled from the spec: one greedy timestep — exactly one
step-function call for the whole batch, then for each unfinished
example pick the single highest-log-probability next token, extend the
hypothesis, accumulate its score, and mark the example finished when
the stop token was chosen.  (A finished example is carried unchanged;
its last token is fed back, which is immaterial to the claims proved
about this model.) -/
def greedyTimestep (σ : Type) (cfg : Cfg) (step : StepFun σ) (t : Nat)
    (exs : List (GreedyEx σ)) : Option (List (GreedyEx σ)) :=
  let last_word :=
    if t == 0 then List.replicate cfg.batch_size 0
    else exs.map (fun e => (e.tokens.getLast?).getD 0)
  let so := step (t == 0) last_word (exs.map GreedyEx.memory) (exs.map GreedyEx.output)
  optMap (fun k =>
      match exs.get? k with
      | none => none
      | some e =>
        if e.done then some e
        else
          match so.logprobs.get? k, so.memory.get? k, so.output.get? k with
          | some lp, some m, some o =>
            match argmaxPair lp with
            | some p =>
              some (⟨e.tokens ++ [p.1], m, o, e.score + p.2, isStopWord cfg p.1⟩ : GreedyEx σ)
            | none => none
          | _, _, _ => none) (List.range cfg.batch_size)

/-- Modelled from the spec: the greedy decoder's timestep loop, run
for `max_sent_len` timesteps. -/
def greedyLoop (σ : Type) (cfg : Cfg) (step : StepFun σ) :
    Nat → Nat → List (GreedyEx σ) → Option (List (GreedyEx σ))
  | _, 0, exs => some exs
  | t, fuel + 1, exs =>
    match greedyTimestep σ cfg step t exs with
    | some exs' => greedyLoop σ cfg step (t + 1) fuel exs'
    | none => none

/-- Modelled from the spec: the whole greedy decoding of a batch. -/
def greedyDecode (σ : Type) (cfg : Cfg) (step : StepFun σ) (im io : List σ) :
    Option (List (GreedyEx σ)) :=
  match greedyInit σ cfg im io with
  | some exs => greedyLoop σ cfg step 0 cfg.max_sent_len exs
  | none => none

/-! ### Verification-side predicates -/

/-- The parent index in the implicit binary heap: `(i - 1) >> 1`. -/
def parentIdx (i : Nat) : Nat := (i - 1) / 2

/-- Score comparison between two positions of a heap array, vacuous out
of range. -/
def heapLe {σ : Type} (l : List (Caption σ)) (i j : Nat) : Prop :=
  ∀ x y, l.get? i = some x → l.get? j = some y → x.score ≤ y.score

/-- The binary min-heap invariant (on scores) that `heapq` maintains. -/
def heapInv {σ : Type} (l : List (Caption σ)) : Prop :=
  ∀ i, 0 < i → heapLe l (parentIdx i) i

/-- Scores of a hypothesis list. -/
def scoresOf {σ : Type} (l : List (Caption σ)) : List ℚ :=
  l.map Caption.score

/-- Stable descending insertion for plain rationals. -/
def insQ (x : ℚ) (l : List ℚ) : List ℚ := insDescBy id x l

/-- Stable descending sort for plain rationals. -/
def sortQ (l : List ℚ) : List ℚ := sortDescBy id l

/-- The deterministic candidate ranking of lines 376-378: `p` ranks
before `q` when its log-probability is higher, or equal with a smaller
vocabulary index (the tie-break effected by Python's stable sort over
`enumerate`). -/
def rankBefore (p q : Nat × ℚ) : Prop :=
  q.2 < p.2 ∨ (p.2 = q.2 ∧ p.1 < q.1)

/-- A caption containing no stop token at all. -/
def stopFree {σ : Type} (cfg : Cfg) (cap : Caption σ) : Prop :=
  ∀ w ∈ cap.sentence, ¬ isStopWord cfg w

/-- A caption whose last token is a stop token and which contains no
other stop token. -/
def stopTerminated {σ : Type} (cfg : Cfg) (cap : Caption σ) : Prop :=
  ∃ s' w, cap.sentence = s' ++ [w] ∧ isStopWord cfg w ∧
    ∀ u ∈ s', ¬ isStopWord cfg u

/-- All hypotheses held in a partial (`live`) set are stop-free. -/
def liveOk {σ : Type} (cfg : Cfg) (t : TopN σ) : Prop :=
  ∀ d, t.data = some d → ∀ cap ∈ d, stopFree cfg cap

/-- All hypotheses held in a completed set are stop-terminated. -/
def compOk {σ : Type} (cfg : Cfg) (t : TopN σ) : Prop :=
  ∀ d, t.data = some d → ∀ cap ∈ d, stopTerminated cfg cap

/-- The stop-token invariant of a whole search state. -/
def beamStopInv {σ : Type} (cfg : Cfg) (st : BeamState σ) : Prop :=
  (∀ t ∈ st.live, liveOk cfg t) ∧ (∀ t ∈ st.comp, compOk cfg t)

/-- The shape contract of the batched step function: each output is
batch-sized and every log-probability row covers at least `beam_size`
vocabulary entries. -/
def StepShapes (σ : Type) (cfg : Cfg) (step : StepFun σ) : Prop :=
  ∀ fl lw lm lo,
    (step fl lw lm lo).memory.length = cfg.batch_size ∧
    (step fl lw lm lo).output.length = cfg.batch_size ∧
    (step fl lw lm lo).logprobs.length = cfg.batch_size ∧
    ∀ lp ∈ (step fl lw lm lo).logprobs, cfg.beam_size ≤ lp.length

/-- A step function that never places the stop token among the top
`beam_size` candidates of any log-probability row (the "chosen next
words"). -/
def NoStopChosen (σ : Type) (cfg : Cfg) (step : StepFun σ) : Prop :=
  ∀ fl lw lm lo, ∀ lp ∈ (step fl lw lm lo).logprobs,
    ∀ p ∈ selectTop cfg.beam_size lp, ¬ isStopWord cfg p.1

/-- Like `NoStopChosen`, but only for the initial-timestep call. -/
def NoStopChosenInit (σ : Type) (cfg : Cfg) (step : StepFun σ) : Prop :=
  ∀ lw lm lo, ∀ lp ∈ (step true lw lm lo).logprobs,
    ∀ p ∈ selectTop cfg.beam_size lp, ¬ isStopWord cfg p.1

/-- The uniform per-timestep size-and-shape invariant of the search
state: both set lists are batch-sized, every completed set is a `TopN`
of capacity `beam_size` with live data, every partial set holds exactly
`sz` hypotheses whose sentences all have length `t`. -/
def sizesInv (σ : Type) (cfg : Cfg) (sz t : Nat) (st : BeamState σ) : Prop :=
  st.live.length = cfg.batch_size ∧ st.comp.length = cfg.batch_size ∧
  (∀ tn ∈ st.live, tn.n = (cfg.beam_size : Int) ∧ ∃ d, tn.data = some d ∧
    d.length = sz ∧ ∀ cap ∈ d, cap.sentence.length = t) ∧
  (∀ tn ∈ st.comp, tn.n = (cfg.beam_size : Int) ∧
    ∃ d, tn.data = some d ∧ d.length ≤ cfg.beam_size)

/-- Strengthening of `sizesInv`: all completed sets are still empty. -/
def compEmpty {σ : Type} (cfg : Cfg) (st : BeamState σ) : Prop :=
  ∀ tn ∈ st.comp, tn = ⟨(cfg.beam_size : Int), some []⟩

/-- Lower bound on a partial set's size after `j` beam slots, when each
slot contributes at least `bs - nstop` non-stop candidates into a set of
capacity `bs`. -/
def slotsLB (bs nstop lb : Nat) : Nat → Nat
  | 0 => lb
  | j + 1 => min (slotsLB bs nstop lb j + (bs - nstop)) bs

/-- Two step functions whose example-`k` output rows agree whenever
their example-`k` input rows agree: the formal sense in which example
`k`'s step data is "its own" in both runs (claim C5). -/
def stepRowAgree (σ : Type) (k : Nat) (step1 step2 : StepFun σ) : Prop :=
  ∀ fl lw1 lm1 lo1 lw2 lm2 lo2,
    lw1.get? k = lw2.get? k → lm1.get? k = lm2.get? k → lo1.get? k = lo2.get? k →
    (step1 fl lw1 lm1 lo1).logprobs.get? k = (step2 fl lw2 lm2 lo2).logprobs.get? k ∧
    (step1 fl lw1 lm1 lo1).memory.get? k = (step2 fl lw2 lm2 lo2).memory.get? k ∧
    (step1 fl lw1 lm1 lo1).output.get? k = (step2 fl lw2 lm2 lo2).output.get? k

/-- Agreement of two search states on example `k`'s two hypothesis
sets. -/
def stateAgree {σ : Type} (k : Nat) (st1 st2 : BeamState σ) : Prop :=
  st1.live.get? k = st2.live.get? k ∧ st1.comp.get? k = st2.comp.get? k

/-! ### Concrete instances used in witnesses and counterexamples -/

/-- A two-word vocabulary in which word `0` is the stop token `"."`. -/
def w2 : Nat → String := fun w => if w == 0 then "." else "a"

/-- Batch 1, beam width 1, two timesteps, over the vocabulary `w2`. -/
def cfgC : Cfg := ⟨1, 1, 2, w2⟩

/-- Batch 2, beam width 1, one timestep, over the vocabulary `w2`. -/
def cfg2 : Cfg := ⟨2, 1, 1, w2⟩

/-- A constant step function that always ranks the stop token first. -/
def stepC : StepFun Unit := fun _ _ _ _ => ⟨[()], [()], [[0, -1]]⟩

/-- A constant step function that always ranks the non-stop word first. -/
def stepD : StepFun Unit := fun _ _ _ _ => ⟨[()], [()], [[-1, 0]]⟩

/-- A batch-2 constant step function; both rows prefer the non-stop
word. -/
def stepE1 : StepFun Unit := fun _ _ _ _ => ⟨[(), ()], [(), ()], [[-1, 0], [-1, 0]]⟩

/-- A batch-2 constant step function agreeing with `stepE1` on row 0
but preferring the stop token on row 1. -/
def stepE2 : StepFun Unit := fun _ _ _ _ => ⟨[(), ()], [(), ()], [[-1, 0], [0, -1]]⟩

/-- A concrete hypothesis of score `0` holding word `0`. -/
def capA : Caption Unit := ⟨[0], (), (), 0⟩

/-- A concrete hypothesis of score `0` holding word `1`. -/
def capB : Caption Unit := ⟨[1], (), (), 0⟩

/-! ### Basic list helpers -/

theorem get?_some_of_lt {α : Type} (l : List α) (i : Nat) (h : i < l.length) :
    ∃ x, l.get? i = some x :=
  ⟨l.get ⟨i, h⟩, List.get?_eq_get h⟩

theorem set_get?_self {α : Type} (l : List α) (i : Nat) (x : α)
    (h : l.get? i = some x) : l.set i x = l := by
  induction l generalizing i with
  | nil => simp at h
  | cons a as ih =>
    cases i with
    | zero => simp only [List.get?] at h; cases h; rfl
    | succ j =>
      simp only [List.get?] at h
      simp [List.set, ih j h]

theorem getD_of_get? {α : Type} (l : List α) (i : Nat) (x d : α)
    (h : l.get? i = some x) : l.getD i d = x := by
  have : l.getD i d = (l.get? i).getD d := rfl
  rw [this, h]; rfl

theorem cons_set_swap {α : Type} (xs : List α) (m : Nat) (a x : α)
    (h : m < xs.length) : (a :: xs.set m x).Perm (x :: xs.set m a) := by
  induction xs generalizing m with
  | nil => simp at h
  | cons y ys ih =>
    cases m with
    | zero => simpa [List.set] using List.Perm.swap _ _ _
    | succ m' =>
      have h' : m' < ys.length := by simpa using h
      simp only [List.set]
      have p1 : (a :: y :: ys.set m' x).Perm (y :: a :: ys.set m' x) :=
        List.Perm.swap _ _ _
      have p2 : (y :: a :: ys.set m' x).Perm (y :: x :: ys.set m' a) :=
        (ih m' h').cons y
      have p3 : (y :: x :: ys.set m' a).Perm (x :: y :: ys.set m' a) :=
        List.Perm.swap _ _ _
      exact (p1.trans p2).trans p3

theorem getD_cons_set_zero_perm {α : Type} (xs : List α) (m : Nat) (a d : α)
    (h : m < xs.length) : ((xs.getD m d) :: xs.set m a).Perm (a :: xs) := by
  induction xs generalizing m with
  | nil => simp at h
  | cons y ys ih =>
    cases m with
    | zero => simpa [List.set] using List.Perm.swap _ _ _
    | succ m' =>
      have h' : m' < ys.length := by simpa using h
      have p1 : ((ys.getD m' d) :: y :: ys.set m' a).Perm
          (y :: (ys.getD m' d) :: ys.set m' a) := List.Perm.swap _ _ _
      have p2 : (y :: (ys.getD m' d) :: ys.set m' a).Perm (y :: a :: ys) :=
        (ih m' h').cons y
      have p3 : (y :: a :: ys).Perm (a :: y :: ys) := List.Perm.swap _ _ _
      simpa [List.set] using (p1.trans p2).trans p3

theorem set_set_perm {α : Type} (l : List α) (i j : Nat) (a d : α)
    (hi : i < l.length) (hj : j < l.length) (hij : i ≠ j) :
    ((l.set i (l.getD j d)).set j a).Perm (l.set i a) := by
  induction l generalizing i j with
  | nil => simp at hi
  | cons x xs ih =>
    cases i with
    | zero =>
      cases j with
      | zero => exact absurd rfl hij
      | succ m =>
        have hm : m < xs.length := by simpa using hj
        simpa [List.set, List.getD] using getD_cons_set_zero_perm xs m a d hm
    | succ i' =>
      cases j with
      | zero =>
        have hi' : i' < xs.length := by simpa using hi
        simpa [List.set, List.getD] using cons_set_swap xs i' a x hi'
      | succ j' =>
        have hi' : i' < xs.length := by simpa using hi
        have hj' : j' < xs.length := by simpa using hj
        have hij' : i' ≠ j' := fun e => hij (by rw [e])
        simpa [List.set, List.getD] using (ih i' j' hi' hj' hij').cons x

/-! ### Permutation facts for the heap operations -/

theorem siftdownLoop_perm {σ : Type} (item : Caption σ) (startpos : Nat)
    (pos : Nat) (heap : List (Caption σ)) (hpos : pos < heap.length) :
    (siftdownLoop item startpos pos heap).Perm (heap.set pos item) := by
  induction pos, heap using siftdownLoop.induct item startpos with
  | case1 pos heap hlt parentpos parent hcmp ih =>
    rw [siftdownLoop]
    simp only [hlt, if_true, hcmp, if_true]
    have hpp : parentpos < pos := by
      have : 0 < pos := Nat.lt_of_le_of_lt (Nat.zero_le _) hlt
      omega
    have hpl : parentpos < heap.length := Nat.lt_trans hpp hpos
    have h1 := ih (by simpa using hpl)
    exact h1.trans (set_set_perm heap pos parentpos item item hpos hpl (Nat.ne_of_gt hpp))
  | case2 pos heap hlt parentpos parent hcmp =>
    rw [siftdownLoop]; simp only [hlt, if_true, hcmp, if_false]; exact List.Perm.refl _
  | case3 pos heap hge =>
    rw [siftdownLoop]; simp only [hge, if_false]; exact List.Perm.refl _

theorem siftdownLoop_length {σ : Type} (item : Caption σ) (startpos : Nat)
    (pos : Nat) (heap : List (Caption σ)) (hpos : pos < heap.length) :
    (siftdownLoop item startpos pos heap).length = heap.length := by
  have := (siftdownLoop_perm item startpos pos heap hpos).length_eq
  simpa using this

theorem heappush_perm {σ : Type} (heap : List (Caption σ)) (item : Caption σ) :
    (heappush heap item).Perm (item :: heap) := by
  unfold heappush
  have hlen : heap.length < (heap ++ [item]).length := by simp
  have h1 := siftdownLoop_perm item 0 heap.length (heap ++ [item]) hlen
  have h2 : (heap ++ [item]).set heap.length item = heap ++ [item] :=
    set_get?_self _ _ _ (List.get?_concat_length heap item)
  rw [h2] at h1
  exact h1.trans (List.perm_append_singleton item heap)

theorem heappush_length {σ : Type} (heap : List (Caption σ)) (item : Caption σ) :
    (heappush heap item).length = heap.length + 1 := by
  simpa using (heappush_perm heap item).length_eq

theorem chooseChild_bounds {σ : Type} (item : Caption σ) (endpos pos : Nat)
    (heap : List (Caption σ)) (h : 2 * pos + 1 < endpos) :
    pos < chooseChild item endpos pos heap ∧
    chooseChild item endpos pos heap < endpos := by
  unfold chooseChild
  split <;> omega

theorem siftupLoop_spec {σ : Type} (item : Caption σ) (endpos : Nat) :
    ∀ (pos : Nat) (heap : List (Caption σ)), pos < heap.length →
      endpos ≤ heap.length →
      (siftupLoop item endpos pos heap).1 < heap.length ∧
      (siftupLoop item endpos pos heap).2.length = heap.length ∧
      ((siftupLoop item endpos pos heap).2.set (siftupLoop item endpos pos heap).1 item).Perm
        (heap.set pos item) ∧
      ¬ 2 * (siftupLoop item endpos pos heap).1 + 1 < endpos := by
  intro pos heap
  induction pos, heap using siftupLoop.induct item endpos with
  | case1 pos heap hlt ih =>
    intro hpos hend
    rw [siftupLoop]
    simp only [hlt, if_true]
    obtain ⟨hgt, hcp⟩ := chooseChild_bounds item endpos pos heap hlt
    have hcpl : chooseChild item endpos pos heap < heap.length :=
      Nat.lt_of_lt_of_le hcp hend
    obtain ⟨ih1, ih2, ih3, ih4⟩ := ih (by simpa using hcpl) (by simpa using hend)
    refine ⟨by simpa using ih1, by simpa using ih2, ?_, ih4⟩
    exact ih3.trans
      (set_set_perm heap pos (chooseChild item endpos pos heap) item item hpos hcpl
        (Nat.ne_of_lt hgt))
  | case2 pos heap hge =>
    intro hpos hend
    rw [siftupLoop]
    simp only [hge, if_false]
    exact ⟨hpos, by simp, List.Perm.refl _, by simp⟩

theorem siftup_perm {σ : Type} (heap : List (Caption σ)) (pos : Nat)
    (x : Caption σ) (hx : heap.get? pos = some x) :
    (siftup heap pos).Perm heap := by
  unfold siftup
  rw [hx]
  have hpos : pos < heap.length := by
    by_contra h
    rw [List.get?_len_le (Nat.le_of_not_lt h)] at hx
    exact Option.noConfusion hx
  obtain ⟨h1, h2, h3, _⟩ := siftupLoop_spec x heap.length pos heap hpos (Nat.le_refl _)
  set r := siftupLoop x heap.length pos heap with hr
  have hb : r.1 < (r.2.set r.1 x).length := by simpa [h2] using h1
  have hp := siftdownLoop_perm x pos r.1 (r.2.set r.1 x) hb
  rw [List.set_set] at hp
  have h4 : heap.set pos x = heap := set_get?_self heap pos x hx
  exact hp.trans (h3.trans (by rw [h4]))

theorem heappushpop_of_root_lt {σ : Type} (root : Caption σ)
    (rest : List (Caption σ)) (item : Caption σ)
    (h : root.score < item.score) :
    heappushpop (root :: rest) item = (root, siftup (item :: rest) 0) ∧
    (siftup (item :: rest) 0).Perm (item :: rest) := by
  constructor
  · unfold heappushpop; simp [h]
  · exact siftup_perm (item :: rest) 0 item rfl

theorem heappushpop_of_not_lt {σ : Type} (root : Caption σ)
    (rest : List (Caption σ)) (item : Caption σ)
    (h : ¬ root.score < item.score) :
    heappushpop (root :: rest) item = (item, root :: rest) := by
  unfold heappushpop; simp [h]

/-! ### Sorting lemmas -/

theorem insDescBy_perm {α : Type} (key : α → ℚ) (x : α) (l : List α) :
    (insDescBy key x l).Perm (x :: l) := by
  induction l with
  | nil => exact List.Perm.refl _
  | cons y ys ih =>
    unfold insDescBy
    split
    · exact List.Perm.refl _
    · exact (ih.cons y).trans (List.Perm.swap _ _ _)

theorem sortDescBy_perm {α : Type} (key : α → ℚ) (l : List α) :
    (sortDescBy key l).Perm l := by
  induction l with
  | nil => exact List.Perm.refl _
  | cons y ys ih =>
    exact (insDescBy_perm key y (sortDescBy key ys)).trans (ih.cons y)

theorem insDescBy_pairwise {α : Type} (key : α → ℚ) (x : α) (l : List α)
    (hl : l.Pairwise (fun a b => key b ≤ key a)) :
    (insDescBy key x l).Pairwise (fun a b => key b ≤ key a) := by
  induction l with
  | nil => simp [insDescBy]
  | cons y ys ih =>
    unfold insDescBy
    rcases hl with - | ⟨hy, hys⟩
    split
    · rename_i hkey
      refine List.Pairwise.cons ?_ (List.Pairwise.cons hy hys)
      intro b hb
      rcases List.mem_cons.mp hb with hb | hb
      · exact hb ▸ hkey
      · exact le_trans (hy b hb) hkey
    · rename_i hkey
      refine List.Pairwise.cons ?_ (ih hys)
      intro b hb
      have hb' := (insDescBy_perm key x ys).mem_iff.mp hb
      rcases List.mem_cons.mp hb' with hb' | hb'
      · exact hb' ▸ le_of_not_le hkey
      · exact hy b hb'

theorem sortDescBy_pairwise {α : Type} (key : α → ℚ) (l : List α) :
    (sortDescBy key l).Pairwise (fun a b => key b ≤ key a) := by
  induction l with
  | nil => simp [sortDescBy]
  | cons y ys ih => exact insDescBy_pairwise key y (sortDescBy key ys) ih

theorem map_insDescBy {α : Type} (key : α → ℚ) (x : α) (l : List α) :
    (insDescBy key x l).map key = insQ (key x) (l.map key) := by
  induction l with
  | nil => rfl
  | cons y ys ih =>
    show (if key y ≤ key x then x :: y :: ys else y :: insDescBy key x ys).map key
      = if id (key y) ≤ id (key x) then key x :: key y :: ys.map key
        else key y :: insDescBy id (key x) (ys.map key)
    by_cases h : key y ≤ key x
    · simp [h]
    · simp only [id, h, if_false, List.map_cons]
      rw [ih]; rfl

theorem map_sortDescBy {α : Type} (key : α → ℚ) (l : List α) :
    (sortDescBy key l).map key = sortQ (l.map key) := by
  induction l with
  | nil => rfl
  | cons y ys ih =>
    show (insDescBy key y (sortDescBy key ys)).map key = _
    rw [map_insDescBy, ih]
    rfl

theorem sortQ_perm (l : List ℚ) : (sortQ l).Perm l := sortDescBy_perm id l

theorem sortQ_pairwise (l : List ℚ) : (sortQ l).Pairwise (· ≥ ·) := by
  have := sortDescBy_pairwise id l
  simpa [sortQ, ge_iff_le] using this

theorem sortQ_eq_of_perm (l l' : List ℚ) (h : l.Perm l') : sortQ l = sortQ l' := by
  have hp : (sortQ l).Perm (sortQ l') :=
    (sortQ_perm l).trans (h.trans (sortQ_perm l').symm)
  exact hp.eq_of_sorted (fun a b _ _ h1 h2 => le_antisymm h2 h1)
    (sortQ_pairwise l) (sortQ_pairwise l')

theorem sortQ_cons (x : ℚ) (l : List ℚ) : sortQ (x :: l) = insQ x (sortQ l) := rfl

theorem sortQ_append_singleton (l : List ℚ) (x : ℚ) :
    sortQ (l ++ [x]) = insQ x (sortQ l) := by
  rw [sortQ_eq_of_perm (l ++ [x]) (x :: l) (List.perm_append_singleton x l), sortQ_cons]

/-! ### The heap invariant through the heapq operations -/

theorem parentIdx_lt (i : Nat) (h : 0 < i) : parentIdx i < i := by
  unfold parentIdx; omega

theorem child_iff_parentIdx (p c : Nat) (hc : 0 < c) :
    parentIdx c = p ↔ (c = 2 * p + 1 ∨ c = 2 * p + 2) := by
  unfold parentIdx; omega


theorem siftdownLoop_inv {σ : Type} (item : Caption σ) :
    ∀ (pos : Nat) (heap : List (Caption σ)), pos < heap.length →
    (∀ i, 0 < i → i ≠ pos → heapLe (heap.set pos item) (parentIdx i) i) →
    (0 < pos → ∀ c, (c = 2 * pos + 1 ∨ c = 2 * pos + 2) →
        heapLe (heap.set pos item) (parentIdx pos) c) →
    heapInv (siftdownLoop item 0 pos heap) := by
  intro pos heap
  induction pos, heap using siftdownLoop.induct item 0 with
  | case1 pos heap hlt parentpos parent hcmp ih =>
    intro hpos h1 h2
    rw [siftdownLoop]
    simp only [hlt, if_true, hcmp, if_true]
    have hpp : parentpos < pos := parentIdx_lt pos hlt
    have hppl : parentpos < heap.length := Nat.lt_trans hpp hpos
    set V := heap.set pos item with hV
    set V' := (heap.set pos parent).set parentpos item with hV'
    obtain ⟨pval, hpval⟩ := get?_some_of_lt heap parentpos hppl
    have hparent : parent = pval := getD_of_get? heap parentpos pval item hpval
    have hVpp : V.get? parentpos = some pval := by
      rw [hV, List.get?_set_ne _ _ (Nat.ne_of_gt hpp), hpval]
    have hVpos : V.get? pos = some item := by
      rw [hV]; exact List.get?_set_eq_of_lt item hpos
    have hV'pp : V'.get? parentpos = some item := by
      rw [hV']
      exact List.get?_set_eq_of_lt item (by simpa using hppl)
    have hV'pos : V'.get? pos = some parent := by
      rw [hV', List.get?_set_ne _ _ (Nat.ne_of_lt hpp)]
      exact (List.get?_set_eq_of_lt parent hpos)
    have hV'other : ∀ j, j ≠ pos → j ≠ parentpos → V'.get? j = V.get? j := by
      intro j hj1 hj2
      rw [hV', List.get?_set_ne _ _ fun e => hj2 e.symm,
        List.get?_set_ne _ _ fun e => hj1 e.symm, hV,
        List.get?_set_ne _ _ fun e => hj1 e.symm]
    apply ih (by simpa using hppl)
    · -- all heap edges of V' hold except at parentpos
      intro i hi hine x y hx hy
      by_cases hipos : i = pos
      · -- the edge from parentpos down to pos: item ≤ parent
        subst hipos
        have hpar_eq : parentIdx i = parentpos := rfl
        rw [hpar_eq, hV'pp] at hx
        rw [hV'pos] at hy
        injection hx with hx'
        injection hy with hy'
        rw [← hx', ← hy']
        exact le_of_lt hcmp
      · by_cases hpi : parentIdx i = pos
        · -- i is a child of pos: parent ≤ V i by the bridging hypothesis
          have hchild : i = 2 * pos + 1 ∨ i = 2 * pos + 2 :=
            (child_iff_parentIdx pos i hi).mp hpi
          have h0pos : 0 < pos := Nat.lt_of_le_of_lt (Nat.zero_le _) hlt
          rw [hpi, hV'pos] at hx
          injection hx with hx'
          have hyV : V.get? i = some y := by
            rw [← hV'other i hipos hine]; exact hy
          have hVparentIdx : V.get? (parentIdx pos) = some pval := by
            have he : parentIdx pos = parentpos := rfl
            rw [he, hVpp]
          have hle := h2 h0pos i hchild pval y hVparentIdx hyV
          rw [← hx', hparent]
          exact hle
        · by_cases hppi : parentIdx i = parentpos
          · -- i is the sibling of pos below parentpos
            have hiV : V.get? i = some y := by
              rw [← hV'other i hipos hine]; exact hy
            rw [hppi, hV'pp] at hx
            injection hx with hx'
            have hVpp' : V.get? (parentIdx i) = some pval := by
              rw [hppi, hVpp]
            have hple := h1 i hi hipos pval y hVpp' hiV
            rw [← hx']
            calc item.score ≤ parent.score := le_of_lt hcmp
              _ = pval.score := by rw [hparent]
              _ ≤ y.score := hple
          · -- edge not involving pos or parentpos
            have hx' : V.get? (parentIdx i) = some x := by
              rw [← hV'other (parentIdx i) hpi hppi]; exact hx
            have hy' : V.get? i = some y := by
              rw [← hV'other i hipos hine]; exact hy
            exact h1 i hi hipos x y hx' hy'
    · -- bridging at parentpos in V'
      intro hpp0 c hc x y hx hy
      have hgp : parentIdx parentpos < parentpos := parentIdx_lt parentpos hpp0
      have hgp_pos : parentIdx parentpos ≠ pos := Nat.ne_of_lt (Nat.lt_trans hgp hpp)
      have hgp_pp : parentIdx parentpos ≠ parentpos := Nat.ne_of_lt hgp
      have hgpV : V.get? (parentIdx parentpos) = some x := by
        rw [← hV'other _ hgp_pos hgp_pp]; exact hx
      have hxp : x.score ≤ pval.score :=
        h1 parentpos hpp0 (Nat.ne_of_lt hpp) x pval hgpV hVpp
      have hc0 : 0 < c := by omega
      have hcpar : parentIdx c = parentpos := (child_iff_parentIdx parentpos c hc0).mpr hc
      by_cases hcpos : c = pos
      · subst hcpos
        rw [hV'pos] at hy
        injection hy with hy'
        rw [← hy', hparent]
        exact hxp
      · have hcne : c ≠ parentpos := by
          have h' := parentIdx_lt c hc0
          rw [hcpar] at h'
          exact Nat.ne_of_gt h'
        have hyV : V.get? c = some y := by
          rw [← hV'other c hcpos hcne]; exact hy
        have hVpp' : V.get? (parentIdx c) = some pval := by
          rw [hcpar, hVpp]
        have hpy := h1 c hc0 hcpos pval y hVpp' hyV
        exact le_trans hxp hpy
  | case2 pos heap hlt parentpos parent hcmp =>
    intro hpos h1 h2
    rw [siftdownLoop]
    simp only [hlt, if_true, hcmp, if_false]
    intro i hi x y hx hy
    by_cases hipos : i = pos
    · subst hipos
      have hpp : parentIdx i < i := parentIdx_lt i hi
      have hppl : parentIdx i < heap.length := Nat.lt_trans hpp hpos
      obtain ⟨pval, hpval⟩ := get?_some_of_lt heap (parentIdx i) hppl
      have hxv : (heap.set i item).get? (parentIdx i) = some pval := by
        rw [List.get?_set_ne _ _ (Nat.ne_of_gt hpp), hpval]
      rw [hxv] at hx
      injection hx with hx'
      have hyv : (heap.set i item).get? i = some item :=
        List.get?_set_eq_of_lt item hpos
      rw [hyv] at hy
      injection hy with hy'
      have hparent : parent = pval := getD_of_get? heap (parentIdx i) pval item hpval
      rw [← hx', ← hy']
      have : ¬ item.score < pval.score := by rw [← hparent]; exact hcmp
      exact le_of_not_lt this
    · exact h1 i hi hipos x y hx hy
  | case3 pos heap hge =>
    intro hpos h1 h2
    rw [siftdownLoop]
    simp only [hge, if_false]
    intro i hi x y hx hy
    have hipos : i ≠ pos := by omega
    exact h1 i hi hipos x y hx hy

theorem heappush_inv {σ : Type} (heap : List (Caption σ)) (item : Caption σ)
    (h : heapInv heap) : heapInv (heappush heap item) := by
  unfold heappush
  have hlen : heap.length < (heap ++ [item]).length := by simp
  have hset : (heap ++ [item]).set heap.length item = heap ++ [item] :=
    set_get?_self _ _ _ (List.get?_concat_length heap item)
  apply siftdownLoop_inv item heap.length (heap ++ [item]) hlen
  · intro i hi hine x y hx hy
    rw [hset] at hx hy
    have hyl : i < (heap ++ [item]).length := by
      by_contra hc
      rw [List.get?_len_le (Nat.le_of_not_lt hc)] at hy
      exact Option.noConfusion hy
    have hil : i < heap.length := by
      have : i ≤ heap.length := by simpa using Nat.lt_succ_iff.mp (by simpa using hyl)
      omega
    have hpl : parentIdx i < heap.length := Nat.lt_trans (parentIdx_lt i hi) hil
    rw [List.get?_append hpl] at hx
    rw [List.get?_append hil] at hy
    exact h i hi x y hx hy
  · intro hpos c hc x y hx hy
    rw [hset] at hy
    have : (heap ++ [item]).get? c = none := by
      apply List.get?_len_le
      simp only [List.length_append, List.length_cons, List.length_nil]
      omega
    rw [this] at hy
    exact Option.noConfusion hy

theorem get?_lt_length {α : Type} (l : List α) (i : Nat) (x : α)
    (h : l.get? i = some x) : i < l.length := by
  by_contra hc
  rw [List.get?_len_le (Nat.le_of_not_lt hc)] at h
  exact Option.noConfusion h

theorem root_min {σ : Type} (l : List (Caption σ)) (r : Caption σ)
    (hinv : heapInv l) (hr : l.get? 0 = some r) :
    ∀ i y, l.get? i = some y → r.score ≤ y.score := by
  intro i
  induction i using Nat.strong_induction_on with
  | _ i ih =>
    intro y hy
    cases Nat.eq_zero_or_pos i with
    | inl h0 =>
      subst h0
      rw [hr] at hy
      injection hy with hy'
      rw [hy']
    | inr hpos =>
      have hil : i < l.length := get?_lt_length l i y hy
      have hpl : parentIdx i < l.length := Nat.lt_trans (parentIdx_lt i hpos) hil
      obtain ⟨x, hx⟩ := get?_some_of_lt l (parentIdx i) hpl
      have h1 := hinv i hpos x y hx hy
      have h2 := ih (parentIdx i) (parentIdx_lt i hpos) x hx
      exact le_trans h2 h1

theorem root_min_mem {σ : Type} (l : List (Caption σ)) (r : Caption σ)
    (hinv : heapInv l) (hr : l.get? 0 = some r) :
    ∀ y ∈ l, r.score ≤ y.score := by
  intro y hy
  obtain ⟨i, hi⟩ := List.mem_iff_get?.mp hy
  exact root_min l r hinv hr i y hi

theorem chooseChild_cases {σ : Type} (item : Caption σ) (endpos pos : Nat)
    (heap : List (Caption σ)) :
    chooseChild item endpos pos heap = 2 * pos + 1 ∨
    chooseChild item endpos pos heap = 2 * pos + 2 := by
  unfold chooseChild
  split
  · right; rfl
  · left; rfl

theorem chooseChild_min {σ : Type} (item : Caption σ) (endpos pos : Nat)
    (heap : List (Caption σ)) (hend : endpos = heap.length)
    (oc : Nat) (y m : Caption σ)
    (hoc : oc = 2 * pos + 1 ∨ oc = 2 * pos + 2)
    (hy : heap.get? oc = some y)
    (hm : heap.get? (chooseChild item endpos pos heap) = some m) :
    m.score ≤ y.score := by
  have hocl : oc < heap.length := get?_lt_length heap oc y hy
  unfold chooseChild at hm
  by_cases hcond : 2 * pos + 1 + 1 < endpos ∧
      ¬ (heap.getD (2 * pos + 1) item).score < (heap.getD (2 * pos + 1 + 1) item).score
  · rw [if_pos hcond] at hm
    rcases hoc with hoc | hoc
    · subst hoc
      have hlval : heap.getD (2 * pos + 1) item = y := getD_of_get? heap _ y item hy
      have hrval : heap.getD (2 * pos + 1 + 1) item = m := getD_of_get? heap _ m item hm
      have := hcond.2
      rw [hlval, hrval] at this
      exact le_of_not_lt this
    · subst hoc
      have : (2 * pos + 1 + 1) = (2 * pos + 2) := by omega
      rw [this] at hm
      rw [hm] at hy
      injection hy with hy'
      rw [hy']
  · rw [if_neg hcond] at hm
    rcases hoc with hoc | hoc
    · subst hoc
      rw [hm] at hy
      injection hy with hy'
      rw [hy']
    · subst hoc
      have hrlt : 2 * pos + 1 + 1 < endpos := by
        rw [hend]
        omega
      have hllt : 2 * pos + 1 < heap.length := by omega
      obtain ⟨lval, hlval⟩ := get?_some_of_lt heap (2 * pos + 1) hllt
      have hlv : heap.getD (2 * pos + 1) item = lval := getD_of_get? heap _ lval item hlval
      have hyv : heap.getD (2 * pos + 1 + 1) item = y := by
        apply getD_of_get?
        have : (2 * pos + 1 + 1) = (2 * pos + 2) := by omega
        rw [this]
        exact hy
      have hlt : lval.score < y.score := by
        by_contra hno
        exact hcond ⟨hrlt, by rw [hlv, hyv]; exact hno⟩
      rw [hm] at hlval
      injection hlval with he
      rw [he]
      exact le_of_lt hlt

theorem siftupLoop_inv {σ : Type} (item : Caption σ) (endpos : Nat) :
    ∀ (pos : Nat) (heap : List (Caption σ)), pos < heap.length →
      endpos = heap.length →
      (∀ i, 0 < i → i ≠ pos → parentIdx i ≠ pos → heapLe heap (parentIdx i) i) →
      (0 < pos → ∀ c, (c = 2 * pos + 1 ∨ c = 2 * pos + 2) →
          heapLe heap (parentIdx pos) c) →
      ∀ i, 0 < i → i ≠ (siftupLoop item endpos pos heap).1 →
        heapLe ((siftupLoop item endpos pos heap).2.set
            (siftupLoop item endpos pos heap).1 item)
          (parentIdx i) i := by
  intro pos heap
  induction pos, heap using siftupLoop.induct item endpos with
  | case1 pos heap hlt ih =>
    intro hpos hend hD1 hD2
    rw [siftupLoop]
    simp only [hlt, if_true]
    set cp := chooseChild item endpos pos heap with hcp
    obtain ⟨hgt, hcpend⟩ := chooseChild_bounds item endpos pos heap hlt
    have hcpl : cp < heap.length := by rw [← hend]; exact hcpend
    obtain ⟨cval, hcval⟩ := get?_some_of_lt heap cp hcpl
    have hmval : heap.getD cp item = cval := getD_of_get? heap cp cval item hcval
    set A' := heap.set pos (heap.getD cp item) with hA'
    have hA'pos : A'.get? pos = some cval := by
      rw [hA', hmval]
      exact List.get?_set_eq_of_lt cval hpos
    have hA'other : ∀ j, j ≠ pos → A'.get? j = heap.get? j := by
      intro j hj
      rw [hA', List.get?_set_ne _ _ fun e => hj e.symm]
    have hcc : cp = 2 * pos + 1 ∨ cp = 2 * pos + 2 := chooseChild_cases item endpos pos heap
    apply ih
    · simpa [hA'] using hcpl
    · simpa [hA'] using hend
    · -- D1 for the moved hole
      intro i hi hine hipar x y hx hy
      by_cases hipos : i = pos
      · subst hipos
        have h0pos : 0 < i := hi
        have hppi : parentIdx i ≠ i := Nat.ne_of_lt (parentIdx_lt i hi)
        rw [hA'other (parentIdx i) hppi] at hx
        rw [hA'pos] at hy
        injection hy with hy'
        have := hD2 h0pos cp hcc x cval hx hcval
        rw [← hy']
        exact this
      · by_cases hpari : parentIdx i = pos
        · -- i is the other child of pos
          have hchild : i = 2 * pos + 1 ∨ i = 2 * pos + 2 :=
            (child_iff_parentIdx pos i hi).mp hpari
          rw [hpari, hA'pos] at hx
          injection hx with hx'
          rw [hA'other i hipos] at hy
          have := chooseChild_min item endpos pos heap hend i y cval hchild hy (by rw [← hcp]; exact hcval)
          rw [← hx']
          exact this
        · rw [hA'other (parentIdx i) hpari] at hx
          rw [hA'other i hipos] at hy
          exact hD1 i hi hipos hpari x y hx hy
    · -- D2 (bridging) for the moved hole
      intro h0cp c hc x y hx hy
      have hparcp : parentIdx cp = pos := (child_iff_parentIdx pos cp (by omega)).mpr hcc
      rw [hparcp, hA'pos] at hx
      injection hx with hx'
      have hcgt : cp < c := by omega
      have hcpos : c ≠ pos := by omega
      rw [hA'other c hcpos] at hy
      have hparc : parentIdx c = cp := (child_iff_parentIdx cp c (by omega)).mpr hc
      have hD1c := hD1 c (by omega) hcpos (by rw [hparc]; omega)
      rw [hparc] at hD1c
      have := hD1c cval y hcval hy
      rw [← hx']
      exact this
  | case2 pos heap hge =>
    intro hpos hend hD1 hD2
    rw [siftupLoop]
    simp only [hge, if_false]
    intro i hi hine x y hx hy
    by_cases hpari : parentIdx i = pos
    · -- i would be a child of the leaf pos: out of range
      exfalso
      have hchild : i = 2 * pos + 1 ∨ i = 2 * pos + 2 :=
        (child_iff_parentIdx pos i hi).mp hpari
      have : (heap.set pos item).get? i = none := by
        apply List.get?_len_le
        rw [List.length_set, ← hend]
        omega
      rw [this] at hy
      exact Option.noConfusion hy
    · have hppne : parentIdx i ≠ pos := hpari
      have hxv : heap.get? (parentIdx i) = some x := by
        rw [← hx, List.get?_set_ne _ _ fun e => hppne e.symm]
      have hyv : heap.get? i = some y := by
        rw [← hy, List.get?_set_ne _ _ fun e => hine e.symm]
      exact hD1 i hi hine hppne x y hxv hyv

/-! ### Sorted rational lists: insertion, take, and minima -/

theorem insQ_nil (x : ℚ) : insQ x [] = [x] := rfl

theorem insQ_cons (x y : ℚ) (ys : List ℚ) :
    insQ x (y :: ys) = if y ≤ x then x :: y :: ys else y :: insQ x ys := rfl

theorem insQ_length (x : ℚ) (l : List ℚ) : (insQ x l).length = l.length + 1 := by
  simpa using (insDescBy_perm id x l).length_eq

theorem sortQ_length (l : List ℚ) : (sortQ l).length = l.length :=
  (sortQ_perm l).length_eq

theorem getD_mem (l : List ℚ) (i : Nat) (h : i < l.length) : l.getD i 0 ∈ l := by
  obtain ⟨x, hx⟩ := get?_some_of_lt l i h
  rw [getD_of_get? l i x 0 hx]
  exact List.get?_mem hx

theorem pairwise_getD_le (S : List ℚ) (hS : S.Pairwise (· ≥ ·)) (i j : Nat)
    (hij : i ≤ j) (hj : j < S.length) : S.getD j 0 ≤ S.getD i 0 := by
  rcases Nat.eq_or_lt_of_le hij with rfl | hlt
  · exact le_refl _
  · obtain ⟨x, hx⟩ := get?_some_of_lt S i (Nat.lt_trans hlt hj)
    obtain ⟨y, hy⟩ := get?_some_of_lt S j hj
    rw [getD_of_get? S i x 0 hx, getD_of_get? S j y 0 hy]
    have hg := List.pairwise_iff_get.mp hS ⟨i, Nat.lt_trans hlt hj⟩ ⟨j, hj⟩ hlt
    rw [List.get?_eq_get (Nat.lt_trans hlt hj)] at hx
    rw [List.get?_eq_get hj] at hy
    injection hx with hx'
    injection hy with hy'
    rw [← hx', ← hy']
    exact hg

theorem sorted_take_replicate (S : List ℚ) (x : ℚ) (m : Nat)
    (hS : S.Pairwise (· ≥ ·)) (hm : m ≤ S.length)
    (h0 : S.getD 0 0 ≤ x) (hl : 1 ≤ m → x ≤ S.getD (m - 1) 0) :
    S.take m = List.replicate m x := by
  cases Nat.eq_zero_or_pos m with
  | inl h => subst h; simp
  | inr hpos =>
    have hall : ∀ b ∈ S.take m, b = x := by
      intro b hb
      obtain ⟨i, hi⟩ := List.mem_iff_get?.mp hb
      have hilen : i < (S.take m).length := get?_lt_length _ i b hi
      have him : i < m := by
        rw [List.length_take] at hilen
        omega
      have hiS : i < S.length := by
        rw [List.length_take] at hilen
        omega
      have hSi : S.get? i = some b := by
        rw [← hi, List.get?_take him]
      have hbv : S.getD i 0 = b := getD_of_get? S i b 0 hSi
      have h1 : S.getD i 0 ≤ S.getD 0 0 := pairwise_getD_le S hS 0 i (Nat.zero_le _) hiS
      have h2 : S.getD (m-1) 0 ≤ S.getD i 0 :=
        pairwise_getD_le S hS i (m-1) (by omega) (by omega)
      have := hl hpos
      have hxb : b = x := by
        rw [← hbv]
        exact le_antisymm (le_trans h1 h0) (le_trans this h2)
      exact hxb
    have := List.eq_replicate_of_mem hall
    rw [this, List.length_take]
    congr 1
    omega

theorem take_insQ_gt (n : Nat) : ∀ (S : List ℚ) (x : ℚ),
    S.Pairwise (· ≥ ·) → 1 ≤ n → n ≤ S.length → S.getD (n - 1) 0 < x →
    (insQ x S).take n = insQ x (S.take (n - 1)) := by
  induction n with
  | zero => intro S x _ h1 _ _; omega
  | succ n' ih =>
    intro S x hS h1 hlen hgt
    cases S with
    | nil => simp at hlen
    | cons s S' =>
      rcases hS with - | ⟨hs, hS'⟩
      by_cases hsx : s ≤ x
      · rw [insQ_cons, if_pos hsx]
        cases Nat.eq_zero_or_pos n' with
        | inl h0 => subst h0; simp [insQ_nil]
        | inr hpos =>
          obtain ⟨m, rfl⟩ : ∃ m, n' = m + 1 := ⟨n' - 1, by omega⟩
          show x :: (s :: S').take (m + 1) = insQ x ((s :: S').take (m + 1))
          rw [show (s :: S').take (m + 1) = s :: S'.take m from rfl, insQ_cons,
            if_pos hsx]
      · have hxs : x < s := lt_of_not_le hsx
        cases Nat.eq_zero_or_pos n' with
        | inl h0 =>
          subst h0
          exact absurd hgt (not_lt_of_lt hxs)
        | inr hpos =>
          obtain ⟨m, rfl⟩ : ∃ m, n' = m + 1 := ⟨n' - 1, by omega⟩
          rw [insQ_cons, if_neg hsx]
          show s :: (insQ x S').take (m + 1) = insQ x ((s :: S').take (m + 1))
          rw [show (s :: S').take (m + 1) = s :: S'.take m from rfl, insQ_cons,
            if_neg hsx]
          congr 1
          have hlen' : m + 1 ≤ S'.length := by
            simp only [List.length_cons] at hlen
            omega
          exact ih S' x hS' (by omega) hlen' hgt

theorem take_insQ_le (n : Nat) : ∀ (S : List ℚ) (x : ℚ),
    S.Pairwise (· ≥ ·) → 1 ≤ n → n ≤ S.length → x ≤ S.getD (n - 1) 0 →
    (insQ x S).take n = S.take n := by
  induction n with
  | zero => intro S x _ h1 _ _; omega
  | succ n' ih =>
    intro S x hS h1 hlen hle
    cases S with
    | nil => simp at hlen
    | cons s S' =>
      rcases hS with - | ⟨hs, hS'⟩
      by_cases hsx : s ≤ x
      · -- s ≤ x ≤ S[n'] ≤ s: the first n'+1 entries all equal x
        rw [insQ_cons, if_pos hsx]
        have hrepl : (s :: S').take (n' + 1) = List.replicate (n' + 1) x :=
          sorted_take_replicate (s :: S') x (n' + 1) (List.Pairwise.cons hs hS')
            hlen (by simpa using hsx) (fun _ => hle)
        have hrepl' : (s :: S').take n' = List.replicate n' x := by
          apply sorted_take_replicate (s :: S') x n' (List.Pairwise.cons hs hS')
            (by omega) (by simpa using hsx)
          intro hn'
          calc x ≤ (s :: S').getD (n' + 1 - 1) 0 := hle
            _ ≤ (s :: S').getD (n' - 1) 0 :=
              pairwise_getD_le (s :: S') (List.Pairwise.cons hs hS') (n' - 1)
                (n' + 1 - 1) (by omega) (by omega)
        show x :: (s :: S').take n' = (s :: S').take (n' + 1)
        rw [hrepl, hrepl']
        rfl
      · rw [insQ_cons, if_neg hsx]
        cases Nat.eq_zero_or_pos n' with
        | inl h0 => subst h0; rfl
        | inr hpos =>
          obtain ⟨m, rfl⟩ : ∃ m, n' = m + 1 := ⟨n' - 1, by omega⟩
          show s :: (insQ x S').take (m + 1) = s :: S'.take (m + 1)
          congr 1
          have hlen' : m + 1 ≤ S'.length := by
            simp only [List.length_cons] at hlen
            omega
          exact ih S' x hS' (by omega) hlen' hle

theorem insQ_min_append (m : ℚ) : ∀ (L : List ℚ),
    L.Pairwise (· ≥ ·) → (∀ y ∈ L, m ≤ y) → insQ m L = L ++ [m] := by
  intro L
  induction L with
  | nil => intro _ _; rfl
  | cons y ys ih =>
    intro hS hall
    rcases hS with - | ⟨hy, hys⟩
    by_cases hym : y ≤ m
    · have hmy : m ≤ y := hall y (List.mem_cons_self y ys)
      have hey : y = m := le_antisymm hym hmy
      have hall' : ∀ z ∈ ys, z = m := by
        intro z hz
        have h1 : z ≤ y := hy z hz
        have h2 : m ≤ z := hall z (List.mem_cons_of_mem y hz)
        exact le_antisymm (hey ▸ h1) h2
      have hrep : ys = List.replicate ys.length m := List.eq_replicate_of_mem hall'
      rw [insQ_cons, if_pos hym, hey, hrep]
      show m :: m :: List.replicate ys.length m
        = (m :: List.replicate ys.length m) ++ [m]
      rw [← List.replicate_succ, ← List.replicate_succ, List.replicate_succ' _ m,
        List.replicate_succ]
    · rw [insQ_cons, if_neg hym]
      rw [ih hys (fun z hz => hall z (List.mem_cons_of_mem y hz))]
      rfl

theorem sortQ_min_cons (m : ℚ) (L : List ℚ) (hmin : ∀ y ∈ L, m ≤ y) :
    sortQ (m :: L) = sortQ L ++ [m] := by
  rw [sortQ_cons]
  apply insQ_min_append m (sortQ L) (sortQ_pairwise L)
  intro y hy
  exact hmin y ((sortQ_perm L).mem_iff.mp hy)

theorem heappushpop_inv {σ : Type} (root : Caption σ) (rest : List (Caption σ))
    (item : Caption σ) (hinv : heapInv (root :: rest)) :
    heapInv (heappushpop (root :: rest) item).2 := by
  by_cases h : root.score < item.score
  · rw [(heappushpop_of_root_lt root rest item h).1]
    show heapInv (siftup (item :: rest) 0)
    have hpos0 : (0 : Nat) < (item :: rest).length := by simp
    have hD1 : ∀ i, 0 < i → i ≠ 0 → parentIdx i ≠ 0 →
        heapLe (item :: rest) (parentIdx i) i := by
      intro i hi hine hpne x y hx hy
      have hpi : 0 < parentIdx i := Nat.pos_of_ne_zero hpne
      obtain ⟨pi, hpieq⟩ : ∃ m, parentIdx i = m + 1 := ⟨parentIdx i - 1, by omega⟩
      obtain ⟨ii, hiieq⟩ : ∃ m, i = m + 1 := ⟨i - 1, by omega⟩
      rw [hpieq] at hx
      rw [hiieq] at hy
      have hx' : (root :: rest).get? (parentIdx i) = some x := by
        rw [hpieq]; exact hx
      have hy' : (root :: rest).get? i = some y := by
        rw [hiieq]; exact hy
      exact hinv i hi x y hx' hy'
    obtain ⟨hr1, hr2, _, hleaf⟩ :=
      siftupLoop_spec item (item :: rest).length 0 (item :: rest) hpos0 (Nat.le_refl _)
    have hedges := siftupLoop_inv item (item :: rest).length 0 (item :: rest)
      hpos0 rfl hD1 (fun h0 => absurd h0 (by omega))
    set r := siftupLoop item (item :: rest).length 0 (item :: rest) with hrdef
    show heapInv (siftdownLoop item 0 r.1 (r.2.set r.1 item))
    apply siftdownLoop_inv item r.1 (r.2.set r.1 item)
    · rw [List.length_set, hr2]; exact hr1
    · intro i hi hine
      rw [List.set_set]
      exact hedges i hi hine
    · intro h0 c hc x y hx hy
      exfalso
      have hcl : ((r.2.set r.1 item).set r.1 item).get? c = none := by
        apply List.get?_len_le
        simp only [List.length_set, hr2]
        omega
      rw [hcl] at hy
      exact Option.noConfusion hy
  · rw [heappushpop_of_not_lt root rest item h]
    exact hinv

theorem getD_take (l : List ℚ) (n m : Nat) (h : m < n) :
    (l.take n).getD m 0 = l.getD m 0 := by
  have h1 : (l.take n).get? m = l.get? m := List.get?_take h
  show ((l.take n).get? m).getD 0 = (l.get? m).getD 0
  rw [h1]

theorem sortQ_last_min (L : List ℚ) (m : ℚ) (hm : m ∈ L)
    (hmin : ∀ z ∈ L, m ≤ z) :
    (sortQ L).getD (L.length - 1) 0 = m := by
  have hlen : (sortQ L).length = L.length := sortQ_length L
  have hpos : 0 < L.length := List.length_pos.mpr (List.ne_nil_of_mem hm)
  have hmS : m ∈ sortQ L := (sortQ_perm L).mem_iff.mpr hm
  obtain ⟨i, hi⟩ := List.mem_iff_get?.mp hmS
  have hiS : i < L.length := by
    have := get?_lt_length _ i m hi
    rwa [hlen] at this
  have h1 : (sortQ L).getD (L.length - 1) 0 ≤ (sortQ L).getD i 0 :=
    pairwise_getD_le (sortQ L) (sortQ_pairwise L) i (L.length - 1) (by omega)
      (by omega)
  rw [getD_of_get? _ i m 0 hi] at h1
  have h2 : m ≤ (sortQ L).getD (L.length - 1) 0 := by
    apply hmin
    apply (sortQ_perm L).mem_iff.mp
    exact getD_mem (sortQ L) (L.length - 1) (by omega)
  exact le_antisymm h1 h2

theorem scoresOf_cons {σ : Type} (c : Caption σ) (d : List (Caption σ)) :
    scoresOf (c :: d) = c.score :: scoresOf d := rfl

theorem scoresOf_length {σ : Type} (d : List (Caption σ)) :
    (scoresOf d).length = d.length := List.length_map d Caption.score

theorem topn_push_step {σ : Type} (n : Nat) (hn : 1 ≤ n) (t : TopN σ)
    (d : List (Caption σ)) (hs : List ℚ)
    (htn : t.n = (n : Int)) (hd : t.data = some d) (hinv : heapInv d)
    (hlen : d.length = min hs.length n)
    (hsort : sortQ (scoresOf d) = (sortQ hs).take n)
    (c : Caption σ) :
    ∃ d', t.push c = some ⟨(n : Int), some d'⟩ ∧ heapInv d' ∧
      d'.length = min (hs.length + 1) n ∧
      sortQ (scoresOf d') = (sortQ (hs ++ [c.score])).take n := by
  have hShist_len : (sortQ hs).length = hs.length := sortQ_length hs
  have hpush : t.push c =
      if (d.length : Int) < (n : Int) then some ⟨(n : Int), some (heappush d c)⟩
      else some ⟨(n : Int), some (heappushpop d c).2⟩ := by
    unfold TopN.push
    rw [hd, htn]
  rw [hpush]
  by_cases hlt : (d.length : Int) < (n : Int)
  · -- below capacity: heappush
    rw [if_pos hlt]
    have hdn : d.length < n := by exact_mod_cast hlt
    have hhist : hs.length = d.length := by omega
    refine ⟨heappush d c, rfl, heappush_inv d c hinv, ?_, ?_⟩
    · rw [heappush_length]; omega
    · have hperm : (scoresOf (heappush d c)).Perm (c.score :: scoresOf d) :=
        (heappush_perm d c).map Caption.score
      have h1 : sortQ (scoresOf (heappush d c)) = sortQ (c.score :: scoresOf d) :=
        sortQ_eq_of_perm _ _ hperm
      rw [h1, sortQ_cons]
      have h2 : (sortQ hs).take n = sortQ hs :=
        List.take_all_of_le (by omega)
      rw [hsort, h2, ← sortQ_append_singleton]
      have h3 : (sortQ (hs ++ [c.score])).length = hs.length + 1 := by
        rw [sortQ_length, List.length_append, List.length_cons, List.length_nil]
      rw [List.take_all_of_le (by omega)]
  · -- at capacity: heappushpop
    rw [if_neg hlt]
    have hdn : n ≤ d.length := by exact_mod_cast not_lt.mp hlt
    have hdeq : d.length = n := by omega
    have hhist : n ≤ hs.length := by omega
    cases d with
    | nil => simp at hdeq; omega
    | cons root rest =>
      have hroot : (root :: rest).get? 0 = some root := rfl
      have hmin := root_min_mem (root :: rest) root hinv hroot
      have hminS : ∀ z ∈ scoresOf (root :: rest), root.score ≤ z := by
        intro z hz
        obtain ⟨y, hy, hyz⟩ := List.mem_map.mp hz
        rw [← hyz]
        exact hmin y hy
      have hmem : root.score ∈ scoresOf (root :: rest) :=
        List.mem_map.mpr ⟨root, List.mem_cons_self _ _, rfl⟩
      have hlast : (sortQ (scoresOf (root :: rest))).getD (n - 1) 0 = root.score := by
        have := sortQ_last_min (scoresOf (root :: rest)) root.score hmem hminS
        rwa [scoresOf_length, hdeq] at this
      have hlastS : (sortQ hs).getD (n - 1) 0 = root.score := by
        rw [← hlast, hsort, getD_take _ n (n - 1) (by omega)]
      by_cases hcmp : root.score < c.score
      · -- the root is evicted
        obtain ⟨heq, hperm⟩ := heappushpop_of_root_lt root rest c hcmp
        rw [heq]
        have hinv' : heapInv (heappushpop (root :: rest) c).2 :=
          heappushpop_inv root rest c hinv
        rw [heq] at hinv'
        refine ⟨_, rfl, hinv', ?_, ?_⟩
        · have := hperm.length_eq
          simp only [List.length_cons] at this ⊢
          simp only [List.length_cons] at hdeq
          omega
        · have hpermS : (scoresOf (siftup (c :: rest) 0)).Perm
              (c.score :: scoresOf rest) := hperm.map Caption.score
          have h1 : sortQ (scoresOf (siftup (c :: rest) 0))
              = sortQ (c.score :: scoresOf rest) := sortQ_eq_of_perm _ _ hpermS
          rw [h1, sortQ_cons]
          -- sortQ (scoresOf rest) is the first n-1 entries of sortQ hs
          have hsplit : sortQ (scoresOf (root :: rest))
              = sortQ (scoresOf rest) ++ [root.score] := by
            rw [scoresOf_cons]
            apply sortQ_min_cons
            intro y hy
            exact hminS y (List.mem_cons_of_mem _ hy)
          have hrest_len : (sortQ (scoresOf rest)).length = n - 1 := by
            rw [sortQ_length, scoresOf_length]
            simp only [List.length_cons] at hdeq
            omega
          have hfront : sortQ (scoresOf rest) = (sortQ hs).take (n - 1) := by
            have h2 : (sortQ (scoresOf (root :: rest))).take (n - 1)
                = sortQ (scoresOf rest) := by
              rw [hsplit, ← hrest_len, List.take_left]
            rw [← h2, hsort, List.take_take]
            congr 1
            omega
          rw [hfront, sortQ_append_singleton,
            take_insQ_gt n (sortQ hs) c.score (sortQ_pairwise hs) hn
              (by omega) (by rw [hlastS]; exact hcmp)]
      · -- the new item is discarded
        rw [heappushpop_of_not_lt root rest c hcmp]
        refine ⟨_, rfl, hinv, ?_, ?_⟩
        · rw [hdeq]; omega
        · rw [sortQ_append_singleton,
            take_insQ_le n (sortQ hs) c.score (sortQ_pairwise hs) hn
              (by omega) (by rw [hlastS]; exact le_of_not_lt hcmp)]
          exact hsort

theorem pushAll_spec {σ : Type} (n : Nat) (hn : 1 ≤ n) :
    ∀ (cs : List (Caption σ)) (t : TopN σ) (d : List (Caption σ)) (hs : List ℚ),
      t.n = (n : Int) → t.data = some d → heapInv d →
      d.length = min hs.length n →
      sortQ (scoresOf d) = (sortQ hs).take n →
      ∃ t' d', pushAll t cs = some t' ∧ t'.n = (n : Int) ∧ t'.data = some d' ∧
        heapInv d' ∧ d'.length = min (hs.length + cs.length) n ∧
        sortQ (scoresOf d') = (sortQ (hs ++ cs.map Caption.score)).take n := by
  intro cs
  induction cs with
  | nil =>
    intro t d hs htn hd hinv hlen hsort
    exact ⟨t, d, rfl, htn, hd, hinv, by simpa using hlen, by simpa using hsort⟩
  | cons c cs' ih =>
    intro t d hs htn hd hinv hlen hsort
    obtain ⟨d1, hpush, hinv1, hlen1, hsort1⟩ :=
      topn_push_step n hn t d hs htn hd hinv hlen hsort c
    have hstep : pushAll t (c :: cs') = pushAll ⟨(n : Int), some d1⟩ cs' := by
      show (match t.push c with
        | some t' => pushAll t' cs'
        | none => none) = _
      rw [hpush]
    rw [hstep]
    obtain ⟨t', d', hall, htn', hd', hinv', hlen', hsort'⟩ :=
      ih ⟨(n : Int), some d1⟩ d1 (hs ++ [c.score]) rfl rfl hinv1
        (by simpa using hlen1) hsort1
    refine ⟨t', d', hall, htn', hd', hinv', ?_, ?_⟩
    · rw [hlen']
      simp only [List.length_append, List.length_cons, List.length_nil]
      congr 1
      omega
    · rw [hsort']
      congr 2
      simp

/-! ### Candidate selection: `selectTop` facts -/

theorem pyEnumFrom_fst_ge (i : Nat) : ∀ (l : List ℚ), ∀ p ∈ pyEnumFrom i l, i ≤ p.1 := by
  intro l
  induction l generalizing i with
  | nil => intro p hp; simp [pyEnumFrom] at hp
  | cons x xs ih =>
    intro p hp
    rcases List.mem_cons.mp hp with hp | hp
    · subst hp; exact Nat.le_refl _
    · exact Nat.le_of_succ_le (ih (i + 1) p hp)

theorem pyEnumFrom_pairwise_fst (i : Nat) : ∀ (l : List ℚ),
    (pyEnumFrom i l).Pairwise (fun a b => a.1 < b.1) := by
  intro l
  induction l generalizing i with
  | nil => simp [pyEnumFrom]
  | cons x xs ih =>
    refine List.Pairwise.cons ?_ (ih (i + 1))
    intro p hp
    exact Nat.lt_of_lt_of_le (Nat.lt_succ_self i) (pyEnumFrom_fst_ge (i + 1) xs p hp)

theorem pyEnum_pairwise_fst (l : List ℚ) :
    (pyEnum l).Pairwise (fun a b => a.1 < b.1) := pyEnumFrom_pairwise_fst 0 l

theorem pyEnumFrom_length (i : Nat) : ∀ (l : List ℚ), (pyEnumFrom i l).length = l.length := by
  intro l
  induction l generalizing i with
  | nil => rfl
  | cons x xs ih => simpa [pyEnumFrom] using ih (i + 1)

theorem pyEnumFrom_get? (i : Nat) : ∀ (l : List ℚ) (k : Nat),
    (pyEnumFrom i l).get? k = (l.get? k).map (fun x => (i + k, x)) := by
  intro l
  induction l generalizing i with
  | nil => intro k; simp [pyEnumFrom]
  | cons x xs ih =>
    intro k
    cases k with
    | zero => simp [pyEnumFrom]
    | succ k' =>
      show (pyEnumFrom (i + 1) xs).get? k' = _
      rw [ih (i + 1) k']
      have : i + 1 + k' = i + (k' + 1) := by omega
      rw [this]
      rfl

theorem pyEnum_get? (l : List ℚ) (k : Nat) :
    (pyEnum l).get? k = (l.get? k).map (fun x => (k, x)) := by
  have := pyEnumFrom_get? 0 l k
  simpa using this

theorem mem_pyEnum (l : List ℚ) (p : Nat × ℚ) :
    p ∈ pyEnum l ↔ l.get? p.1 = some p.2 := by
  constructor
  · intro hp
    obtain ⟨k, hk⟩ := List.mem_iff_get?.mp hp
    rw [pyEnum_get? l k] at hk
    cases hx : l.get? k with
    | none => rw [hx] at hk; exact Option.noConfusion hk
    | some x =>
      rw [hx] at hk
      injection hk with hk'
      have h1 : p.1 = k := by rw [← hk']
      have h2 : p.2 = x := by rw [← hk']
      rw [h1, h2]
      exact hx
  · intro hp
    apply List.mem_iff_get?.mpr
    refine ⟨p.1, ?_⟩
    rw [pyEnum_get? l p.1, hp]
    rfl

theorem insDescBy_lex (p : Nat × ℚ) : ∀ (S : List (Nat × ℚ)),
    S.Pairwise rankBefore → (∀ q ∈ S, p.1 < q.1) →
    (insDescBy Prod.snd p S).Pairwise rankBefore := by
  intro S
  induction S with
  | nil => intro _ _; simp [insDescBy]
  | cons q qs ih =>
    intro hS hmem
    rcases hS with - | ⟨hq, hqs⟩
    show (if Prod.snd q ≤ Prod.snd p then p :: q :: qs
      else q :: insDescBy Prod.snd p qs).Pairwise rankBefore
    by_cases hle : q.2 ≤ p.2
    · rw [if_pos hle]
      refine List.Pairwise.cons ?_ (List.Pairwise.cons hq hqs)
      intro b hb
      rcases List.mem_cons.mp hb with hb | hb
      · subst hb
        rcases lt_or_eq_of_le hle with h | h
        · exact Or.inl h
        · exact Or.inr ⟨h.symm, hmem b (List.mem_cons_self _ _)⟩
      · rcases hq b hb with h | ⟨h1, h2⟩
        · exact Or.inl (lt_of_lt_of_le h hle)
        · rcases lt_or_eq_of_le hle with h' | h'
          · exact Or.inl (h1 ▸ h')
          · exact Or.inr ⟨h'.symm.trans h1, hmem b (List.mem_cons_of_mem _ hb)⟩
    · rw [if_neg hle]
      have hmem' : ∀ b ∈ insDescBy Prod.snd p qs, rankBefore q b := by
        intro b hb
        rcases List.mem_cons.mp ((insDescBy_perm Prod.snd p qs).mem_iff.mp hb) with hb | hb
        · subst hb
          exact Or.inl (lt_of_not_le hle)
        · exact hq b hb
      exact List.Pairwise.cons hmem'
        (ih hqs (fun b hb => hmem b (List.mem_cons_of_mem _ hb)))

theorem sortDescBy_snd_lex : ∀ (l : List (Nat × ℚ)),
    l.Pairwise (fun a b => a.1 < b.1) →
    (sortDescBy Prod.snd l).Pairwise rankBefore := by
  intro l
  induction l with
  | nil => intro _; simp [sortDescBy]
  | cons p ps ih =>
    intro hl
    rcases hl with - | ⟨hp, hps⟩
    show (insDescBy Prod.snd p (sortDescBy Prod.snd ps)).Pairwise rankBefore
    apply insDescBy_lex p (sortDescBy Prod.snd ps) (ih hps)
    intro q hq
    exact hp q ((sortDescBy_perm Prod.snd ps).mem_iff.mp hq)

theorem selectTop_spec (bs : Nat) (lp : List ℚ) (hbs : bs ≤ lp.length) :
    (selectTop bs lp).length = bs ∧
    (selectTop bs lp).Pairwise rankBefore ∧
    (∀ p ∈ selectTop bs lp, p ∈ pyEnum lp) ∧
    (∀ q ∈ pyEnum lp, q ∉ selectTop bs lp →
      ∀ p ∈ selectTop bs lp, rankBefore p q) := by
  have hlenS : (sortDescBy Prod.snd (pyEnum lp)).length = lp.length := by
    rw [(sortDescBy_perm Prod.snd (pyEnum lp)).length_eq]
    exact pyEnumFrom_length 0 lp
  have hlex : (sortDescBy Prod.snd (pyEnum lp)).Pairwise rankBefore :=
    sortDescBy_snd_lex (pyEnum lp) (pyEnum_pairwise_fst lp)
  refine ⟨?_, ?_, ?_, ?_⟩
  · unfold selectTop
    rw [List.length_take, hlenS]
    omega
  · exact hlex.sublist (List.take_sublist bs _)
  · intro p hp
    exact (sortDescBy_perm Prod.snd (pyEnum lp)).mem_iff.mp
      (List.take_subset bs _ hp)
  · intro q hq hqn p hp
    have hqS : q ∈ sortDescBy Prod.snd (pyEnum lp) :=
      (sortDescBy_perm Prod.snd (pyEnum lp)).mem_iff.mpr hq
    rw [← List.take_append_drop bs (sortDescBy Prod.snd (pyEnum lp))] at hqS hlex
    rcases List.mem_append.mp hqS with hq' | hq'
    · exact absurd hq' hqn
    · exact (List.pairwise_append.mp hlex).2.2 p hp q hq'

/-! ### `TopN.push` size and membership bounds -/

theorem push_step_data {σ : Type} (n : Nat) (t : TopN σ) (d : List (Caption σ))
    (c : Caption σ) (htn : t.n = (n : Int)) (hd : t.data = some d)
    (hle : d.length ≤ n) :
    ∃ d', t.push c = some ⟨(n : Int), some d'⟩ ∧
      d'.length = min (d.length + 1) n ∧
      (∀ y ∈ d', y = c ∨ y ∈ d) := by
  have hpush : t.push c =
      if (d.length : Int) < (n : Int) then some ⟨(n : Int), some (heappush d c)⟩
      else some ⟨(n : Int), some (heappushpop d c).2⟩ := by
    unfold TopN.push
    rw [hd, htn]
  rw [hpush]
  by_cases hlt : (d.length : Int) < (n : Int)
  · rw [if_pos hlt]
    have hdn : d.length < n := by exact_mod_cast hlt
    refine ⟨heappush d c, rfl, by rw [heappush_length]; omega, ?_⟩
    intro y hy
    have := (heappush_perm d c).mem_iff.mp hy
    rcases List.mem_cons.mp this with h | h
    · exact Or.inl h
    · exact Or.inr h
  · rw [if_neg hlt]
    have hdn : n ≤ d.length := by exact_mod_cast not_lt.mp hlt
    have hdeq : d.length = n := by omega
    cases d with
    | nil =>
      refine ⟨[], rfl, ?_, by intro y hy; simp at hy⟩
      simp only [List.length_nil] at hdeq ⊢
      omega
    | cons root rest =>
      by_cases hcmp : root.score < c.score
      · obtain ⟨heq, hperm⟩ := heappushpop_of_root_lt root rest c hcmp
        rw [heq]
        refine ⟨_, rfl, ?_, ?_⟩
        · have := hperm.length_eq
          simp only [List.length_cons] at this hdeq ⊢
          omega
        · intro y hy
          rcases List.mem_cons.mp (hperm.mem_iff.mp hy) with h | h
          · exact Or.inl h
          · exact Or.inr (List.mem_cons_of_mem _ h)
      · rw [heappushpop_of_not_lt root rest c hcmp]
        refine ⟨root :: rest, rfl, by omega, fun y hy => Or.inr hy⟩

theorem pushAll_data {σ : Type} (n : Nat) :
    ∀ (cs : List (Caption σ)) (t : TopN σ) (d : List (Caption σ)),
      t.n = (n : Int) → t.data = some d → d.length ≤ n →
      ∃ d', pushAll t cs = some ⟨(n : Int), some d'⟩ ∧
        d'.length = min (d.length + cs.length) n ∧
        (∀ y ∈ d', y ∈ d ∨ y ∈ cs) := by
  intro cs
  induction cs with
  | nil =>
    intro t d htn hd hle
    refine ⟨d, ?_, by simp only [List.length_nil]; omega, fun y hy => Or.inl hy⟩
    show some t = _
    rw [show t = ⟨t.n, t.data⟩ from rfl, htn, hd]
  | cons c cs' ih =>
    intro t d htn hd hle
    obtain ⟨d1, hpush, hlen1, hmem1⟩ := push_step_data n t d c htn hd hle
    have hstep : pushAll t (c :: cs') = pushAll ⟨(n : Int), some d1⟩ cs' := by
      show (match t.push c with
        | some t' => pushAll t' cs'
        | none => none) = _
      rw [hpush]
    rw [hstep]
    obtain ⟨d', hall, hlen', hmem'⟩ := ih ⟨(n : Int), some d1⟩ d1 rfl rfl (by omega)
    refine ⟨d', hall, ?_, ?_⟩
    · rw [hlen', hlen1]
      simp only [List.length_cons]
      omega
    · intro y hy
      rcases hmem' y hy with h | h
      · rcases hmem1 y h with h' | h'
        · exact Or.inr (h' ▸ List.mem_cons_self _ _)
        · exact Or.inl h'
      · exact Or.inr (List.mem_cons_of_mem _ h)

theorem expandCandidates_eq_pushAll {σ : Type} (cfg : Cfg) (pcap : Caption σ)
    (m o : σ) : ∀ (cands : List (Nat × ℚ)) (pc cc : TopN σ),
    expandCandidates cfg pcap m o pc cc cands =
      match pushAll pc ((cands.filter
          (fun p => ! isStopWord cfg p.1)).map (extendCap pcap m o)) with
      | none => none
      | some pc' =>
        match pushAll cc ((cands.filter
            (fun p => isStopWord cfg p.1)).map (extendCap pcap m o)) with
        | none => none
        | some cc' => some (pc', cc') := by
  intro cands
  induction cands with
  | nil => intro pc cc; rfl
  | cons p rest ih =>
    intro pc cc
    by_cases hstop : isStopWord cfg p.1
    · have hf1 : (p :: rest).filter (fun p => ! isStopWord cfg p.1)
          = rest.filter (fun p => ! isStopWord cfg p.1) := by
        rw [List.filter_cons]
        simp [hstop]
      have hf2 : (p :: rest).filter (fun p => isStopWord cfg p.1)
          = p :: rest.filter (fun p => isStopWord cfg p.1) := by
        rw [List.filter_cons]
        simp [hstop]
      rw [hf1, hf2]
      simp only [expandCandidates]
      rw [if_pos hstop]
      cases hp : cc.push (extendCap pcap m o p) with
      | none =>
        have hSR : pushAll cc (extendCap pcap m o p ::
            (rest.filter (fun p => isStopWord cfg p.1)).map (extendCap pcap m o))
            = none := by
          show (match cc.push (extendCap pcap m o p) with
            | some t' => pushAll t' _
            | none => none) = none
          rw [hp]
        rw [List.map_cons, hSR]
        cases pushAll pc ((rest.filter
            (fun p => ! isStopWord cfg p.1)).map (extendCap pcap m o)) <;> rfl
      | some cc1 =>
        have hSR : pushAll cc (extendCap pcap m o p ::
            (rest.filter (fun p => isStopWord cfg p.1)).map (extendCap pcap m o))
            = pushAll cc1 ((rest.filter
              (fun p => isStopWord cfg p.1)).map (extendCap pcap m o)) := by
          show (match cc.push (extendCap pcap m o p) with
            | some t' => pushAll t' _
            | none => none) = _
          rw [hp]
        rw [List.map_cons, hSR]
        exact ih pc cc1
    · have hf1 : (p :: rest).filter (fun p => ! isStopWord cfg p.1)
          = p :: rest.filter (fun p => ! isStopWord cfg p.1) := by
        rw [List.filter_cons]
        simp [hstop]
      have hf2 : (p :: rest).filter (fun p => isStopWord cfg p.1)
          = rest.filter (fun p => isStopWord cfg p.1) := by
        rw [List.filter_cons]
        simp [hstop]
      rw [hf1, hf2]
      simp only [expandCandidates]
      rw [if_neg hstop]
      cases hp : pc.push (extendCap pcap m o p) with
      | none =>
        have hNR : pushAll pc (extendCap pcap m o p ::
            (rest.filter (fun p => ! isStopWord cfg p.1)).map (extendCap pcap m o))
            = none := by
          show (match pc.push (extendCap pcap m o p) with
            | some t' => pushAll t' _
            | none => none) = none
          rw [hp]
        rw [List.map_cons, hNR]
      | some pc1 =>
        have hNR : pushAll pc (extendCap pcap m o p ::
            (rest.filter (fun p => ! isStopWord cfg p.1)).map (extendCap pcap m o))
            = pushAll pc1 ((rest.filter
              (fun p => ! isStopWord cfg p.1)).map (extendCap pcap m o)) := by
          show (match pc.push (extendCap pcap m o p) with
            | some t' => pushAll t' _
            | none => none) = _
          rw [hp]
        rw [List.map_cons, hNR]
        exact ih pc1 cc

/-! ### `optMap` and `pushAll` plumbing -/

theorem optMap_spec {α β : Type} (f : α → Option β) :
    ∀ (l : List α) (r : List β), optMap f l = some r →
      r.length = l.length ∧ ∀ k, r.get? k = (l.get? k).bind f := by
  intro l
  induction l with
  | nil =>
    intro r hr
    injection hr with hr'
    subst hr'
    exact ⟨rfl, fun k => by cases k <;> rfl⟩
  | cons x xs ih =>
    intro r hr
    unfold optMap at hr
    cases hfx : f x with
    | none => rw [hfx] at hr; exact Option.noConfusion hr
    | some y =>
      rw [hfx] at hr
      cases hxs : optMap f xs with
      | none => rw [hxs] at hr; exact Option.noConfusion hr
      | some ys =>
        rw [hxs] at hr
        injection hr with hr'
        subst hr'
        obtain ⟨hl, hk⟩ := ih ys hxs
        refine ⟨by simpa using hl, ?_⟩
        intro k
        cases k with
        | zero => simpa using hfx.symm
        | succ k' => simpa using hk k'

theorem optMap_total {α β : Type} (f : α → Option β) :
    ∀ (l : List α), (∀ x ∈ l, (f x).isSome) → ∃ r, optMap f l = some r := by
  intro l
  induction l with
  | nil => intro _; exact ⟨[], rfl⟩
  | cons x xs ih =>
    intro h
    obtain ⟨y, hy⟩ := Option.isSome_iff_exists.mp (h x (List.mem_cons_self _ _))
    obtain ⟨ys, hys⟩ := ih (fun z hz => h z (List.mem_cons_of_mem _ hz))
    refine ⟨y :: ys, ?_⟩
    unfold optMap
    rw [hy, hys]

theorem optMap_mem {α β : Type} (f : α → Option β) (l : List α) (r : List β)
    (h : optMap f l = some r) :
    ∀ y ∈ r, ∃ x ∈ l, f x = some y := by
  intro y hy
  obtain ⟨k, hk⟩ := List.mem_iff_get?.mp hy
  obtain ⟨-, hspec⟩ := optMap_spec f l r h
  rw [hspec k] at hk
  cases hx : l.get? k with
  | none => rw [hx] at hk; exact Option.noConfusion hk
  | some x =>
    rw [hx] at hk
    exact ⟨x, List.get?_mem hx, hk⟩

theorem get?_range (n k : Nat) :
    (List.range n).get? k = if k < n then some k else none := by
  by_cases h : k < n
  · rw [if_pos h]; exact List.get?_range h
  · rw [if_neg h]
    apply List.get?_len_le
    rw [List.length_range]
    omega

theorem pushAll_total {σ : Type} :
    ∀ (cs : List (Caption σ)) (t : TopN σ) (d : List (Caption σ)),
      t.data = some d → ∃ t' d', pushAll t cs = some t' ∧ t'.data = some d' ∧
        t'.n = t.n ∧ (∀ y ∈ d', y ∈ d ∨ y ∈ cs) := by
  intro cs
  induction cs with
  | nil =>
    intro t d hd
    exact ⟨t, d, rfl, hd, rfl, fun y hy => Or.inl hy⟩
  | cons c cs' ih =>
    intro t d hd
    have hpush : t.push c =
        if (d.length : Int) < t.n then some ⟨t.n, some (heappush d c)⟩
        else some ⟨t.n, some (heappushpop d c).2⟩ := by
      unfold TopN.push
      rw [hd]
    by_cases hlt : (d.length : Int) < t.n
    · rw [if_pos hlt] at hpush
      have hstep : pushAll t (c :: cs') = pushAll ⟨t.n, some (heappush d c)⟩ cs' := by
        show (match t.push c with
          | some t' => pushAll t' cs'
          | none => none) = _
        rw [hpush]
      rw [hstep]
      obtain ⟨t', d', hall, hd', htn, hmem⟩ := ih ⟨t.n, some (heappush d c)⟩ (heappush d c) rfl
      refine ⟨t', d', hall, hd', htn, ?_⟩
      intro y hy
      rcases hmem y hy with h | h
      · rcases List.mem_cons.mp ((heappush_perm d c).mem_iff.mp h) with h' | h'
        · exact Or.inr (h' ▸ List.mem_cons_self _ _)
        · exact Or.inl h'
      · exact Or.inr (List.mem_cons_of_mem _ h)
    · rw [if_neg hlt] at hpush
      have hstep : pushAll t (c :: cs')
          = pushAll ⟨t.n, some (heappushpop d c).2⟩ cs' := by
        show (match t.push c with
          | some t' => pushAll t' cs'
          | none => none) = _
        rw [hpush]
      rw [hstep]
      obtain ⟨t', d', hall, hd', htn, hmem⟩ :=
        ih ⟨t.n, some (heappushpop d c).2⟩ (heappushpop d c).2 rfl
      refine ⟨t', d', hall, hd', htn, ?_⟩
      intro y hy
      rcases hmem y hy with h | h
      · -- membership in the heappushpop result
        cases d with
        | nil =>
          simp only [heappushpop] at h
          simp at h
        | cons root rest =>
          by_cases hcmp : root.score < c.score
          · obtain ⟨heq, hperm⟩ := heappushpop_of_root_lt root rest c hcmp
            rw [heq] at h
            rcases List.mem_cons.mp (hperm.mem_iff.mp h) with h' | h'
            · exact Or.inr (h' ▸ List.mem_cons_self _ _)
            · exact Or.inl (List.mem_cons_of_mem _ h')
          · rw [heappushpop_of_not_lt root rest c hcmp] at h
            exact Or.inl h
      · exact Or.inr (List.mem_cons_of_mem _ h)

theorem push_mem {σ : Type} (t : TopN σ) (c : Caption σ) (t' : TopN σ)
    (h : t.push c = some t') :
    ∃ d d', t.data = some d ∧ t'.data = some d' ∧ t'.n = t.n ∧
      ∀ y ∈ d', y = c ∨ y ∈ d := by
  cases hd : t.data with
  | none =>
    unfold TopN.push at h
    rw [hd] at h
    exact Option.noConfusion h
  | some d =>
    have hpush : t.push c =
        if (d.length : Int) < t.n then some ⟨t.n, some (heappush d c)⟩
        else some ⟨t.n, some (heappushpop d c).2⟩ := by
      unfold TopN.push
      rw [hd]
    rw [hpush] at h
    by_cases hlt : (d.length : Int) < t.n
    · rw [if_pos hlt] at h
      injection h with h'
      subst h'
      refine ⟨d, heappush d c, rfl, rfl, rfl, ?_⟩
      intro y hy
      exact List.mem_cons.mp ((heappush_perm d c).mem_iff.mp hy)
    · rw [if_neg hlt] at h
      injection h with h'
      subst h'
      refine ⟨d, (heappushpop d c).2, rfl, rfl, rfl, ?_⟩
      intro y hy
      cases d with
      | nil =>
        simp only [heappushpop] at hy
        simp at hy
      | cons root rest =>
        by_cases hcmp : root.score < c.score
        · obtain ⟨heq, hperm⟩ := heappushpop_of_root_lt root rest c hcmp
          rw [heq] at hy
          rcases List.mem_cons.mp (hperm.mem_iff.mp hy) with h' | h'
          · exact Or.inl h'
          · exact Or.inr (List.mem_cons_of_mem _ h')
        · rw [heappushpop_of_not_lt root rest c hcmp] at hy
          exact Or.inr hy

theorem pushAll_mem_general {σ : Type} :
    ∀ (cs : List (Caption σ)) (t t' : TopN σ), pushAll t cs = some t' →
      ∀ d', t'.data = some d' →
        ∀ y ∈ d', (∃ d, t.data = some d ∧ y ∈ d) ∨ y ∈ cs := by
  intro cs
  induction cs with
  | nil =>
    intro t t' h d' hd' y hy
    injection h with h'
    subst h'
    exact Or.inl ⟨d', hd', hy⟩
  | cons c cs' ih =>
    intro t t' h d' hd' y hy
    unfold pushAll at h
    cases hp : t.push c with
    | none => rw [hp] at h; exact Option.noConfusion h
    | some t1 =>
      rw [hp] at h
      obtain ⟨d, d1, hd, hd1, -, hmem⟩ := push_mem t c t1 hp
      rcases ih t1 t' h d' hd' y hy with ⟨d1', hd1', hmem'⟩ | hmem'
      · rw [hd1] at hd1'
        injection hd1' with he
        subst he
        rcases hmem y hmem' with h' | h'
        · exact Or.inr (h' ▸ List.mem_cons_self _ _)
        · exact Or.inl ⟨d, hd, h'⟩
      · exact Or.inr (List.mem_cons_of_mem _ hmem')

theorem processExample_char {σ : Type} (cfg : Cfg) (b : Nat)
    (lists : List (List (Caption σ))) (so : StepOutput σ)
    (pcs ccs : List (TopN σ)) (k : Nat) (pr : TopN σ × TopN σ)
    (h : processExample cfg b lists so pcs ccs k = some pr) :
    ∃ pcl lp m o pc cc pcap,
      lists.get? k = some pcl ∧ so.logprobs.get? k = some lp ∧
      so.memory.get? k = some m ∧ so.output.get? k = some o ∧
      pcs.get? k = some pc ∧ ccs.get? k = some cc ∧ pcl.get? b = some pcap ∧
      expandCandidates cfg pcap m o pc cc (selectTop cfg.beam_size lp) = some pr := by
  unfold processExample at h
  cases h1 : lists.get? k with
  | none => rw [h1] at h; exact Option.noConfusion h
  | some pcl =>
  rw [h1] at h
  cases h2 : so.logprobs.get? k with
  | none => rw [h2] at h; exact Option.noConfusion h
  | some lp =>
  rw [h2] at h
  cases h3 : so.memory.get? k with
  | none => rw [h3] at h; exact Option.noConfusion h
  | some m =>
  rw [h3] at h
  cases h4 : so.output.get? k with
  | none => rw [h4] at h; exact Option.noConfusion h
  | some o =>
  rw [h4] at h
  cases h5 : pcs.get? k with
  | none => rw [h5] at h; exact Option.noConfusion h
  | some pc =>
  rw [h5] at h
  cases h6 : ccs.get? k with
  | none => rw [h6] at h; exact Option.noConfusion h
  | some cc =>
  rw [h6] at h
  have h' : (match pcl.get? b with
      | some pcap => expandCandidates cfg pcap m o pc cc (selectTop cfg.beam_size lp)
      | none => none) = some pr := h
  cases h7 : pcl.get? b with
  | none => rw [h7] at h'; exact Option.noConfusion h'
  | some pcap =>
  rw [h7] at h'
  exact ⟨pcl, lp, m, o, pc, cc, pcap, rfl, rfl, rfl, rfl, rfl, rfl, h7, h'⟩

theorem runSlot_char {σ : Type} (cfg : Cfg) (step : StepFun σ) (idx b : Nat)
    (lists : List (List (Caption σ))) (st st' : BeamState σ)
    (h : runSlot cfg step idx b lists st = some st') :
    ∃ lw lm lo pairs,
      (if idx == 0 then some (List.replicate cfg.batch_size 0)
        else optMap (fun pcl => (pcl.get? b).bind
          (fun c => c.sentence.getLast?)) lists) = some lw ∧
      optMap (fun pcl => (pcl.get? b).map Caption.memory) lists = some lm ∧
      optMap (fun pcl => (pcl.get? b).map Caption.output) lists = some lo ∧
      optMap (processExample cfg b lists (step (idx == 0) lw lm lo) st.live st.comp)
        (List.range cfg.batch_size) = some pairs ∧
      st' = ⟨pairs.map Prod.fst, pairs.map Prod.snd⟩ := by
  unfold runSlot at h
  cases h1 : (if idx == 0 then some (List.replicate cfg.batch_size 0)
      else optMap (fun pcl => (pcl.get? b).bind
        (fun c => c.sentence.getLast?)) lists) with
  | none => rw [h1] at h; exact Option.noConfusion h
  | some lw =>
  rw [h1] at h
  cases h2 : optMap (fun pcl => (pcl.get? b).map Caption.memory) lists with
  | none => rw [h2] at h; exact Option.noConfusion h
  | some lm =>
  rw [h2] at h
  cases h3 : optMap (fun pcl => (pcl.get? b).map Caption.output) lists with
  | none => rw [h3] at h; exact Option.noConfusion h
  | some lo =>
  rw [h3] at h
  have h' : (match optMap (processExample cfg b lists
        (step (idx == 0) lw lm lo) st.live st.comp)
        (List.range cfg.batch_size) with
      | some pairs => some (⟨pairs.map Prod.fst, pairs.map Prod.snd⟩ : BeamState σ)
      | none => none) = some st' := h
  cases h4 : optMap (processExample cfg b lists
      (step (idx == 0) lw lm lo) st.live st.comp) (List.range cfg.batch_size) with
  | none => rw [h4] at h'; exact Option.noConfusion h'
  | some pairs =>
  rw [h4] at h'
  injection h' with h''
  exact ⟨lw, lm, lo, pairs, rfl, rfl, rfl, h4, h''.symm⟩

theorem runTimestep_char {σ : Type} (cfg : Cfg) (step : StepFun σ) (idx : Nat)
    (st st' : BeamState σ) (h : runTimestep cfg step idx st = some st') :
    ∃ pairs, optMap (fun t => t.extract false) st.live = some pairs ∧
      runSlots cfg step idx (pairs.map Prod.fst)
        (List.range (if idx == 0 then 1 else cfg.beam_size))
        ⟨pairs.map (fun p => p.2.reset), st.comp⟩ = some st' := by
  unfold runTimestep at h
  cases h1 : optMap (fun t => t.extract false) st.live with
  | none => rw [h1] at h; exact Option.noConfusion h
  | some pairs =>
  rw [h1] at h
  exact ⟨pairs, rfl, h⟩

/-! ### The stop-token invariant (claim C10) -/

theorem expandCandidates_stopInv {σ : Type} (cfg : Cfg) (pcap : Caption σ)
    (m o : σ) (pc cc : TopN σ) (cands : List (Nat × ℚ)) (pc' cc' : TopN σ)
    (h : expandCandidates cfg pcap m o pc cc cands = some (pc', cc'))
    (hpcap : stopFree cfg pcap) (hpc : liveOk cfg pc) (hcc : compOk cfg cc) :
    liveOk cfg pc' ∧ compOk cfg cc' := by
  rw [expandCandidates_eq_pushAll] at h
  cases hA : pushAll pc ((cands.filter
      (fun p => ! isStopWord cfg p.1)).map (extendCap pcap m o)) with
  | none => rw [hA] at h; exact Option.noConfusion h
  | some pcA =>
  rw [hA] at h
  cases hB : pushAll cc ((cands.filter
      (fun p => isStopWord cfg p.1)).map (extendCap pcap m o)) with
  | none => rw [hB] at h; exact Option.noConfusion h
  | some ccA =>
  rw [hB] at h
  injection h with h'
  injection h' with ha hb
  subst ha hb
  constructor
  · intro d' hd' cap hcap
    rcases pushAll_mem_general _ pc pcA hA d' hd' cap hcap with ⟨d, hd, hmem⟩ | hmem
    · exact hpc d hd cap hmem
    · obtain ⟨p, hp, hext⟩ := List.mem_map.mp hmem
      have hns : ¬ isStopWord cfg p.1 := by
        have := List.of_mem_filter hp
        simpa using this
      rw [← hext]
      intro w hw
      rcases List.mem_append.mp hw with hw | hw
      · exact hpcap w hw
      · rcases List.mem_singleton.mp hw with rfl
        exact hns
  · intro d' hd' cap hcap
    rcases pushAll_mem_general _ cc ccA hB d' hd' cap hcap with ⟨d, hd, hmem⟩ | hmem
    · exact hcc d hd cap hmem
    · obtain ⟨p, hp, hext⟩ := List.mem_map.mp hmem
      have hst : isStopWord cfg p.1 := by
        have hst' := List.of_mem_filter hp
        simpa using hst'
      rw [← hext]
      exact ⟨pcap.sentence, p.1, rfl, hst, hpcap⟩

theorem runSlot_stopInv {σ : Type} (cfg : Cfg) (step : StepFun σ) (idx b : Nat)
    (lists : List (List (Caption σ))) (st st' : BeamState σ)
    (h : runSlot cfg step idx b lists st = some st')
    (hlists : ∀ pcl ∈ lists, ∀ cap ∈ pcl, stopFree cfg cap)
    (hst : beamStopInv cfg st) : beamStopInv cfg st' := by
  obtain ⟨lw, lm, lo, pairs, -, -, -, h4, hst'⟩ :=
    runSlot_char cfg step idx b lists st st' h
  subst hst'
  have key : ∀ pr ∈ pairs, liveOk cfg pr.1 ∧ compOk cfg pr.2 := by
    intro pr hpr
    obtain ⟨k, hk, hpe⟩ := optMap_mem _ _ _ h4 pr hpr
    obtain ⟨pcl, lp, m, o, pc, cc, pcap, h1, -, -, -, h5, h6, h7, hexp⟩ :=
      processExample_char cfg b lists _ st.live st.comp k pr hpe
    have hpcap : stopFree cfg pcap :=
      hlists pcl (List.get?_mem h1) pcap (List.get?_mem h7)
    have hpc : liveOk cfg pc := hst.1 pc (List.get?_mem h5)
    have hcc : compOk cfg cc := hst.2 cc (List.get?_mem h6)
    exact expandCandidates_stopInv cfg pcap m o pc cc _ pr.1 pr.2
      (by rw [← hexp]) hpcap hpc hcc
  constructor
  · intro t ht
    obtain ⟨pr, hpr, he⟩ := List.mem_map.mp ht
    exact he ▸ (key pr hpr).1
  · intro t ht
    obtain ⟨pr, hpr, he⟩ := List.mem_map.mp ht
    exact he ▸ (key pr hpr).2

theorem runSlots_stopInv {σ : Type} (cfg : Cfg) (step : StepFun σ) (idx : Nat)
    (lists : List (List (Caption σ)))
    (hlists : ∀ pcl ∈ lists, ∀ cap ∈ pcl, stopFree cfg cap) :
    ∀ (bs : List Nat) (st st' : BeamState σ),
      runSlots cfg step idx lists bs st = some st' →
      beamStopInv cfg st → beamStopInv cfg st' := by
  intro bs
  induction bs with
  | nil =>
    intro st st' h hst
    injection h with h'
    exact h' ▸ hst
  | cons b bs' ih =>
    intro st st' h hst
    unfold runSlots at h
    cases h1 : runSlot cfg step idx b lists st with
    | none => rw [h1] at h; exact Option.noConfusion h
    | some st1 =>
      rw [h1] at h
      exact ih st1 st' h (runSlot_stopInv cfg step idx b lists st st1 h1 hlists hst)

theorem runTimestep_stopInv {σ : Type} (cfg : Cfg) (step : StepFun σ) (idx : Nat)
    (st st' : BeamState σ) (h : runTimestep cfg step idx st = some st')
    (hst : beamStopInv cfg st) : beamStopInv cfg st' := by
  obtain ⟨pairs, h1, h2⟩ := runTimestep_char cfg step idx st st' h
  have hlists : ∀ pcl ∈ pairs.map Prod.fst, ∀ cap ∈ pcl, stopFree cfg cap := by
    intro pcl hpcl cap hcap
    obtain ⟨pr, hpr, he⟩ := List.mem_map.mp hpcl
    obtain ⟨t, ht, hex⟩ := optMap_mem _ _ _ h1 pr hpr
    have hlive := hst.1 t ht
    unfold TopN.extract at hex
    cases hd : t.data with
    | none => rw [hd] at hex; exact Option.noConfusion hex
    | some d =>
      rw [hd] at hex
      injection hex with hex'
      have hfst : pr.1 = d := by rw [← hex']; simp
      rw [← he, hfst] at hcap
      exact hlive d hd cap hcap
  have hst1 : beamStopInv cfg ⟨pairs.map (fun p => p.2.reset), st.comp⟩ := by
    constructor
    · intro t ht
      obtain ⟨pr, hpr, he⟩ := List.mem_map.mp ht
      intro d hd cap hcap
      rw [← he] at hd
      unfold TopN.reset at hd
      injection hd with hd'
      rw [← hd'] at hcap
      simp at hcap
    · exact hst.2
  exact runSlots_stopInv cfg step idx (pairs.map Prod.fst) hlists _ _ _ h2 hst1

theorem runLoop_stopInv {σ : Type} (cfg : Cfg) (step : StepFun σ) :
    ∀ (fuel idx : Nat) (st st' : BeamState σ),
      runLoop cfg step idx fuel st = some st' →
      beamStopInv cfg st → beamStopInv cfg st' := by
  intro fuel
  induction fuel with
  | zero =>
    intro idx st st' h hst
    injection h with h'
    exact h' ▸ hst
  | succ f ih =>
    intro idx st st' h hst
    unfold runLoop at h
    cases h1 : runTimestep cfg step idx st with
    | none => rw [h1] at h; exact Option.noConfusion h
    | some st1 =>
      rw [h1] at h
      exact ih (idx + 1) st1 st' h
        (runTimestep_stopInv cfg step idx st st1 h1 hst)

theorem initState_stopInv {σ : Type} (cfg : Cfg) (im io : List σ)
    (st0 : BeamState σ) (h : initState σ cfg im io = some st0) :
    beamStopInv cfg st0 := by
  unfold initState at h
  cases h1 : optMap (fun k =>
      match im.get? k, io.get? k with
      | some m, some o => (TopN.new σ (cfg.beam_size : Int)).push ⟨[], m, o, 0⟩
      | _, _ => none) (List.range cfg.batch_size) with
  | none => rw [h1] at h; exact Option.noConfusion h
  | some pcs =>
  rw [h1] at h
  injection h with h'
  subst h'
  constructor
  · intro t ht
    obtain ⟨k, hk, hpush⟩ := optMap_mem _ _ _ h1 t ht
    cases h2 : im.get? k with
    | none => rw [h2] at hpush; exact Option.noConfusion hpush
    | some m =>
    rw [h2] at hpush
    cases h3 : io.get? k with
    | none => rw [h3] at hpush; exact Option.noConfusion hpush
    | some o =>
    rw [h3] at hpush
    obtain ⟨d, d', hd, hd', -, hmem⟩ := push_mem _ _ _ hpush
    intro dd hdd cap hcap
    rw [hd'] at hdd
    injection hdd with hdd'
    subst hdd'
    rcases hmem cap hcap with h' | h'
    · rw [h']
      intro w hw
      simp at hw
    · -- the fresh container is empty
      have : d = [] := by
        have : (TopN.new σ (cfg.beam_size : Int)).data = some [] := rfl
        rw [this] at hd
        injection hd with he
        exact he.symm
      rw [this] at h'
      simp at h'
  · intro t ht
    have := List.eq_of_mem_replicate ht
    rw [this]
    intro d hd cap hcap
    have hd0 : (TopN.new σ (cfg.beam_size : Int)).data = some [] := rfl
    rw [hd0] at hd
    injection hd with hd'
    subst hd'
    simp at hcap

theorem extract_mem {σ : Type} (t : TopN σ) (srt : Bool) (res : List (Caption σ))
    (t' : TopN σ) (h : t.extract srt = some (res, t')) :
    ∃ d, t.data = some d ∧ (∀ cap ∈ res, cap ∈ d) ∧ t' = ⟨t.n, none⟩ := by
  unfold TopN.extract at h
  cases hd : t.data with
  | none => rw [hd] at h; exact Option.noConfusion h
  | some d =>
    rw [hd] at h
    injection h with h'
    injection h' with ha hb
    refine ⟨d, rfl, ?_, hb.symm⟩
    intro cap hcap
    rw [← ha] at hcap
    by_cases hs : srt = true
    · rw [if_pos hs] at hcap
      exact (sortDescBy_perm Caption.score d).mem_iff.mp hcap
    · rw [if_neg hs] at hcap
      exact hcap

theorem finalizeExample_char {σ : Type} (pcs ccs : List (TopN σ)) (k : Nat)
    (r : List (Caption σ)) (h : finalizeExample pcs ccs k = some r) :
    ∃ cc0 pc sz, ccs.get? k = some cc0 ∧ pcs.get? k = some pc ∧
      cc0.size = some sz ∧
      ∃ t', (if sz == 0 then pc else cc0).extract true = some (r, t') := by
  unfold finalizeExample at h
  cases h1 : ccs.get? k with
  | none => rw [h1] at h; exact Option.noConfusion h
  | some cc0 =>
  rw [h1] at h
  cases h2 : pcs.get? k with
  | none => rw [h2] at h; exact Option.noConfusion h
  | some pc =>
  rw [h2] at h
  have h' : (match cc0.size with
      | some sz =>
        match (if sz == 0 then pc else cc0).extract true with
        | some (res, _) => some res
        | none => none
      | none => none) = some r := h
  cases h3 : cc0.size with
  | none => rw [h3] at h'; exact Option.noConfusion h'
  | some sz =>
  rw [h3] at h'
  have h'' : (match (if sz == 0 then pc else cc0).extract true with
      | some (res, _) => some res
      | none => none) = some r := h'
  cases h4 : (if sz == 0 then pc else cc0).extract true with
  | none => rw [h4] at h''; exact Option.noConfusion h''
  | some pr =>
  rw [h4] at h''
  cases pr with
  | mk res t' =>
    injection h'' with h3'
    subst h3'
    exact ⟨cc0, pc, sz, rfl, rfl, h3, t', h4⟩

theorem beam_search_char {σ : Type} (cfg : Cfg) (step : StepFun σ)
    (im io : List σ) (results : List (List (Caption σ)))
    (h : beam_search σ cfg step im io = some results) :
    ∃ st0 stF, initState σ cfg im io = some st0 ∧
      runLoop cfg step 0 cfg.max_sent_len st0 = some stF ∧
      optMap (finalizeExample stF.live stF.comp) (List.range cfg.batch_size)
        = some results := by
  unfold beam_search at h
  cases h1 : initState σ cfg im io with
  | none => rw [h1] at h; exact Option.noConfusion h
  | some st0 =>
  rw [h1] at h
  have h' : (match runLoop cfg step 0 cfg.max_sent_len st0 with
      | some stF =>
        optMap (finalizeExample stF.live stF.comp) (List.range cfg.batch_size)
      | none => none) = some results := h
  cases h2 : runLoop cfg step 0 cfg.max_sent_len st0 with
  | none => rw [h2] at h'; exact Option.noConfusion h'
  | some stF =>
  rw [h2] at h'
  exact ⟨st0, stF, rfl, h2, h'⟩

theorem beam_search_stop_discipline {σ : Type} (cfg : Cfg) (step : StepFun σ)
    (im io : List σ) (results : List (List (Caption σ)))
    (h : beam_search σ cfg step im io = some results) :
    ∀ r ∈ results, ∀ cap ∈ r, stopFree cfg cap ∨ stopTerminated cfg cap := by
  obtain ⟨st0, stF, h1, h2, h3⟩ := beam_search_char cfg step im io results h
  have hinv0 := initState_stopInv cfg im io st0 h1
  have hinvF := runLoop_stopInv cfg step cfg.max_sent_len 0 st0 stF h2 hinv0
  intro r hr cap hcap
  obtain ⟨k, hk, hfin⟩ := optMap_mem _ _ _ h3 r hr
  obtain ⟨cc0, pc, sz, hcc0, hpc, hsz, t', hext⟩ :=
    finalizeExample_char stF.live stF.comp k r hfin
  by_cases hszz : sz == 0
  · rw [if_pos hszz] at hext
    obtain ⟨d, hd, hmem, -⟩ := extract_mem pc true r t' hext
    exact Or.inl (hinvF.1 pc (List.get?_mem hpc) d hd cap (hmem cap hcap))
  · rw [if_neg hszz] at hext
    obtain ⟨d, hd, hmem, -⟩ := extract_mem cc0 true r t' hext
    exact Or.inr (hinvF.2 cc0 (List.get?_mem hcc0) d hd cap (hmem cap hcap))

/-! ### Constructive size bounds through one slot -/

theorem runSlot_sized {σ : Type} (cfg : Cfg) (step : StepFun σ) (idx b t : Nat)
    (lists : List (List (Caption σ))) (st : BeamState σ) (lb nstop : Nat)
    (hbs : 1 ≤ cfg.beam_size)
    (hshape : StepShapes σ cfg step)
    (hnstop : ∀ lw lm lo, ∀ lp ∈ (step (idx == 0) lw lm lo).logprobs,
      ((selectTop cfg.beam_size lp).filter (fun p => isStopWord cfg p.1)).length ≤ nstop)
    (hLlen : lists.length = cfg.batch_size)
    (hb : ∀ pcl ∈ lists, b < pcl.length)
    (hsent : ∀ pcl ∈ lists, ∀ cap ∈ pcl, cap.sentence.length = t)
    (hne : idx ≠ 0 → 1 ≤ t)
    (hlive_len : st.live.length = cfg.batch_size)
    (hcomp_len : st.comp.length = cfg.batch_size)
    (hlive : ∀ tn ∈ st.live, tn.n = (cfg.beam_size : Int) ∧ ∃ d, tn.data = some d ∧
      lb ≤ d.length ∧ d.length ≤ cfg.beam_size ∧
      ∀ cap ∈ d, cap.sentence.length = t + 1)
    (hcomp : ∀ tn ∈ st.comp, tn.n = (cfg.beam_size : Int) ∧
      ∃ d, tn.data = some d ∧ d.length ≤ cfg.beam_size) :
    ∃ st', runSlot cfg step idx b lists st = some st' ∧
      st'.live.length = cfg.batch_size ∧ st'.comp.length = cfg.batch_size ∧
      (∀ tn ∈ st'.live, tn.n = (cfg.beam_size : Int) ∧ ∃ d, tn.data = some d ∧
        min (lb + (cfg.beam_size - nstop)) cfg.beam_size ≤ d.length ∧
        d.length ≤ cfg.beam_size ∧
        ∀ cap ∈ d, cap.sentence.length = t + 1) ∧
      (∀ tn ∈ st'.comp, tn.n = (cfg.beam_size : Int) ∧
        ∃ d, tn.data = some d ∧ d.length ≤ cfg.beam_size) ∧
      (nstop = 0 → st'.comp = st.comp) := by
  -- the last_word batch succeeds
  have hlw : ∃ lw, (if idx == 0 then some (List.replicate cfg.batch_size 0)
      else optMap (fun pcl => (pcl.get? b).bind
        (fun c => c.sentence.getLast?)) lists) = some lw := by
    by_cases h0 : idx == 0
    · exact ⟨_, by rw [if_pos h0]⟩
    · rw [if_neg h0]
      apply optMap_total
      intro pcl hpcl
      obtain ⟨pcap, hpcap⟩ := get?_some_of_lt pcl b (hb pcl hpcl)
      rw [hpcap]
      have hlen1 : 1 ≤ pcap.sentence.length := by
        have := hsent pcl hpcl pcap (List.get?_mem hpcap)
        have ht1 : 1 ≤ t := hne (by simpa using h0)
        omega
      have hnn : pcap.sentence ≠ [] := by
        intro he
        rw [he] at hlen1
        simp at hlen1
      have hw : pcap.sentence.getLast? = some (pcap.sentence.getLast hnn) :=
        List.getLast?_eq_getLast _ hnn
      show ((some pcap).bind fun c => c.sentence.getLast?).isSome
      simp [hw]
  obtain ⟨lw, hlw⟩ := hlw
  have hlm : ∃ lm, optMap (fun pcl => (pcl.get? b).map Caption.memory) lists
      = some lm := by
    apply optMap_total
    intro pcl hpcl
    obtain ⟨pcap, hpcap⟩ := get?_some_of_lt pcl b (hb pcl hpcl)
    rw [hpcap]
    rfl
  obtain ⟨lm, hlm⟩ := hlm
  have hlo : ∃ lo, optMap (fun pcl => (pcl.get? b).map Caption.output) lists
      = some lo := by
    apply optMap_total
    intro pcl hpcl
    obtain ⟨pcap, hpcap⟩ := get?_some_of_lt pcl b (hb pcl hpcl)
    rw [hpcap]
    rfl
  obtain ⟨lo, hlo⟩ := hlo
  set so := step (idx == 0) lw lm lo with hso
  obtain ⟨hso1, hso2, hso3, hso4⟩ := hshape (idx == 0) lw lm lo
  -- the per-example loop succeeds, row by row
  have hrows : ∀ k ∈ List.range cfg.batch_size,
      (processExample cfg b lists so st.live st.comp k).isSome := by
    intro k hk
    have hkb : k < cfg.batch_size := List.mem_range.mp hk
    obtain ⟨pcl, hpcl⟩ := get?_some_of_lt lists k (by omega)
    obtain ⟨lp, hlp⟩ := get?_some_of_lt so.logprobs k (by rw [← hso] at hso3; omega)
    obtain ⟨m, hm⟩ := get?_some_of_lt so.memory k (by rw [← hso] at hso1; omega)
    obtain ⟨o, ho⟩ := get?_some_of_lt so.output k (by rw [← hso] at hso2; omega)
    obtain ⟨pc, hpc⟩ := get?_some_of_lt st.live k (by omega)
    obtain ⟨cc, hcc⟩ := get?_some_of_lt st.comp k (by omega)
    obtain ⟨pcap, hpcap⟩ := get?_some_of_lt pcl b (hb pcl (List.get?_mem hpcl))
    have hpe : processExample cfg b lists so st.live st.comp k
        = expandCandidates cfg pcap m o pc cc (selectTop cfg.beam_size lp) := by
      unfold processExample
      rw [hpcl, hlp, hm, ho, hpc, hcc]
      show (match pcl.get? b with
        | some pcap => expandCandidates cfg pcap m o pc cc (selectTop cfg.beam_size lp)
        | none => none) = _
      rw [hpcap]
    rw [hpe, expandCandidates_eq_pushAll]
    obtain ⟨-, hdpc⟩ := hlive pc (List.get?_mem hpc)
    obtain ⟨dpc, hdpc1, -, hdpc3, -⟩ := hdpc
    obtain ⟨-, dcc, hdcc1, hdcc2⟩ := hcomp cc (List.get?_mem hcc)
    obtain ⟨d1, hpa1, -, -⟩ := pushAll_data cfg.beam_size _ pc dpc
      ((hlive pc (List.get?_mem hpc)).1) hdpc1 hdpc3
    obtain ⟨d2, hpa2, -, -⟩ := pushAll_data cfg.beam_size _ cc dcc
      ((hcomp cc (List.get?_mem hcc)).1) hdcc1 hdcc2
    rw [hpa1, hpa2]
    rfl
  obtain ⟨pairs, hpairs⟩ := optMap_total _ _ hrows
  have hrun : runSlot cfg step idx b lists st
      = some ⟨pairs.map Prod.fst, pairs.map Prod.snd⟩ := by
    unfold runSlot
    rw [hlw, hlm, hlo]
    show (match optMap (processExample cfg b lists so st.live st.comp)
        (List.range cfg.batch_size) with
      | some pairs => some (⟨pairs.map Prod.fst, pairs.map Prod.snd⟩ : BeamState σ)
      | none => none) = _
    rw [hpairs]
  obtain ⟨hplen, hpget⟩ := optMap_spec _ _ _ hpairs
  have hplen' : pairs.length = cfg.batch_size := by
    rw [hplen, List.length_range]
  -- characterize each produced pair, indexed
  have hpair_spec : ∀ k pr, pairs.get? k = some pr →
      (pr.1.n = (cfg.beam_size : Int) ∧ ∃ d, pr.1.data = some d ∧
        min (lb + (cfg.beam_size - nstop)) cfg.beam_size ≤ d.length ∧
        d.length ≤ cfg.beam_size ∧
        ∀ cap ∈ d, cap.sentence.length = t + 1) ∧
      (pr.2.n = (cfg.beam_size : Int) ∧ ∃ d, pr.2.data = some d ∧
        d.length ≤ cfg.beam_size) ∧
      (nstop = 0 → st.comp.get? k = some pr.2) := by
    intro kk pr hkk
    have hkrange := hpget kk
    rw [hkk] at hkrange
    have hkb : kk < cfg.batch_size := by
      have := get?_lt_length pairs kk pr hkk
      omega
    rw [get?_range, if_pos hkb] at hkrange
    have hpe : processExample cfg b lists so st.live st.comp kk = some pr := by
      have h' : (some kk).bind (processExample cfg b lists so st.live st.comp)
          = some pr := hkrange.symm
      simpa using h'
    obtain ⟨pcl, lp, m, o, pc, cc, pcap, h1, h2, h3, h4, h5, h6, h7, hexp⟩ :=
      processExample_char cfg b lists so st.live st.comp kk pr hpe
    rw [expandCandidates_eq_pushAll] at hexp
    obtain ⟨hpcn, dpc, hdpc1, hlb, hdpc3, hdsent⟩ := hlive pc (List.get?_mem h5)
    obtain ⟨hccn, dcc, hdcc1, hdcc2⟩ := hcomp cc (List.get?_mem h6)
    have hlp_len : cfg.beam_size ≤ lp.length := hso4 lp (List.get?_mem h2)
    obtain ⟨hsel_len, -, -, -⟩ := selectTop_spec cfg.beam_size lp hlp_len
    have hsplit : ((selectTop cfg.beam_size lp).filter
          (fun p => isStopWord cfg p.1)).length +
        ((selectTop cfg.beam_size lp).filter
          (fun p => ! isStopWord cfg p.1)).length = cfg.beam_size := by
      have hp := (List.filter_append_perm (fun p => isStopWord cfg p.1)
        (selectTop cfg.beam_size lp)).length_eq
      rw [List.length_append] at hp
      omega
    have hstop_le : ((selectTop cfg.beam_size lp).filter
        (fun p => isStopWord cfg p.1)).length ≤ nstop :=
      hnstop lw lm lo lp (List.get?_mem h2)
    obtain ⟨d1, hpa1, hlen1, hmem1⟩ :=
      pushAll_data cfg.beam_size _ pc dpc hpcn hdpc1 hdpc3
    obtain ⟨d2, hpa2, hlen2, hmem2⟩ :=
      pushAll_data cfg.beam_size _ cc dcc hccn hdcc1 hdcc2
    rw [hpa1, hpa2] at hexp
    have hpr_eq : pr = (⟨(cfg.beam_size : Int), some d1⟩,
        ⟨(cfg.beam_size : Int), some d2⟩) := by
      injection hexp with he
      exact he.symm
    refine ⟨?_, ?_, ?_⟩
    · rw [hpr_eq]
      refine ⟨rfl, d1, rfl, ?_, ?_, ?_⟩
      · rw [hlen1, List.length_map]
        omega
      · rw [hlen1]; omega
      · intro cap hcap
        rcases hmem1 cap hcap with h' | h'
        · exact hdsent cap h'
        · obtain ⟨p, hp, hext⟩ := List.mem_map.mp h'
          rw [← hext]
          show (pcap.sentence ++ [p.1]).length = t + 1
          rw [List.length_append]
          have := hsent pcl (List.get?_mem h1) pcap (List.get?_mem h7)
          simp [this]
    · rw [hpr_eq]
      refine ⟨rfl, d2, rfl, ?_⟩
      rw [hlen2]; omega
    · intro hns
      have hSRnil : ((selectTop cfg.beam_size lp).filter
          (fun p => isStopWord cfg p.1)) = [] := by
        rw [hns] at hstop_le
        exact List.length_eq_zero.mp (by omega)
      rw [hSRnil] at hpa2
      have hid : pushAll cc (List.map (extendCap pcap m o)
          ([] : List (Nat × ℚ))) = some cc := rfl
      rw [hid] at hpa2
      injection hpa2 with he2
      rw [hpr_eq]
      show st.comp.get? kk = some (⟨(cfg.beam_size : Int), some d2⟩ : TopN σ)
      rw [← he2]
      exact h6
  refine ⟨⟨pairs.map Prod.fst, pairs.map Prod.snd⟩, hrun, ?_, ?_, ?_, ?_, ?_⟩
  · show (pairs.map Prod.fst).length = cfg.batch_size
    rw [List.length_map]; exact hplen'
  · show (pairs.map Prod.snd).length = cfg.batch_size
    rw [List.length_map]; exact hplen'
  · intro tn htn
    obtain ⟨pr, hpr, he⟩ := List.mem_map.mp htn
    obtain ⟨k, hk⟩ := List.mem_iff_get?.mp hpr
    exact he ▸ (hpair_spec k pr hk).1
  · intro tn htn
    obtain ⟨pr, hpr, he⟩ := List.mem_map.mp htn
    obtain ⟨k, hk⟩ := List.mem_iff_get?.mp hpr
    exact he ▸ (hpair_spec k pr hk).2.1
  · intro hns
    show pairs.map Prod.snd = st.comp
    apply List.ext_get?
    intro k
    by_cases hkb : k < pairs.length
    · obtain ⟨pr, hpr⟩ := get?_some_of_lt pairs k hkb
      have hmap : (pairs.map Prod.snd).get? k = some pr.2 := by
        rw [List.get?_map, hpr]
        rfl
      rw [hmap, ((hpair_spec k pr hpr).2.2 hns)]
    · have h1 : (pairs.map Prod.snd).get? k = none := by
        apply List.get?_len_le
        rw [List.length_map]
        omega
      have h2 : st.comp.get? k = none := by
        apply List.get?_len_le
        omega
      rw [h1, h2]

theorem slotsLB_shift (bs nstop lb : Nat) :
    ∀ j, slotsLB bs nstop (min (lb + (bs - nstop)) bs) j
      = slotsLB bs nstop lb (j + 1) := by
  intro j
  induction j with
  | zero => rfl
  | succ j' ih =>
    show min (slotsLB bs nstop (min (lb + (bs - nstop)) bs) j' + (bs - nstop)) bs
      = min (slotsLB bs nstop lb (j' + 1) + (bs - nstop)) bs
    rw [ih]

theorem runSlots_sized {σ : Type} (cfg : Cfg) (step : StepFun σ) (idx t : Nat)
    (lists : List (List (Caption σ))) (nstop : Nat)
    (hbs : 1 ≤ cfg.beam_size)
    (hshape : StepShapes σ cfg step)
    (hnstop : ∀ lw lm lo, ∀ lp ∈ (step (idx == 0) lw lm lo).logprobs,
      ((selectTop cfg.beam_size lp).filter (fun p => isStopWord cfg p.1)).length ≤ nstop)
    (hLlen : lists.length = cfg.batch_size)
    (hsent : ∀ pcl ∈ lists, ∀ cap ∈ pcl, cap.sentence.length = t)
    (hne : idx ≠ 0 → 1 ≤ t) :
    ∀ (bsl : List Nat) (st : BeamState σ) (lb : Nat),
      (∀ b ∈ bsl, ∀ pcl ∈ lists, b < pcl.length) →
      st.live.length = cfg.batch_size → st.comp.length = cfg.batch_size →
      (∀ tn ∈ st.live, tn.n = (cfg.beam_size : Int) ∧ ∃ d, tn.data = some d ∧
        lb ≤ d.length ∧ d.length ≤ cfg.beam_size ∧
        ∀ cap ∈ d, cap.sentence.length = t + 1) →
      (∀ tn ∈ st.comp, tn.n = (cfg.beam_size : Int) ∧
        ∃ d, tn.data = some d ∧ d.length ≤ cfg.beam_size) →
      ∃ st', runSlots cfg step idx lists bsl st = some st' ∧
        st'.live.length = cfg.batch_size ∧ st'.comp.length = cfg.batch_size ∧
        (∀ tn ∈ st'.live, tn.n = (cfg.beam_size : Int) ∧ ∃ d, tn.data = some d ∧
          slotsLB cfg.beam_size nstop lb bsl.length ≤ d.length ∧
          d.length ≤ cfg.beam_size ∧
          ∀ cap ∈ d, cap.sentence.length = t + 1) ∧
        (∀ tn ∈ st'.comp, tn.n = (cfg.beam_size : Int) ∧
          ∃ d, tn.data = some d ∧ d.length ≤ cfg.beam_size) ∧
        (nstop = 0 → st'.comp = st.comp) := by
  intro bsl
  induction bsl with
  | nil =>
    intro st lb hball hll hcl hlive hcomp
    exact ⟨st, rfl, hll, hcl, hlive, hcomp, fun _ => rfl⟩
  | cons b bsl' ih =>
    intro st lb hball hll hcl hlive hcomp
    obtain ⟨st1, hrun1, hll1, hcl1, hlive1, hcomp1, hsame1⟩ :=
      runSlot_sized cfg step idx b t lists st lb nstop hbs hshape hnstop hLlen
        (hball b (List.mem_cons_self _ _)) hsent hne hll hcl hlive hcomp
    obtain ⟨st', hrun', hll', hcl', hlive', hcomp', hsame'⟩ :=
      ih st1 (min (lb + (cfg.beam_size - nstop)) cfg.beam_size)
        (fun b' hb' => hball b' (List.mem_cons_of_mem _ hb'))
        hll1 hcl1 hlive1 hcomp1
    refine ⟨st', ?_, hll', hcl', ?_, hcomp', ?_⟩
    · unfold runSlots
      rw [hrun1]
      exact hrun'
    · intro tn htn
      obtain ⟨hn, d, hd, hlb, hub, hsent'⟩ := hlive' tn htn
      refine ⟨hn, d, hd, ?_, hub, hsent'⟩
      rw [List.length_cons, ← slotsLB_shift]
      exact hlb
    · intro hns
      rw [hsame' hns, hsame1 hns]

theorem runTimestep_sized {σ : Type} (cfg : Cfg) (step : StepFun σ) (t : Nat)
    (st : BeamState σ) (nstop : Nat)
    (hbs : 1 ≤ cfg.beam_size)
    (hshape : StepShapes σ cfg step)
    (hnstop : ∀ lw lm lo, ∀ lp ∈ (step (t == 0) lw lm lo).logprobs,
      ((selectTop cfg.beam_size lp).filter (fun p => isStopWord cfg p.1)).length ≤ nstop)
    (hreach : slotsLB cfg.beam_size nstop 0
      (if t = 0 then 1 else cfg.beam_size) = cfg.beam_size)
    (hll : st.live.length = cfg.batch_size)
    (hcl : st.comp.length = cfg.batch_size)
    (hlive : ∀ tn ∈ st.live, tn.n = (cfg.beam_size : Int) ∧ ∃ d, tn.data = some d ∧
      d.length = (if t = 0 then 1 else cfg.beam_size) ∧
      ∀ cap ∈ d, cap.sentence.length = t)
    (hcomp : ∀ tn ∈ st.comp, tn.n = (cfg.beam_size : Int) ∧
      ∃ d, tn.data = some d ∧ d.length ≤ cfg.beam_size) :
    ∃ st', runTimestep cfg step t st = some st' ∧
      st'.live.length = cfg.batch_size ∧ st'.comp.length = cfg.batch_size ∧
      (∀ tn ∈ st'.live, tn.n = (cfg.beam_size : Int) ∧ ∃ d, tn.data = some d ∧
        d.length = cfg.beam_size ∧ ∀ cap ∈ d, cap.sentence.length = t + 1) ∧
      (∀ tn ∈ st'.comp, tn.n = (cfg.beam_size : Int) ∧
        ∃ d, tn.data = some d ∧ d.length ≤ cfg.beam_size) ∧
      (nstop = 0 → st'.comp = st.comp) := by
  have hext : ∀ tn ∈ st.live, (tn.extract false).isSome := by
    intro tn htn
    obtain ⟨-, d, hd, -⟩ := hlive tn htn
    unfold TopN.extract
    rw [hd]
    rfl
  obtain ⟨pairs, hpairs⟩ := optMap_total _ _ hext
  obtain ⟨hplen, hpget⟩ := optMap_spec _ _ _ hpairs
  set lists := pairs.map Prod.fst with hlists
  have hLlen : lists.length = cfg.batch_size := by
    rw [hlists, List.length_map, hplen, hll]
  -- each extracted list is the row's data
  have hrow : ∀ pr ∈ pairs, ∃ tn ∈ st.live, tn.extract false = some pr := by
    intro pr hpr
    exact optMap_mem _ _ _ hpairs pr hpr
  have hlist_char : ∀ pcl ∈ lists, ∃ tn ∈ st.live, ∃ d, tn.data = some d ∧ pcl = d := by
    intro pcl hpcl
    obtain ⟨pr, hpr, he⟩ := List.mem_map.mp hpcl
    obtain ⟨tn, htn, hex⟩ := hrow pr hpr
    obtain ⟨-, d, hd, -⟩ := hlive tn htn
    unfold TopN.extract at hex
    rw [hd] at hex
    injection hex with hex'
    refine ⟨tn, htn, d, hd, ?_⟩
    rw [← he]
    have : pr.1 = if false then sortDescBy Caption.score d else d := by
      rw [← hex']
    simpa using this
  have hsent : ∀ pcl ∈ lists, ∀ cap ∈ pcl, cap.sentence.length = t := by
    intro pcl hpcl cap hcap
    obtain ⟨tn, htn, d, hd, he⟩ := hlist_char pcl hpcl
    obtain ⟨-, d', hd', -, hsent'⟩ := hlive tn htn
    rw [hd] at hd'
    injection hd' with hdd
    subst he
    exact hsent' cap (by rw [← hdd]; exact hcap)
  have hrow_len : ∀ pcl ∈ lists, pcl.length = (if t = 0 then 1 else cfg.beam_size) := by
    intro pcl hpcl
    obtain ⟨tn, htn, d, hd, he⟩ := hlist_char pcl hpcl
    obtain ⟨-, d', hd', hlen', -⟩ := hlive tn htn
    rw [hd] at hd'
    injection hd' with hdd
    subst he
    rw [hdd]
    exact hlen'
  -- the intermediate state after resets
  set st1 : BeamState σ := ⟨pairs.map (fun p => p.2.reset), st.comp⟩ with hst1
  have hll1 : st1.live.length = cfg.batch_size := by
    rw [hst1]
    show (pairs.map (fun p => p.2.reset)).length = _
    rw [List.length_map, hplen, hll]
  have hlive1 : ∀ tn ∈ st1.live, tn.n = (cfg.beam_size : Int) ∧
      ∃ d, tn.data = some d ∧ 0 ≤ d.length ∧ d.length ≤ cfg.beam_size ∧
        ∀ cap ∈ d, cap.sentence.length = t + 1 := by
    intro tn htn
    obtain ⟨pr, hpr, he⟩ := List.mem_map.mp htn
    obtain ⟨tn0, htn0, hex⟩ := hrow pr hpr
    obtain ⟨hn0, d, hd, -⟩ := hlive tn0 htn0
    unfold TopN.extract at hex
    rw [hd] at hex
    injection hex with hex'
    have hsnd : pr.2 = ⟨tn0.n, none⟩ := by rw [← hex']
    have : tn = ⟨tn0.n, some []⟩ := by
      rw [← he, hsnd]
      rfl
    rw [this]
    refine ⟨hn0, [], rfl, Nat.zero_le _, ?_, ?_⟩
    · simp only [List.length_nil]
      exact Nat.zero_le _
    · intro cap hcap
      simp at hcap
  have hnum : ∀ b ∈ List.range (if (t == 0) = true then 1 else cfg.beam_size),
      ∀ pcl ∈ lists, b < pcl.length := by
    intro b hb pcl hpcl
    rw [hrow_len pcl hpcl]
    have hblt := List.mem_range.mp hb
    by_cases h0 : t = 0
    · simp only [h0] at hblt ⊢
      simpa using hblt
    · have : (t == 0) = false := by simpa using h0
      rw [this] at hblt
      simp only [h0, if_false]
      simpa using hblt
  obtain ⟨st', hrun', hll', hcl', hlive', hcomp', hsame'⟩ :=
    runSlots_sized cfg step t t lists nstop hbs hshape hnstop hLlen hsent
      (fun h0 => by omega)
      (List.range (if (t == 0) = true then 1 else cfg.beam_size)) st1 0 hnum
      hll1 (by rw [hst1]; exact hcl) hlive1 (by rw [hst1]; exact hcomp)
  refine ⟨st', ?_, hll', hcl', ?_, hcomp', hsame'⟩
  · unfold runTimestep
    rw [hpairs]
    exact hrun'
  · intro tn htn
    obtain ⟨hn, d, hd, hlb, hub, hsent''⟩ := hlive' tn htn
    refine ⟨hn, d, hd, ?_, hsent''⟩
    rw [List.length_range] at hlb
    have hreach' : slotsLB cfg.beam_size nstop 0
        (if (t == 0) = true then 1 else cfg.beam_size) = cfg.beam_size := by
      by_cases h0 : t = 0
      · simp only [h0] at hreach ⊢
        simpa using hreach
      · have hb0 : (t == 0) = false := by simpa using h0
        rw [hb0]
        simp only [h0, if_false] at hreach
        simpa using hreach
    rw [hreach'] at hlb
    omega

theorem slotsLB_zero_succ (bs lb j : Nat) : slotsLB bs 0 lb (j + 1) = bs := by
  simp only [slotsLB]
  omega

theorem runLoop_sized {σ : Type} (cfg : Cfg) (step : StepFun σ)
    (hbs : 1 ≤ cfg.beam_size) (hshape : StepShapes σ cfg step)
    (hns : NoStopChosen σ cfg step) :
    ∀ (fuel t : Nat) (st : BeamState σ),
      sizesInv σ cfg (if t = 0 then 1 else cfg.beam_size) t st →
      ∃ st', runLoop cfg step t fuel st = some st' ∧
        sizesInv σ cfg (if t + fuel = 0 then 1 else cfg.beam_size) (t + fuel) st' ∧
        st'.comp = st.comp := by
  intro fuel
  induction fuel with
  | zero =>
    intro t st hst
    exact ⟨st, rfl, by simpa using hst, rfl⟩
  | succ fuel ih =>
    intro t st hst
    obtain ⟨hll, hcl, hlive, hcomp⟩ := hst
    have hn0 : ∀ lw lm lo, ∀ lp ∈ (step (t == 0) lw lm lo).logprobs,
        ((selectTop cfg.beam_size lp).filter (fun p => isStopWord cfg p.1)).length ≤ 0 := by
      intro lw lm lo lp hlp
      have hnil : (selectTop cfg.beam_size lp).filter (fun p => isStopWord cfg p.1) = [] := by
        apply List.filter_eq_nil.mpr
        intro p hp
        simpa using hns (t == 0) lw lm lo lp hlp p hp
      rw [hnil]
      exact Nat.le_refl 0
    have hreach : slotsLB cfg.beam_size 0 0
        (if t = 0 then 1 else cfg.beam_size) = cfg.beam_size := by
      by_cases h0 : t = 0
      · rw [if_pos h0]
        exact slotsLB_zero_succ cfg.beam_size 0 0
      · rw [if_neg h0]
        obtain ⟨m, hm⟩ : ∃ m, cfg.beam_size = m + 1 := ⟨cfg.beam_size - 1, by omega⟩
        conv_lhs => rw [hm]
        rw [slotsLB_zero_succ, hm]
    obtain ⟨st1, hrun1, hll1, hcl1, hlive1, hcomp1, hsame1⟩ :=
      runTimestep_sized cfg step t st 0 hbs hshape hn0 hreach hll hcl hlive hcomp
    have hst1 : sizesInv σ cfg (if t + 1 = 0 then 1 else cfg.beam_size) (t + 1) st1 := by
      refine ⟨hll1, hcl1, ?_, hcomp1⟩
      intro tn htn
      simpa [Nat.succ_ne_zero] using hlive1 tn htn
    obtain ⟨st', hrun', hinv', hsame'⟩ := ih (t + 1) st1 hst1
    have hstep : runLoop cfg step t (fuel + 1) st = runLoop cfg step (t + 1) fuel st1 := by
      have hdef : runLoop cfg step t (fuel + 1) st =
          match runTimestep cfg step t st with
          | some st2 => runLoop cfg step (t + 1) fuel st2
          | none => none := rfl
      rw [hdef, hrun1]
    have harith : t + (fuel + 1) = t + 1 + fuel := by omega
    refine ⟨st', ?_, ?_, ?_⟩
    · rw [hstep]
      exact hrun'
    · rw [harith]
      exact hinv'
    · rw [hsame', hsame1 rfl]

theorem initState_sized {σ : Type} (cfg : Cfg) (im io : List σ)
    (hbs : 1 ≤ cfg.beam_size)
    (him : cfg.batch_size ≤ im.length) (hio : cfg.batch_size ≤ io.length) :
    ∃ st0, initState σ cfg im io = some st0 ∧
      sizesInv σ cfg 1 0 st0 ∧
      st0.comp = List.replicate cfg.batch_size (TopN.new σ (cfg.beam_size : Int)) := by
  have htot : ∀ k ∈ List.range cfg.batch_size,
      ((fun k =>
        match im.get? k, io.get? k with
        | some m, some o => (TopN.new σ (cfg.beam_size : Int)).push ⟨[], m, o, 0⟩
        | _, _ => none) k).isSome := by
    intro k hk
    have hkb := List.mem_range.mp hk
    obtain ⟨m, hm⟩ := get?_some_of_lt im k (by omega)
    obtain ⟨o, ho⟩ := get?_some_of_lt io k (by omega)
    obtain ⟨d', hpush, -, -⟩ :=
      push_step_data cfg.beam_size (TopN.new σ (cfg.beam_size : Int)) []
        (⟨[], m, o, 0⟩ : Caption σ) rfl rfl (Nat.zero_le _)
    simp only [hm, ho, hpush]
    rfl
  obtain ⟨pcs, hpcs⟩ := optMap_total _ _ htot
  obtain ⟨hplen, -⟩ := optMap_spec _ _ _ hpcs
  refine ⟨⟨pcs, List.replicate cfg.batch_size (TopN.new σ (cfg.beam_size : Int))⟩,
    ?_, ⟨?_, ?_, ?_, ?_⟩, rfl⟩
  · unfold initState
    rw [hpcs]
  · show pcs.length = _
    rw [hplen, List.length_range]
  · show (List.replicate _ _).length = _
    rw [List.length_replicate]
  · intro tn htn
    obtain ⟨k, -, hfk⟩ := optMap_mem _ _ _ hpcs tn htn
    cases hm : im.get? k with
    | none => rw [hm] at hfk; exact Option.noConfusion hfk
    | some m =>
    cases ho : io.get? k with
    | none => rw [hm, ho] at hfk; exact Option.noConfusion hfk
    | some o =>
    rw [hm, ho] at hfk
    have hfk2 : (TopN.new σ (cfg.beam_size : Int)).push ⟨[], m, o, 0⟩ = some tn := hfk
    obtain ⟨d', hpush, hlen, hmem⟩ :=
      push_step_data cfg.beam_size (TopN.new σ (cfg.beam_size : Int)) []
        (⟨[], m, o, 0⟩ : Caption σ) rfl rfl (Nat.zero_le _)
    rw [hpush] at hfk2
    injection hfk2 with hfk'
    subst hfk'
    refine ⟨rfl, d', rfl, ?_, ?_⟩
    · simp only [List.length_nil] at hlen
      omega
    · intro cap hcap
      rcases hmem cap hcap with h | h
      · rw [h]
        rfl
      · simp at h
  · intro tn htn
    have := List.eq_of_mem_replicate htn
    subst this
    exact ⟨rfl, [], rfl, Nat.zero_le _⟩

theorem finalizeExample_sized {σ : Type} (cfg : Cfg) (sz tt : Nat)
    (st : BeamState σ)
    (hinv : sizesInv σ cfg sz tt st)
    (hce : compEmpty cfg st) :
    ∀ k < cfg.batch_size, ∃ pc d, st.live.get? k = some pc ∧ pc.data = some d ∧
      d.length = sz ∧
      finalizeExample st.live st.comp k = some (sortDescBy Caption.score d) := by
  intro k hk
  obtain ⟨hll, hcl, hlive, -⟩ := hinv
  obtain ⟨pc, hpc⟩ := get?_some_of_lt st.live k (by omega)
  obtain ⟨cc0, hcc0⟩ := get?_some_of_lt st.comp k (by omega)
  obtain ⟨-, d, hd, hdlen, -⟩ := hlive pc (List.get?_mem hpc)
  have hcc0e : cc0 = ⟨(cfg.beam_size : Int), some []⟩ := hce cc0 (List.get?_mem hcc0)
  refine ⟨pc, d, hpc, hd, hdlen, ?_⟩
  have hext : pc.extract true = some (sortDescBy Caption.score d, ⟨pc.n, none⟩) := by
    unfold TopN.extract
    rw [hd]
    rfl
  have hdef : finalizeExample st.live st.comp k =
      match st.comp.get? k, st.live.get? k with
      | some cc0, some pc =>
        match cc0.size with
        | some sz =>
          match (if sz == 0 then pc else cc0).extract true with
          | some (res, _) => some res
          | none => none
        | none => none
      | _, _ => none := rfl
  rw [hdef, hcc0, hpc, hcc0e]
  have hred : (match some (⟨(cfg.beam_size : Int), some []⟩ : TopN σ), some pc with
      | some cc0, some pc =>
        match cc0.size with
        | some sz =>
          match (if sz == 0 then pc else cc0).extract true with
          | some (res, _) => some res
          | none => none
        | none => none
      | _, _ => none) =
      (match pc.extract true with
        | some (res, _) => some res
        | none => none) := rfl
  rw [hred, hext]

theorem beam_search_sized {σ : Type} (cfg : Cfg) (step : StepFun σ)
    (im io : List σ)
    (hbs : 1 ≤ cfg.beam_size) (hshape : StepShapes σ cfg step)
    (hns : NoStopChosen σ cfg step)
    (him : cfg.batch_size ≤ im.length) (hio : cfg.batch_size ≤ io.length) :
    ∃ results, beam_search σ cfg step im io = some results ∧
      results.length = cfg.batch_size ∧
      ∀ r ∈ results, ∃ d : List (Caption σ),
        r = sortDescBy Caption.score d ∧
        d.length = (if cfg.max_sent_len = 0 then 1 else cfg.beam_size) := by
  obtain ⟨st0, hst0, hinv0, hcomp0⟩ := initState_sized cfg im io hbs him hio
  have hinv0' : sizesInv σ cfg (if 0 = 0 then 1 else cfg.beam_size) 0 st0 := by
    simpa using hinv0
  obtain ⟨stF, hrun, hinvF, hsame⟩ :=
    runLoop_sized cfg step hbs hshape hns cfg.max_sent_len 0 st0 hinv0'
  have hinvF' : sizesInv σ cfg
      (if cfg.max_sent_len = 0 then 1 else cfg.beam_size) cfg.max_sent_len stF := by
    simpa using hinvF
  have hceF : compEmpty cfg stF := by
    intro tn htn
    rw [hsame, hcomp0] at htn
    exact List.eq_of_mem_replicate htn
  have hfin := finalizeExample_sized cfg _ cfg.max_sent_len stF hinvF' hceF
  have htot : ∀ k ∈ List.range cfg.batch_size,
      (finalizeExample stF.live stF.comp k).isSome := by
    intro k hk
    obtain ⟨pc, d, -, -, -, hfe⟩ := hfin k (List.mem_range.mp hk)
    rw [hfe]
    rfl
  obtain ⟨results, hres⟩ := optMap_total _ _ htot
  obtain ⟨hrlen, -⟩ := optMap_spec _ _ _ hres
  refine ⟨results, ?_, by rw [hrlen, List.length_range], ?_⟩
  · have hdef : beam_search σ cfg step im io =
        match runLoop cfg step 0 cfg.max_sent_len st0 with
        | some stF =>
          optMap (finalizeExample stF.live stF.comp) (List.range cfg.batch_size)
        | none => none := by
      unfold beam_search
      rw [hst0]
    rw [hdef, hrun]
    exact hres
  · intro r hr
    obtain ⟨k, hk, hfk⟩ := optMap_mem _ _ _ hres r hr
    obtain ⟨pc, d, -, -, hdlen, hfe⟩ := hfin k (List.mem_range.mp hk)
    rw [hfe] at hfk
    injection hfk with hfk'
    exact ⟨d, hfk'.symm, hdlen⟩

/-! ### Two-run noninterference (claim C5) -/

theorem replicate_get? {α : Type} (n : Nat) (a : α) (m : Nat) :
    (List.replicate n a).get? m = if m < n then some a else none := by
  simp [List.get?_eq_getElem?, List.getElem?_replicate]

theorem processExample_agree {σ : Type} (cfg : Cfg) (b : Nat)
    (lists1 lists2 : List (List (Caption σ))) (so1 so2 : StepOutput σ)
    (pcs1 ccs1 pcs2 ccs2 : List (TopN σ)) (k : Nat)
    (hl : lists1.get? k = lists2.get? k)
    (hlp : so1.logprobs.get? k = so2.logprobs.get? k)
    (hm : so1.memory.get? k = so2.memory.get? k)
    (ho : so1.output.get? k = so2.output.get? k)
    (hp : pcs1.get? k = pcs2.get? k) (hc : ccs1.get? k = ccs2.get? k) :
    processExample cfg b lists1 so1 pcs1 ccs1 k =
      processExample cfg b lists2 so2 pcs2 ccs2 k := by
  unfold processExample
  rw [hl, hlp, hm, ho, hp, hc]

theorem runSlot_agree {σ : Type} (cfg : Cfg) (step1 step2 : StepFun σ)
    (idx b k : Nat) (lists1 lists2 : List (List (Caption σ)))
    (st1 st2 st1' st2' : BeamState σ)
    (hrow : stepRowAgree σ k step1 step2)
    (hl : lists1.get? k = lists2.get? k)
    (hsa : stateAgree k st1 st2)
    (h1 : runSlot cfg step1 idx b lists1 st1 = some st1')
    (h2 : runSlot cfg step2 idx b lists2 st2 = some st2') :
    stateAgree k st1' st2' := by
  obtain ⟨lw1, lm1, lo1, pairs1, hw1, hm1, ho1, hp1, he1⟩ :=
    runSlot_char cfg step1 idx b lists1 st1 st1' h1
  obtain ⟨lw2, lm2, lo2, pairs2, hw2, hm2, ho2, hp2, he2⟩ :=
    runSlot_char cfg step2 idx b lists2 st2 st2' h2
  have hwk : lw1.get? k = lw2.get? k := by
    by_cases h0 : (idx == 0) = true
    · rw [if_pos h0] at hw1 hw2
      injection hw1 with hw1'
      injection hw2 with hw2'
      rw [← hw1', ← hw2']
    · rw [if_neg h0] at hw1 hw2
      obtain ⟨-, hg1⟩ := optMap_spec _ _ _ hw1
      obtain ⟨-, hg2⟩ := optMap_spec _ _ _ hw2
      rw [hg1 k, hg2 k, hl]
  have hmk : lm1.get? k = lm2.get? k := by
    obtain ⟨-, hg1⟩ := optMap_spec _ _ _ hm1
    obtain ⟨-, hg2⟩ := optMap_spec _ _ _ hm2
    rw [hg1 k, hg2 k, hl]
  have hok : lo1.get? k = lo2.get? k := by
    obtain ⟨-, hg1⟩ := optMap_spec _ _ _ ho1
    obtain ⟨-, hg2⟩ := optMap_spec _ _ _ ho2
    rw [hg1 k, hg2 k, hl]
  obtain ⟨hsolp, hsom, hsoo⟩ :=
    hrow (idx == 0) lw1 lm1 lo1 lw2 lm2 lo2 hwk hmk hok
  have hpk : pairs1.get? k = pairs2.get? k := by
    obtain ⟨-, hg1⟩ := optMap_spec _ _ _ hp1
    obtain ⟨-, hg2⟩ := optMap_spec _ _ _ hp2
    rw [hg1 k, hg2 k, get?_range]
    by_cases hlt : k < cfg.batch_size
    · rw [if_pos hlt]
      show processExample cfg b lists1 _ st1.live st1.comp k =
        processExample cfg b lists2 _ st2.live st2.comp k
      exact processExample_agree cfg b lists1 lists2 _ _ _ _ _ _ k
        hl hsolp hsom hsoo hsa.1 hsa.2
    · rw [if_neg hlt]
      rfl
  subst he1
  subst he2
  constructor
  · show (pairs1.map Prod.fst).get? k = (pairs2.map Prod.fst).get? k
    rw [List.get?_map, List.get?_map, hpk]
  · show (pairs1.map Prod.snd).get? k = (pairs2.map Prod.snd).get? k
    rw [List.get?_map, List.get?_map, hpk]

theorem runSlots_agree {σ : Type} (cfg : Cfg) (step1 step2 : StepFun σ)
    (idx k : Nat) (lists1 lists2 : List (List (Caption σ)))
    (hrow : stepRowAgree σ k step1 step2)
    (hl : lists1.get? k = lists2.get? k) :
    ∀ (bsl : List Nat) (st1 st2 st1' st2' : BeamState σ),
      stateAgree k st1 st2 →
      runSlots cfg step1 idx lists1 bsl st1 = some st1' →
      runSlots cfg step2 idx lists2 bsl st2 = some st2' →
      stateAgree k st1' st2' := by
  intro bsl
  induction bsl with
  | nil =>
    intro st1 st2 st1' st2' hsa h1 h2
    injection h1 with h1'
    injection h2 with h2'
    rw [← h1', ← h2']
    exact hsa
  | cons b rest ih =>
    intro st1 st2 st1' st2' hsa h1 h2
    have h1' : (match runSlot cfg step1 idx b lists1 st1 with
        | some stm => runSlots cfg step1 idx lists1 rest stm
        | none => none) = some st1' := h1
    have h2' : (match runSlot cfg step2 idx b lists2 st2 with
        | some stm => runSlots cfg step2 idx lists2 rest stm
        | none => none) = some st2' := h2
    cases hm1 : runSlot cfg step1 idx b lists1 st1 with
    | none => rw [hm1] at h1'; exact Option.noConfusion h1'
    | some stm1 =>
    rw [hm1] at h1'
    cases hm2 : runSlot cfg step2 idx b lists2 st2 with
    | none => rw [hm2] at h2'; exact Option.noConfusion h2'
    | some stm2 =>
    rw [hm2] at h2'
    exact ih stm1 stm2 st1' st2'
      (runSlot_agree cfg step1 step2 idx b k lists1 lists2 st1 st2 stm1 stm2
        hrow hl hsa hm1 hm2) h1' h2'

theorem runTimestep_agree {σ : Type} (cfg : Cfg) (step1 step2 : StepFun σ)
    (idx k : Nat) (st1 st2 st1' st2' : BeamState σ)
    (hrow : stepRowAgree σ k step1 step2)
    (hsa : stateAgree k st1 st2)
    (h1 : runTimestep cfg step1 idx st1 = some st1')
    (h2 : runTimestep cfg step2 idx st2 = some st2') :
    stateAgree k st1' st2' := by
  obtain ⟨pairs1, hp1, hr1⟩ := runTimestep_char cfg step1 idx st1 st1' h1
  obtain ⟨pairs2, hp2, hr2⟩ := runTimestep_char cfg step2 idx st2 st2' h2
  have hpk : pairs1.get? k = pairs2.get? k := by
    obtain ⟨-, hg1⟩ := optMap_spec _ _ _ hp1
    obtain ⟨-, hg2⟩ := optMap_spec _ _ _ hp2
    rw [hg1 k, hg2 k, hsa.1]
  have hl : (pairs1.map Prod.fst).get? k = (pairs2.map Prod.fst).get? k := by
    rw [List.get?_map, List.get?_map, hpk]
  have hsa1 : stateAgree k ⟨pairs1.map (fun p => p.2.reset), st1.comp⟩
      ⟨pairs2.map (fun p => p.2.reset), st2.comp⟩ := by
    constructor
    · show (pairs1.map (fun p => p.2.reset)).get? k =
        (pairs2.map (fun p => p.2.reset)).get? k
      rw [List.get?_map, List.get?_map, hpk]
    · exact hsa.2
  exact runSlots_agree cfg step1 step2 idx k _ _ hrow hl _ _ _ _ _ hsa1 hr1 hr2

theorem runLoop_agree {σ : Type} (cfg : Cfg) (step1 step2 : StepFun σ) (k : Nat)
    (hrow : stepRowAgree σ k step1 step2) :
    ∀ (fuel idx : Nat) (st1 st2 st1' st2' : BeamState σ),
      stateAgree k st1 st2 →
      runLoop cfg step1 idx fuel st1 = some st1' →
      runLoop cfg step2 idx fuel st2 = some st2' →
      stateAgree k st1' st2' := by
  intro fuel
  induction fuel with
  | zero =>
    intro idx st1 st2 st1' st2' hsa h1 h2
    injection h1 with h1'
    injection h2 with h2'
    rw [← h1', ← h2']
    exact hsa
  | succ fuel ih =>
    intro idx st1 st2 st1' st2' hsa h1 h2
    have h1' : (match runTimestep cfg step1 idx st1 with
        | some stm => runLoop cfg step1 (idx + 1) fuel stm
        | none => none) = some st1' := h1
    have h2' : (match runTimestep cfg step2 idx st2 with
        | some stm => runLoop cfg step2 (idx + 1) fuel stm
        | none => none) = some st2' := h2
    cases hm1 : runTimestep cfg step1 idx st1 with
    | none => rw [hm1] at h1'; exact Option.noConfusion h1'
    | some stm1 =>
    rw [hm1] at h1'
    cases hm2 : runTimestep cfg step2 idx st2 with
    | none => rw [hm2] at h2'; exact Option.noConfusion h2'
    | some stm2 =>
    rw [hm2] at h2'
    exact ih (idx + 1) stm1 stm2 st1' st2'
      (runTimestep_agree cfg step1 step2 idx k st1 st2 stm1 stm2 hrow hsa hm1 hm2)
      h1' h2'

theorem initState_agree {σ : Type} (cfg : Cfg) (im1 io1 im2 io2 : List σ)
    (k : Nat) (st01 st02 : BeamState σ)
    (him : im1.get? k = im2.get? k) (hio : io1.get? k = io2.get? k)
    (h1 : initState σ cfg im1 io1 = some st01)
    (h2 : initState σ cfg im2 io2 = some st02) :
    stateAgree k st01 st02 := by
  unfold initState at h1 h2
  cases hm1 : optMap (fun k =>
      match im1.get? k, io1.get? k with
      | some m, some o => (TopN.new σ (cfg.beam_size : Int)).push ⟨[], m, o, 0⟩
      | _, _ => none) (List.range cfg.batch_size) with
  | none => rw [hm1] at h1; exact Option.noConfusion h1
  | some pcs1 =>
  rw [hm1] at h1
  cases hm2 : optMap (fun k =>
      match im2.get? k, io2.get? k with
      | some m, some o => (TopN.new σ (cfg.beam_size : Int)).push ⟨[], m, o, 0⟩
      | _, _ => none) (List.range cfg.batch_size) with
  | none => rw [hm2] at h2; exact Option.noConfusion h2
  | some pcs2 =>
  rw [hm2] at h2
  injection h1 with h1'
  injection h2 with h2'
  rw [← h1', ← h2']
  constructor
  · show pcs1.get? k = pcs2.get? k
    obtain ⟨-, hg1⟩ := optMap_spec _ _ _ hm1
    obtain ⟨-, hg2⟩ := optMap_spec _ _ _ hm2
    rw [hg1 k, hg2 k, get?_range]
    by_cases hlt : k < cfg.batch_size
    · rw [if_pos hlt]
      show (match im1.get? k, io1.get? k with
          | some m, some o => (TopN.new σ (cfg.beam_size : Int)).push ⟨[], m, o, 0⟩
          | _, _ => none) =
        (match im2.get? k, io2.get? k with
          | some m, some o => (TopN.new σ (cfg.beam_size : Int)).push ⟨[], m, o, 0⟩
          | _, _ => none)
      rw [him, hio]
    · rw [if_neg hlt]
      rfl
  · rfl

theorem finalizeExample_agree {σ : Type} (pcs1 ccs1 pcs2 ccs2 : List (TopN σ))
    (k : Nat) (hp : pcs1.get? k = pcs2.get? k) (hc : ccs1.get? k = ccs2.get? k) :
    finalizeExample pcs1 ccs1 k = finalizeExample pcs2 ccs2 k := by
  unfold finalizeExample
  rw [hp, hc]

/-! ### Greedy decoding versus beam width 1 (claim C9) -/

theorem heappush_nil {σ : Type} (c : Caption σ) :
    heappush ([] : List (Caption σ)) c = [c] := by
  unfold heappush siftdownLoop
  simp

theorem push_empty {σ : Type} (n : Int) (hn : 0 < n) (c : Caption σ) :
    (⟨n, some []⟩ : TopN σ).push c = some ⟨n, some [c]⟩ := by
  have hdef : (⟨n, some []⟩ : TopN σ).push c =
      if (([] : List (Caption σ)).length : Int) < n then
        some ⟨n, some (heappush [] c)⟩
      else some ⟨n, some (heappushpop [] c).2⟩ := rfl
  rw [hdef, if_pos (by simpa using hn), heappush_nil]

theorem selectTop_one (lp : List ℚ) (hne : 1 ≤ lp.length) :
    ∃ p, selectTop 1 lp = [p] ∧ argmaxPair lp = some p := by
  have hlen : (sortDescBy Prod.snd (pyEnum lp)).length = lp.length := by
    rw [(sortDescBy_perm Prod.snd (pyEnum lp)).length_eq]
    exact pyEnumFrom_length 0 lp
  cases hS : sortDescBy Prod.snd (pyEnum lp) with
  | nil =>
    rw [hS] at hlen
    simp only [List.length_nil] at hlen
    omega
  | cons p rest =>
    refine ⟨p, ?_, ?_⟩
    · unfold selectTop
      rw [hS]
      rfl
    · unfold argmaxPair
      rw [hS]
      rfl

theorem greedy_beam_timestep {σ : Type} (cfg : Cfg) (step : StepFun σ) (t : Nat)
    (st : BeamState σ) (exs : List (GreedyEx σ))
    (hbs1 : cfg.beam_size = 1)
    (hshape : StepShapes σ cfg step) (hns : NoStopChosen σ cfg step)
    (hll : st.live.length = cfg.batch_size)
    (hcomp : st.comp = List.replicate cfg.batch_size (TopN.new σ 1))
    (hexl : exs.length = cfg.batch_size)
    (hrows : ∀ k < cfg.batch_size, ∃ e : GreedyEx σ, exs.get? k = some e ∧
      e.done = false ∧ e.tokens.length = t ∧
      st.live.get? k = some ⟨(1 : Int), some [⟨e.tokens, e.memory, e.output, e.score⟩]⟩) :
    ∃ st' exs', runTimestep cfg step t st = some st' ∧
      greedyTimestep σ cfg step t exs = some exs' ∧
      st'.live.length = cfg.batch_size ∧
      st'.comp = List.replicate cfg.batch_size (TopN.new σ 1) ∧
      exs'.length = cfg.batch_size ∧
      ∀ k < cfg.batch_size, ∃ e' : GreedyEx σ, exs'.get? k = some e' ∧
        e'.done = false ∧ e'.tokens.length = t + 1 ∧
        st'.live.get? k = some ⟨(1 : Int), some [⟨e'.tokens, e'.memory, e'.output, e'.score⟩]⟩ := by
  -- extraction of every partial set succeeds
  have hext : ∀ tn ∈ st.live, (tn.extract false).isSome := by
    intro tn htn
    obtain ⟨k, hk⟩ := List.mem_iff_get?.mp htn
    have hkb : k < cfg.batch_size := by
      obtain ⟨hlt, -⟩ := List.get?_eq_some.mp hk
      omega
    obtain ⟨e, -, -, -, hlk⟩ := hrows k hkb
    rw [hk] at hlk
    injection hlk with hlk'
    rw [hlk']
    rfl
  obtain ⟨pairs, hpairs⟩ := optMap_total _ _ hext
  obtain ⟨hplen, hpget⟩ := optMap_spec _ _ _ hpairs
  set lists := pairs.map Prod.fst with hlists
  have hLlen : lists.length = cfg.batch_size := by
    rw [hlists, List.length_map, hplen, hll]
  -- the extracted row for example k
  have hlistk : ∀ k < cfg.batch_size, ∃ e : GreedyEx σ, exs.get? k = some e ∧
      e.done = false ∧ e.tokens.length = t ∧
      lists.get? k = some [⟨e.tokens, e.memory, e.output, e.score⟩] ∧
      pairs.get? k = some ([⟨e.tokens, e.memory, e.output, e.score⟩],
        ⟨(1 : Int), none⟩) := by
    intro k hk
    obtain ⟨e, he, hdone, hlen, hlk⟩ := hrows k hk
    refine ⟨e, he, hdone, hlen, ?_, ?_⟩
    · rw [hlists, List.get?_map, hpget k, hlk]
      rfl
    · rw [hpget k, hlk]
      rfl
  -- the intermediate state: every partial set reset to capacity 1
  set st1 : BeamState σ := ⟨pairs.map (fun p => p.2.reset), st.comp⟩ with hst1
  have hst1k : ∀ k < cfg.batch_size,
      st1.live.get? k = some ⟨(1 : Int), some []⟩ := by
    intro k hk
    obtain ⟨e, -, -, -, -, hpk⟩ := hlistk k hk
    show (pairs.map (fun p => p.2.reset)).get? k = _
    rw [List.get?_map, hpk]
    rfl
  have hcompk : ∀ k < cfg.batch_size,
      st1.comp.get? k = some ⟨(1 : Int), some []⟩ := by
    intro k hk
    show st.comp.get? k = _
    rw [hcomp, replicate_get?, if_pos hk]
    rfl
  -- the three batched step inputs coincide with the greedy decoder's
  set LW : List Nat :=
    (if (t == 0) = true then List.replicate cfg.batch_size 0
      else exs.map (fun e => (e.tokens.getLast?).getD 0)) with hLW
  have hlwo : (if (t == 0) = true then some (List.replicate cfg.batch_size 0)
      else optMap (fun pcl => (pcl.get? 0).bind
        (fun c => c.sentence.getLast?)) lists) = some LW := by
    by_cases ht0 : (t == 0) = true
    · rw [hLW, if_pos ht0, if_pos ht0]
    · rw [hLW, if_neg ht0, if_neg ht0]
      have htpos : 1 ≤ t := by
        rcases Nat.eq_zero_or_pos t with h | h
        · exact absurd (by simpa using h) ht0
        · omega
      have htot : ∀ pcl ∈ lists, ((pcl.get? 0).bind
          (fun c => c.sentence.getLast?)).isSome := by
        intro pcl hpcl
        obtain ⟨k, hk⟩ := List.mem_iff_get?.mp hpcl
        have hkb : k < cfg.batch_size := by
          obtain ⟨hlt, -⟩ := List.get?_eq_some.mp hk
          omega
        obtain ⟨e, -, -, hlen, hlk, -⟩ := hlistk k hkb
        rw [hk] at hlk
        injection hlk with hlk'
        rw [hlk']
        have hne : e.tokens ≠ [] := by
          intro hnil
          rw [hnil] at hlen
          simp only [List.length_nil] at hlen
          omega
        obtain ⟨x, hx⟩ := Option.isSome_iff_exists.mp
          (List.getLast?_isSome.mpr hne)
        show (e.tokens.getLast?).isSome
        rw [hx]
        rfl
      obtain ⟨lw, hlw⟩ := optMap_total _ _ htot
      obtain ⟨hlwlen, hlwget⟩ := optMap_spec _ _ _ hlw
      rw [hlw]
      congr 1
      apply List.ext
      intro n
      rw [hlwget n]
      by_cases hn : n < cfg.batch_size
      · obtain ⟨e, he, -, hlen, hln, -⟩ := hlistk n hn
        rw [hln, List.get?_map, he]
        have hne : e.tokens ≠ [] := by
          intro hnil
          rw [hnil] at hlen
          simp only [List.length_nil] at hlen
          omega
        obtain ⟨x, hx⟩ := Option.isSome_iff_exists.mp
          (List.getLast?_isSome.mpr hne)
        show e.tokens.getLast? = some ((e.tokens.getLast?).getD 0)
        rw [hx]
        rfl
      · have h1 : lists.get? n = none := List.get?_len_le (by omega)
        have h2 : (exs.map (fun e => (e.tokens.getLast?).getD 0)).get? n = none :=
          List.get?_len_le (by rw [List.length_map, hexl]; omega)
        rw [h1, h2]
        rfl
  have hlm : optMap (fun pcl => (pcl.get? 0).map Caption.memory) lists =
      some (exs.map GreedyEx.memory) := by
    have htot : ∀ pcl ∈ lists, ((pcl.get? 0).map Caption.memory).isSome := by
      intro pcl hpcl
      obtain ⟨k, hk⟩ := List.mem_iff_get?.mp hpcl
      have hkb : k < cfg.batch_size := by
        obtain ⟨hlt, -⟩ := List.get?_eq_some.mp hk
        omega
      obtain ⟨e, -, -, -, hlk, -⟩ := hlistk k hkb
      rw [hk] at hlk
      injection hlk with hlk'
      rw [hlk']
      rfl
    obtain ⟨lm, hlmr⟩ := optMap_total _ _ htot
    obtain ⟨hlmlen, hlmget⟩ := optMap_spec _ _ _ hlmr
    rw [hlmr]
    congr 1
    apply List.ext
    intro n
    rw [hlmget n]
    by_cases hn : n < cfg.batch_size
    · obtain ⟨e, he, -, -, hln, -⟩ := hlistk n hn
      rw [hln, List.get?_map, he]
      rfl
    · have h1 : lists.get? n = none := List.get?_len_le (by omega)
      have h2 : (exs.map GreedyEx.memory).get? n = none :=
        List.get?_len_le (by rw [List.length_map, hexl]; omega)
      rw [h1, h2]
      rfl
  have hlo : optMap (fun pcl => (pcl.get? 0).map Caption.output) lists =
      some (exs.map GreedyEx.output) := by
    have htot : ∀ pcl ∈ lists, ((pcl.get? 0).map Caption.output).isSome := by
      intro pcl hpcl
      obtain ⟨k, hk⟩ := List.mem_iff_get?.mp hpcl
      have hkb : k < cfg.batch_size := by
        obtain ⟨hlt, -⟩ := List.get?_eq_some.mp hk
        omega
      obtain ⟨e, -, -, -, hlk, -⟩ := hlistk k hkb
      rw [hk] at hlk
      injection hlk with hlk'
      rw [hlk']
      rfl
    obtain ⟨lo, hlor⟩ := optMap_total _ _ htot
    obtain ⟨hlolen, hloget⟩ := optMap_spec _ _ _ hlor
    rw [hlor]
    congr 1
    apply List.ext
    intro n
    rw [hloget n]
    by_cases hn : n < cfg.batch_size
    · obtain ⟨e, he, -, -, hln, -⟩ := hlistk n hn
      rw [hln, List.get?_map, he]
      rfl
    · have h1 : lists.get? n = none := List.get?_len_le (by omega)
      have h2 : (exs.map GreedyEx.output).get? n = none :=
        List.get?_len_le (by rw [List.length_map, hexl]; omega)
      rw [h1, h2]
      rfl
  set so : StepOutput σ :=
    step (t == 0) LW (exs.map GreedyEx.memory) (exs.map GreedyEx.output) with hso
  obtain ⟨hsom, hsoo, hsolp, hsorow⟩ := hshape (t == 0) LW
    (exs.map GreedyEx.memory) (exs.map GreedyEx.output)
  have hsolpb : so.logprobs.length = cfg.batch_size := hsolp
  have hsomb : so.memory.length = cfg.batch_size := hsom
  have hsoob : so.output.length = cfg.batch_size := hsoo
  have hsorowb : ∀ lp ∈ so.logprobs, cfg.beam_size ≤ lp.length := hsorow
  -- the per-example joint step of both decoders
  have hker : ∀ k < cfg.batch_size, ∃ (e : GreedyEx σ) (lp : List ℚ) (m' o' : σ)
      (p : Nat × ℚ),
      exs.get? k = some e ∧
      processExample cfg 0 lists so st1.live st1.comp k =
        some (⟨(1 : Int), some [⟨e.tokens ++ [p.1], m', o', e.score + p.2⟩]⟩,
          ⟨(1 : Int), some []⟩) ∧
      (match exs.get? k with
        | none => none
        | some e =>
          if e.done then some e
          else
            match so.logprobs.get? k, so.memory.get? k, so.output.get? k with
            | some lp, some m, some o =>
              match argmaxPair lp with
              | some p =>
                some (⟨e.tokens ++ [p.1], m, o, e.score + p.2,
                  isStopWord cfg p.1⟩ : GreedyEx σ)
              | none => none
            | _, _, _ => none) =
        some (⟨e.tokens ++ [p.1], m', o', e.score + p.2, false⟩ : GreedyEx σ) := by
    intro k hk
    obtain ⟨e, he, hdone, hlen, hlk, -⟩ := hlistk k hk
    obtain ⟨lp, hlp⟩ := get?_some_of_lt so.logprobs k (by omega)
    obtain ⟨m', hm'⟩ := get?_some_of_lt so.memory k (by omega)
    obtain ⟨o', ho'⟩ := get?_some_of_lt so.output k (by omega)
    have hlpmem : lp ∈ so.logprobs := List.get?_mem hlp
    have hlplen : 1 ≤ lp.length := by
      have := hsorowb lp hlpmem
      omega
    obtain ⟨p, hsel1, hargmax⟩ := selectTop_one lp hlplen
    have hsel : selectTop cfg.beam_size lp = [p] := by
      rw [hbs1]
      exact hsel1
    have hpmem : p ∈ selectTop cfg.beam_size lp := by
      rw [hsel]
      exact List.mem_singleton.mpr rfl
    have hpstop : isStopWord cfg p.1 = false := by
      have := hns (t == 0) LW (exs.map GreedyEx.memory) (exs.map GreedyEx.output)
        lp hlpmem p hpmem
      simpa using this
    refine ⟨e, lp, m', o', p, he, ?_, ?_⟩
    · have hpe : processExample cfg 0 lists so st1.live st1.comp k =
          expandCandidates cfg ⟨e.tokens, e.memory, e.output, e.score⟩ m' o'
            ⟨(1 : Int), some []⟩ ⟨(1 : Int), some []⟩
            (selectTop cfg.beam_size lp) := by
        unfold processExample
        rw [hlk, hlp, hm', ho', hst1k k hk, hcompk k hk]
        rfl
      rw [hpe, hsel]
      have hdef : expandCandidates cfg ⟨e.tokens, e.memory, e.output, e.score⟩ m' o'
          (⟨(1 : Int), some []⟩ : TopN σ) (⟨(1 : Int), some []⟩ : TopN σ) [p] =
          if isStopWord cfg p.1 then
            match (⟨(1 : Int), some []⟩ : TopN σ).push
                (extendCap ⟨e.tokens, e.memory, e.output, e.score⟩ m' o' p) with
            | some cc1 => expandCandidates cfg ⟨e.tokens, e.memory, e.output, e.score⟩
                m' o' ⟨(1 : Int), some []⟩ cc1 []
            | none => none
          else
            match (⟨(1 : Int), some []⟩ : TopN σ).push
                (extendCap ⟨e.tokens, e.memory, e.output, e.score⟩ m' o' p) with
            | some pc1 => expandCandidates cfg ⟨e.tokens, e.memory, e.output, e.score⟩
                m' o' pc1 ⟨(1 : Int), some []⟩ []
            | none => none := rfl
      rw [hdef, if_neg (by simp [hpstop]),
        push_empty 1 (by decide)
          (extendCap ⟨e.tokens, e.memory, e.output, e.score⟩ m' o' p)]
      rfl
    · rw [he]
      show (if e.done then some e
          else
            match so.logprobs.get? k, so.memory.get? k, so.output.get? k with
            | some lp, some m, some o =>
              match argmaxPair lp with
              | some p =>
                some (⟨e.tokens ++ [p.1], m, o, e.score + p.2,
                  isStopWord cfg p.1⟩ : GreedyEx σ)
              | none => none
            | _, _, _ => none) = _
      rw [hdone, if_neg (by simp), hlp, hm', ho']
      show (match argmaxPair lp with
        | some p =>
          some (⟨e.tokens ++ [p.1], m', o', e.score + p.2,
            isStopWord cfg p.1⟩ : GreedyEx σ)
        | none => none) = _
      rw [hargmax]
      show some (⟨e.tokens ++ [p.1], m', o', e.score + p.2,
        isStopWord cfg p.1⟩ : GreedyEx σ) = _
      rw [hpstop]
  -- totality of the beam-side per-example loop
  have hbtot : ∀ k ∈ List.range cfg.batch_size,
      (processExample cfg 0 lists so st1.live st1.comp k).isSome := by
    intro k hk
    obtain ⟨e, lp, m', o', p, -, hval, -⟩ := hker k (List.mem_range.mp hk)
    rw [hval]
    rfl
  obtain ⟨bpairs, hbpairs⟩ := optMap_total _ _ hbtot
  obtain ⟨hbplen, hbpget⟩ := optMap_spec _ _ _ hbpairs
  -- the greedy decoder takes the same step
  have hgdef : greedyTimestep σ cfg step t exs =
      optMap (fun k =>
        match exs.get? k with
        | none => none
        | some e =>
          if e.done then some e
          else
            match so.logprobs.get? k, so.memory.get? k, so.output.get? k with
            | some lp, some m, some o =>
              match argmaxPair lp with
              | some p =>
                some (⟨e.tokens ++ [p.1], m, o, e.score + p.2,
                  isStopWord cfg p.1⟩ : GreedyEx σ)
              | none => none
            | _, _, _ => none) (List.range cfg.batch_size) := by
    rw [hso, hLW]
    rfl
  have hgtot : ∀ k ∈ List.range cfg.batch_size,
      ((fun k =>
        match exs.get? k with
        | none => none
        | some e =>
          if e.done then some e
          else
            match so.logprobs.get? k, so.memory.get? k, so.output.get? k with
            | some lp, some m, some o =>
              match argmaxPair lp with
              | some p =>
                some (⟨e.tokens ++ [p.1], m, o, e.score + p.2,
                  isStopWord cfg p.1⟩ : GreedyEx σ)
              | none => none
            | _, _, _ => none) k).isSome := by
    intro k hk
    obtain ⟨e, lp, m', o', p, -, -, hgval⟩ := hker k (List.mem_range.mp hk)
    show ((match exs.get? k with
      | none => none
      | some e =>
        if e.done then some e
        else
          match so.logprobs.get? k, so.memory.get? k, so.output.get? k with
          | some lp, some m, some o =>
            match argmaxPair lp with
            | some p =>
              some (⟨e.tokens ++ [p.1], m, o, e.score + p.2,
                isStopWord cfg p.1⟩ : GreedyEx σ)
            | none => none
          | _, _, _ => none) : Option (GreedyEx σ)).isSome = true
    rw [hgval]
    rfl
  obtain ⟨exs', hexs'⟩ := optMap_total _ _ hgtot
  obtain ⟨hexlen', hexget'⟩ := optMap_spec _ _ _ hexs'
  -- the timestep: one slot, then assembly
  have hrange : List.range (if (t == 0) = true then 1 else cfg.beam_size) = [0] := by
    by_cases ht0 : (t == 0) = true
    · rw [if_pos ht0]
      rfl
    · rw [if_neg ht0, hbs1]
      rfl
  have hslot : runSlot cfg step t 0 lists st1 =
      some ⟨bpairs.map Prod.fst, bpairs.map Prod.snd⟩ := by
    unfold runSlot
    rw [hlwo, hlm, hlo]
    have hred : (match optMap (processExample cfg 0 lists so st1.live st1.comp)
          (List.range cfg.batch_size) with
        | some prs => some (⟨prs.map Prod.fst, prs.map Prod.snd⟩ : BeamState σ)
        | none => none) =
        some ⟨bpairs.map Prod.fst, bpairs.map Prod.snd⟩ := by
      rw [hbpairs]
    exact hred
  have hrun : runTimestep cfg step t st =
      some ⟨bpairs.map Prod.fst, bpairs.map Prod.snd⟩ := by
    unfold runTimestep
    rw [hpairs]
    show runSlots cfg step t lists
      (List.range (if (t == 0) = true then 1 else cfg.beam_size)) st1 = _
    rw [hrange]
    show (match runSlot cfg step t 0 lists st1 with
      | some st2 => runSlots cfg step t lists [] st2
      | none => none) = _
    rw [hslot]
    rfl
  refine ⟨⟨bpairs.map Prod.fst, bpairs.map Prod.snd⟩, exs', hrun, ?_, ?_, ?_, ?_, ?_⟩
  · rw [hgdef]
    exact hexs'
  · show (bpairs.map Prod.fst).length = _
    rw [List.length_map, hbplen, List.length_range]
  · show bpairs.map Prod.snd = _
    apply List.ext
    intro n
    rw [List.get?_map, hbpget n, get?_range, replicate_get?]
    by_cases hn : n < cfg.batch_size
    · rw [if_pos hn, if_pos hn]
      obtain ⟨e, lp, m', o', p, -, hval, -⟩ := hker n hn
      show Option.map Prod.snd
        (processExample cfg 0 lists so st1.live st1.comp n) = _
      rw [hval]
      rfl
    · rw [if_neg hn, if_neg hn]
      rfl
  · rw [hexlen', List.length_range]
  · intro k hk
    obtain ⟨e, lp, m', o', p, he, hval, hgval⟩ := hker k hk
    refine ⟨⟨e.tokens ++ [p.1], m', o', e.score + p.2, false⟩, ?_, rfl, ?_, ?_⟩
    · rw [hexget' k, get?_range, if_pos hk]
      show (match exs.get? k with
        | none => none
        | some e =>
          if e.done then some e
          else
            match so.logprobs.get? k, so.memory.get? k, so.output.get? k with
            | some lp, some m, some o =>
              match argmaxPair lp with
              | some p =>
                some (⟨e.tokens ++ [p.1], m, o, e.score + p.2,
                  isStopWord cfg p.1⟩ : GreedyEx σ)
              | none => none
            | _, _, _ => none) = _
      exact hgval
    · show (e.tokens ++ [p.1]).length = t + 1
      obtain ⟨e2, he2, -, hlen2, -, -⟩ := hlistk k hk
      rw [he] at he2
      injection he2 with he2'
      rw [← he2'] at hlen2
      simp only [List.length_append, List.length_cons, List.length_nil]
      omega
    · show (bpairs.map Prod.fst).get? k = _
      rw [List.get?_map, hbpget k, get?_range, if_pos hk]
      show Option.map Prod.fst
        (processExample cfg 0 lists so st1.live st1.comp k) = _
      rw [hval]
      rfl

theorem greedy_beam_loop {σ : Type} (cfg : Cfg) (step : StepFun σ)
    (hbs1 : cfg.beam_size = 1) (hshape : StepShapes σ cfg step)
    (hns : NoStopChosen σ cfg step) :
    ∀ (fuel t : Nat) (st : BeamState σ) (exs : List (GreedyEx σ)),
      st.live.length = cfg.batch_size →
      st.comp = List.replicate cfg.batch_size (TopN.new σ 1) →
      exs.length = cfg.batch_size →
      (∀ k < cfg.batch_size, ∃ e : GreedyEx σ, exs.get? k = some e ∧
        e.done = false ∧ e.tokens.length = t ∧
        st.live.get? k = some ⟨(1 : Int),
          some [⟨e.tokens, e.memory, e.output, e.score⟩]⟩) →
      ∃ st' exs', runLoop cfg step t fuel st = some st' ∧
        greedyLoop σ cfg step t fuel exs = some exs' ∧
        st'.live.length = cfg.batch_size ∧
        st'.comp = List.replicate cfg.batch_size (TopN.new σ 1) ∧
        exs'.length = cfg.batch_size ∧
        ∀ k < cfg.batch_size, ∃ e' : GreedyEx σ, exs'.get? k = some e' ∧
          e'.done = false ∧ e'.tokens.length = t + fuel ∧
          st'.live.get? k = some ⟨(1 : Int),
            some [⟨e'.tokens, e'.memory, e'.output, e'.score⟩]⟩ := by
  intro fuel
  induction fuel with
  | zero =>
    intro t st exs h1 h2 h3 h4
    exact ⟨st, exs, rfl, rfl, h1, h2, h3, by simpa using h4⟩
  | succ fuel ih =>
    intro t st exs h1 h2 h3 h4
    obtain ⟨st1, exs1, hrun1, hg1, i1, i2, i3, i4⟩ :=
      greedy_beam_timestep cfg step t st exs hbs1 hshape hns h1 h2 h3 h4
    obtain ⟨st', exs', hrun', hg', j1, j2, j3, j4⟩ := ih (t + 1) st1 exs1 i1 i2 i3 i4
    refine ⟨st', exs', ?_, ?_, j1, j2, j3, ?_⟩
    · have hdef : runLoop cfg step t (fuel + 1) st =
          match runTimestep cfg step t st with
          | some st2 => runLoop cfg step (t + 1) fuel st2
          | none => none := rfl
      rw [hdef, hrun1]
      exact hrun'
    · have hdef : greedyLoop σ cfg step t (fuel + 1) exs =
          match greedyTimestep σ cfg step t exs with
          | some e2 => greedyLoop σ cfg step (t + 1) fuel e2
          | none => none := rfl
      rw [hdef, hg1]
      exact hg'
    · intro k hk
      obtain ⟨e', a, b, c, d⟩ := j4 k hk
      exact ⟨e', a, b, by omega, d⟩

theorem greedy_beam_init {σ : Type} (cfg : Cfg) (im io : List σ)
    (hbs1 : cfg.beam_size = 1)
    (him : cfg.batch_size ≤ im.length) (hio : cfg.batch_size ≤ io.length) :
    ∃ st0 exs0, initState σ cfg im io = some st0 ∧
      greedyInit σ cfg im io = some exs0 ∧
      st0.live.length = cfg.batch_size ∧
      st0.comp = List.replicate cfg.batch_size (TopN.new σ 1) ∧
      exs0.length = cfg.batch_size ∧
      ∀ k < cfg.batch_size, ∃ e : GreedyEx σ, exs0.get? k = some e ∧
        e.done = false ∧ e.tokens.length = 0 ∧
        st0.live.get? k = some ⟨(1 : Int),
          some [⟨e.tokens, e.memory, e.output, e.score⟩]⟩ := by
  have hcast : ((cfg.beam_size : Nat) : Int) = (1 : Int) := by
    rw [hbs1]
    rfl
  have hbtot : ∀ k ∈ List.range cfg.batch_size,
      ((fun k =>
        match im.get? k, io.get? k with
        | some m, some o => (TopN.new σ (cfg.beam_size : Int)).push ⟨[], m, o, 0⟩
        | _, _ => none) k).isSome := by
    intro k hk
    have hkb := List.mem_range.mp hk
    obtain ⟨m, hm⟩ := get?_some_of_lt im k (by omega)
    obtain ⟨o, ho⟩ := get?_some_of_lt io k (by omega)
    simp only [hm, ho]
    rw [show TopN.new σ (cfg.beam_size : Int) = ⟨(1 : Int), some []⟩ from by
      rw [TopN.new, hcast], push_empty 1 (by decide)]
    rfl
  obtain ⟨pcs, hpcs⟩ := optMap_total _ _ hbtot
  obtain ⟨hplen, hpget⟩ := optMap_spec _ _ _ hpcs
  have hgtot : ∀ k ∈ List.range cfg.batch_size,
      ((fun k =>
        match im.get? k, io.get? k with
        | some m, some o => some (⟨[], m, o, 0, false⟩ : GreedyEx σ)
        | _, _ => none) k).isSome := by
    intro k hk
    have hkb := List.mem_range.mp hk
    obtain ⟨m, hm⟩ := get?_some_of_lt im k (by omega)
    obtain ⟨o, ho⟩ := get?_some_of_lt io k (by omega)
    simp only [hm, ho]
    rfl
  obtain ⟨exs0, hexs0⟩ := optMap_total _ _ hgtot
  obtain ⟨hglen, hgget⟩ := optMap_spec _ _ _ hexs0
  refine ⟨⟨pcs, List.replicate cfg.batch_size (TopN.new σ (cfg.beam_size : Int))⟩,
    exs0, ?_, hexs0, ?_, ?_, ?_, ?_⟩
  · unfold initState
    rw [hpcs]
  · show pcs.length = _
    rw [hplen, List.length_range]
  · show List.replicate cfg.batch_size (TopN.new σ (cfg.beam_size : Int)) = _
    rw [TopN.new, hcast]
    rfl
  · rw [hglen, List.length_range]
  · intro k hk
    obtain ⟨m, hm⟩ := get?_some_of_lt im k (by omega)
    obtain ⟨o, ho⟩ := get?_some_of_lt io k (by omega)
    refine ⟨⟨[], m, o, 0, false⟩, ?_, rfl, rfl, ?_⟩
    · rw [hgget k, get?_range, if_pos hk]
      show (match im.get? k, io.get? k with
        | some m, some o => some (⟨[], m, o, 0, false⟩ : GreedyEx σ)
        | _, _ => none) = _
      rw [hm, ho]
    · show pcs.get? k = _
      rw [hpget k, get?_range, if_pos hk]
      show (match im.get? k, io.get? k with
        | some m, some o => (TopN.new σ (cfg.beam_size : Int)).push ⟨[], m, o, 0⟩
        | _, _ => none) = _
      rw [hm, ho]
      show (TopN.new σ (cfg.beam_size : Int)).push ⟨[], m, o, 0⟩ = _
      rw [show TopN.new σ (cfg.beam_size : Int) = ⟨(1 : Int), some []⟩ from by
        rw [TopN.new, hcast], push_empty 1 (by decide)]

theorem beam1_greedy_equiv {σ : Type} (cfg : Cfg) (step : StepFun σ)
    (im io : List σ)
    (hbs1 : cfg.beam_size = 1)
    (hshape : StepShapes σ cfg step) (hns : NoStopChosen σ cfg step)
    (him : cfg.batch_size ≤ im.length) (hio : cfg.batch_size ≤ io.length) :
    ∃ results exs, beam_search σ cfg step im io = some results ∧
      greedyDecode σ cfg step im io = some exs ∧
      results.length = cfg.batch_size ∧ exs.length = cfg.batch_size ∧
      ∀ k < cfg.batch_size, ∃ (e : GreedyEx σ) (cap : Caption σ),
        exs.get? k = some e ∧ results.get? k = some [cap] ∧
        cap.sentence = e.tokens ∧ cap.score = e.score := by
  obtain ⟨st0, exs0, hinit, hginit, a1, a2, a3, a4⟩ :=
    greedy_beam_init cfg im io hbs1 him hio
  obtain ⟨stF, exsF, hloop, hgloop, b1, b2, b3, b4⟩ :=
    greedy_beam_loop cfg step hbs1 hshape hns cfg.max_sent_len 0 st0 exs0
      a1 a2 a3 a4
  have hfin : ∀ k < cfg.batch_size, ∃ e : GreedyEx σ, exsF.get? k = some e ∧
      finalizeExample stF.live stF.comp k =
        some [⟨e.tokens, e.memory, e.output, e.score⟩] := by
    intro k hk
    obtain ⟨e, he, -, -, hlk⟩ := b4 k hk
    refine ⟨e, he, ?_⟩
    have hck : stF.comp.get? k = some (TopN.new σ 1) := by
      rw [b2, replicate_get?, if_pos hk]
    have hdef : finalizeExample stF.live stF.comp k =
        match stF.comp.get? k, stF.live.get? k with
        | some cc0, some pc =>
          match cc0.size with
          | some sz =>
            match (if sz == 0 then pc else cc0).extract true with
            | some (res, _) => some res
            | none => none
          | none => none
        | _, _ => none := rfl
    rw [hdef, hck, hlk]
    rfl
  have hftot : ∀ k ∈ List.range cfg.batch_size,
      (finalizeExample stF.live stF.comp k).isSome := by
    intro k hk
    obtain ⟨e, -, hfe⟩ := hfin k (List.mem_range.mp hk)
    rw [hfe]
    rfl
  obtain ⟨results, hres⟩ := optMap_total _ _ hftot
  obtain ⟨hrlen, hrget⟩ := optMap_spec _ _ _ hres
  refine ⟨results, exsF, ?_, ?_, ?_, b3, ?_⟩
  · have hdef : beam_search σ cfg step im io =
        match runLoop cfg step 0 cfg.max_sent_len st0 with
        | some s =>
          optMap (finalizeExample s.live s.comp) (List.range cfg.batch_size)
        | none => none := by
      unfold beam_search
      rw [hinit]
    rw [hdef, hloop]
    exact hres
  · unfold greedyDecode
    rw [hginit]
    exact hgloop
  · rw [hrlen, List.length_range]
  · intro k hk
    obtain ⟨e, he, hfe⟩ := hfin k hk
    refine ⟨e, ⟨e.tokens, e.memory, e.output, e.score⟩, he, ?_, rfl, rfl⟩
    rw [hrget k, get?_range, if_pos hk]
    show finalizeExample stF.live stF.comp k = _
    rw [hfe]

/-! ### The claims -/


/-- C1 (amended): pushing any sequence of hypotheses into a fresh `TopN`
of capacity `N ≥ 1` always succeeds and retains exactly
`min(number pushed, N)` hypotheses whose multiset of scores is the top
`N` of the scores pushed, independent of insertion order; in particular
the size never exceeds `N`.  (The retained hypotheses themselves are
*not* insertion-order independent when scores tie — see the
counterexample.) -/
theorem claim_C1 (σ : Type) (n : Nat) (hn : 1 ≤ n) (cs cs' : List (Caption σ))
    (hperm : cs.Perm cs') :
    ∃ d d', retained σ (n : Int) cs = some d ∧ retained σ (n : Int) cs' = some d' ∧
      d.length = min cs.length n ∧ d'.length = d.length ∧ d.length ≤ n ∧
      sortQ (scoresOf d) = (sortQ (scoresOf cs)).take n ∧
      sortQ (scoresOf d') = sortQ (scoresOf d) := by
  have hinv : heapInv ([] : List (Caption σ)) := by
    intro i hi x y hx hy
    simp at hx
  have hbase : ∀ cs0 : List (Caption σ), ∃ t' d0,
      pushAll (TopN.new σ (n : Int)) cs0 = some t' ∧ t'.data = some d0 ∧
      d0.length = min cs0.length n ∧
      sortQ (scoresOf d0) = (sortQ (cs0.map Caption.score)).take n := by
    intro cs0
    obtain ⟨t', d0, hall, htn', hd', hinv', hlen', hsort'⟩ :=
      pushAll_spec n hn cs0 (TopN.new σ (n : Int)) [] [] rfl rfl hinv
        (by simp) (by simp [sortQ, sortDescBy, scoresOf])
    exact ⟨t', d0, hall, hd', by simpa using hlen', by simpa using hsort'⟩
  obtain ⟨t1, d, h1, hd1, hlen1, hsort1⟩ := hbase cs
  obtain ⟨t2, d', h2, hd2, hlen2, hsort2⟩ := hbase cs'
  refine ⟨d, d', ?_, ?_, hlen1, ?_, ?_, hsort1, ?_⟩
  · have hr : retained σ (n : Int) cs = t1.data := by
      unfold retained
      rw [h1]
    rw [hr, hd1]
  · have hr : retained σ (n : Int) cs' = t2.data := by
      unfold retained
      rw [h2]
    rw [hr, hd2]
  · rw [hlen1, hlen2, hperm.length_eq]
  · rw [hlen1]
    omega
  · rw [hsort2, hsort1, sortQ_eq_of_perm (cs'.map Caption.score)
      (cs.map Caption.score) ((hperm.map Caption.score).symm)]

theorem claim_C1_witness :
    1 ≤ 1 ∧ ([capA, capB] : List (Caption Unit)).Perm [capB, capA] ∧
    ∃ d d', retained Unit ((1 : Nat) : Int) [capA, capB] = some d ∧
      retained Unit ((1 : Nat) : Int) [capB, capA] = some d' ∧
      d.length = min ([capA, capB] : List (Caption Unit)).length 1 ∧
      d'.length = d.length ∧ d.length ≤ 1 ∧
      sortQ (scoresOf d) =
        (sortQ (scoresOf ([capA, capB] : List (Caption Unit)))).take 1 ∧
      sortQ (scoresOf d') = sortQ (scoresOf d) :=
  ⟨by decide, by decide,
    claim_C1 Unit 1 (by decide) [capA, capB] [capB, capA] (by decide)⟩

/-- C1 counterexample: with capacity 1 and two equal-score hypotheses,
the two insertion orders of the same multiset retain different
hypothesis sets, refuting order-independence of the retained set. -/
theorem claim_C1_counterexample :
    ([capA, capB] : List (Caption Unit)).Perm [capB, capA] ∧
    retained Unit 1 [capA, capB] = some [capA] ∧
    retained Unit 1 [capB, capA] = some [capB] ∧
    capA ≠ capB := by
  refine ⟨by decide, ?_, ?_, by decide⟩ <;>
    simp +decide [retained, pushAll, TopN.push, TopN.new, heappush, siftdownLoop,
      heappushpop, siftup, siftupLoop, chooseChild, capA, capB]

/-- C2 (amended): provided the step function never ranks the stop token
among the chosen next words, after any number `t` of timesteps every
example's partial set holds exactly one hypothesis when `t = 0` and
exactly `beam_size` hypotheses when `t ≥ 1`, so the per-slot reads of
the next timestep are in bounds.  (Without that proviso the property is
false — see the counterexample, where a stop token chosen at timestep 0
leaves the partial set empty and the next timestep crashes.) -/
theorem claim_C2 {σ : Type} (cfg : Cfg) (step : StepFun σ) (im io : List σ)
    (hbs : 1 ≤ cfg.beam_size) (hshape : StepShapes σ cfg step)
    (hns : NoStopChosen σ cfg step)
    (him : cfg.batch_size ≤ im.length) (hio : cfg.batch_size ≤ io.length)
    (t : Nat) (st0 : BeamState σ) (hinit : initState σ cfg im io = some st0) :
    ∃ st, runLoop cfg step 0 t st0 = some st ∧
      st.live.length = cfg.batch_size ∧
      ∀ tn ∈ st.live, ∃ d, tn.data = some d ∧
        d.length = (if t = 0 then 1 else cfg.beam_size) := by
  obtain ⟨st0', hst0', hinv0, -⟩ := initState_sized cfg im io hbs him hio
  rw [hinit] at hst0'
  injection hst0' with he
  subst he
  obtain ⟨st, hrun, hinv, -⟩ :=
    runLoop_sized cfg step hbs hshape hns t 0 st0 (by simpa using hinv0)
  refine ⟨st, hrun, hinv.1, ?_⟩
  intro tn htn
  obtain ⟨-, d, hd, hdl, -⟩ := hinv.2.2.1 tn htn
  exact ⟨d, hd, by simpa using hdl⟩

theorem claim_C2_witness :
    1 ≤ cfgC.beam_size ∧ StepShapes Unit cfgC stepD ∧
    NoStopChosen Unit cfgC stepD ∧
    initState Unit cfgC [()] [()] =
      some ⟨[⟨1, some [⟨[], (), (), 0⟩]⟩], [⟨1, some []⟩]⟩ ∧
    ∃ st, runLoop cfgC stepD 0 1
        ⟨[⟨1, some [⟨[], (), (), 0⟩]⟩], [⟨1, some []⟩]⟩ = some st ∧
      st.live.length = cfgC.batch_size ∧
      ∀ tn ∈ st.live, ∃ d, tn.data = some d ∧
        d.length = (if 1 = 0 then 1 else cfgC.beam_size) := by
  have hshapeD : StepShapes Unit cfgC stepD := by
    intro fl lw lm lo
    refine ⟨rfl, rfl, rfl, ?_⟩
    intro lp hlp
    have hl : lp = [(-1 : ℚ), 0] := by simpa [stepD] using hlp
    subst hl
    decide
  have hnsD : NoStopChosen Unit cfgC stepD := by
    intro fl lw lm lo lp hlp
    have hl : lp = [(-1 : ℚ), 0] := by simpa [stepD] using hlp
    subst hl
    decide
  have hinit : initState Unit cfgC [()] [()] =
      some ⟨[⟨1, some [⟨[], (), (), 0⟩]⟩], [⟨1, some []⟩]⟩ := by
    simp +decide [initState, optMap, TopN.push, TopN.new, heappush, siftdownLoop,
      heappushpop, cfgC]
  exact ⟨by decide, hshapeD, hnsD, hinit,
    claim_C2 cfgC stepD [()] [()] (by decide) hshapeD hnsD (by decide) (by decide)
      1 _ hinit⟩

/-- C2 counterexample: with beam width 1 and a step function that ranks
the stop token first, after timestep 0 the example's partial set holds
0 < beam_size hypotheses (the one extension went to the completed set),
and the full search crashes on the out-of-bounds slot read of
timestep 1 (`none` models the `IndexError`). -/
theorem claim_C2_counterexample :
    initState Unit cfgC [()] [()] =
      some ⟨[⟨1, some [⟨[], (), (), 0⟩]⟩], [⟨1, some []⟩]⟩ ∧
    runLoop cfgC stepC 0 1 ⟨[⟨1, some [⟨[], (), (), 0⟩]⟩], [⟨1, some []⟩]⟩ =
      some ⟨[⟨1, some []⟩], [⟨1, some [⟨[0], (), (), 0⟩]⟩]⟩ ∧
    beam_search Unit cfgC stepC [()] [()] = none := by
  refine ⟨?_, ?_, ?_⟩ <;>
    simp +decide [beam_search, initState, runLoop, runTimestep, runSlot, runSlots,
      processExample, expandCandidates, selectTop, optMap, TopN.push, TopN.extract,
      TopN.reset, TopN.new, heappush, siftdownLoop, heappushpop, siftup, siftupLoop,
      chooseChild, pyEnum, pyEnumFrom, sortDescBy, insDescBy, extendCap, isStopWord,
      finalizeExample, TopN.size, cfgC, stepC, w2]

/-- C3: for a step function that never ranks the stop token among the
chosen next words, `beam_search` terminates after exactly
`max_sent_len` timesteps with a result for every example; each
example's completed set being empty, its partial set is substituted and
extracted in descending score order, so the returned list is nonempty,
sorted by non-increasing score, and its first element has the maximal
score. -/
theorem claim_C3 {σ : Type} (cfg : Cfg) (step : StepFun σ) (im io : List σ)
    (hbs : 1 ≤ cfg.beam_size) (hshape : StepShapes σ cfg step)
    (hns : NoStopChosen σ cfg step)
    (him : cfg.batch_size ≤ im.length) (hio : cfg.batch_size ≤ io.length) :
    ∃ results, beam_search σ cfg step im io = some results ∧
      results.length = cfg.batch_size ∧
      ∀ r ∈ results, ∃ best rest, r = best :: rest ∧
        (∀ cap ∈ r, cap.score ≤ best.score) ∧
        (scoresOf r).Pairwise (· ≥ ·) := by
  obtain ⟨results, hsome, hlen, hrows⟩ :=
    beam_search_sized cfg step im io hbs hshape hns him hio
  refine ⟨results, hsome, hlen, ?_⟩
  intro r hr
  obtain ⟨d, hrd, hdlen⟩ := hrows r hr
  have hpw : r.Pairwise (fun a b => b.score ≤ a.score) := by
    rw [hrd]
    exact sortDescBy_pairwise _ _
  have hrlen : r.length = d.length := by
    rw [hrd, (sortDescBy_perm _ _).length_eq]
  have hpos : 1 ≤ r.length := by
    rw [hrlen, hdlen]
    by_cases h : cfg.max_sent_len = 0
    · simp [h]
    · simp only [h, if_false]
      omega
  cases r with
  | nil => simp at hpos
  | cons best rest =>
    refine ⟨best, rest, rfl, ?_, ?_⟩
    · intro cap hcap
      rcases List.mem_cons.mp hcap with h | h
      · rw [h]
      · exact le_of_eq rfl |>.trans ((List.pairwise_cons.mp hpw).1 cap h)
    · show (List.map Caption.score (best :: rest)).Pairwise (· ≥ ·)
      exact List.pairwise_map.mpr hpw

theorem claim_C3_witness :
    1 ≤ cfgC.beam_size ∧ StepShapes Unit cfgC stepD ∧
    NoStopChosen Unit cfgC stepD ∧
    ∃ results, beam_search Unit cfgC stepD [()] [()] = some results ∧
      results.length = cfgC.batch_size ∧
      ∀ r ∈ results, ∃ best rest, r = best :: rest ∧
        (∀ cap ∈ r, cap.score ≤ best.score) ∧
        (scoresOf r).Pairwise (· ≥ ·) := by
  have hshapeD : StepShapes Unit cfgC stepD := by
    intro fl lw lm lo
    refine ⟨rfl, rfl, rfl, ?_⟩
    intro lp hlp
    have hl : lp = [(-1 : ℚ), 0] := by simpa [stepD] using hlp
    subst hl
    decide
  have hnsD : NoStopChosen Unit cfgC stepD := by
    intro fl lw lm lo lp hlp
    have hl : lp = [(-1 : ℚ), 0] := by simpa [stepD] using hlp
    subst hl
    decide
  exact ⟨by decide, hshapeD, hnsD,
    claim_C3 cfgC stepD [()] [()] (by decide) hshapeD hnsD (by decide) (by decide)⟩

/-- C4: with a log-probability row covering at least `beam_size`
entries, the candidate selection takes exactly `beam_size` pairs,
strictly ordered by higher log-probability with ties broken towards the
smaller vocabulary index, each pair read off the row by its index, and
every unselected entry ranks no better than every selected one; the
expansion then pushes each selected pair's one-token extension into the
completed set when the token is the stop token and into the partial set
otherwise, in selection order. -/
theorem claim_C4 {σ : Type} (cfg : Cfg) (pcap : Caption σ) (m o : σ)
    (pc cc : TopN σ) (lp : List ℚ) (hbs : cfg.beam_size ≤ lp.length) :
    (selectTop cfg.beam_size lp).length = cfg.beam_size ∧
    (selectTop cfg.beam_size lp).Pairwise rankBefore ∧
    (∀ p ∈ selectTop cfg.beam_size lp, lp.get? p.1 = some p.2) ∧
    (∀ q ∈ pyEnum lp, q ∉ selectTop cfg.beam_size lp →
      ∀ p ∈ selectTop cfg.beam_size lp, rankBefore p q) ∧
    expandCandidates cfg pcap m o pc cc (selectTop cfg.beam_size lp) =
      (match pushAll pc (((selectTop cfg.beam_size lp).filter
          (fun p => ! isStopWord cfg p.1)).map (extendCap pcap m o)) with
        | none => none
        | some pc' =>
          match pushAll cc (((selectTop cfg.beam_size lp).filter
              (fun p => isStopWord cfg p.1)).map (extendCap pcap m o)) with
          | none => none
          | some cc' => some (pc', cc')) := by
  obtain ⟨h1, h2, h3, h4⟩ := selectTop_spec cfg.beam_size lp hbs
  refine ⟨h1, h2, ?_, h4, ?_⟩
  · intro p hp
    exact (mem_pyEnum lp p).mp (h3 p hp)
  · exact expandCandidates_eq_pushAll cfg pcap m o _ pc cc

theorem claim_C4_witness :
    cfgC.beam_size ≤ ([(0 : ℚ), -1] : List ℚ).length ∧
    ((selectTop cfgC.beam_size [(0 : ℚ), -1]).length = cfgC.beam_size ∧
    (selectTop cfgC.beam_size [(0 : ℚ), -1]).Pairwise rankBefore ∧
    (∀ p ∈ selectTop cfgC.beam_size [(0 : ℚ), -1],
      ([(0 : ℚ), -1] : List ℚ).get? p.1 = some p.2) ∧
    (∀ q ∈ pyEnum [(0 : ℚ), -1], q ∉ selectTop cfgC.beam_size [(0 : ℚ), -1] →
      ∀ p ∈ selectTop cfgC.beam_size [(0 : ℚ), -1], rankBefore p q) ∧
    expandCandidates cfgC capA () () (TopN.new Unit 1) (TopN.new Unit 1)
        (selectTop cfgC.beam_size [(0 : ℚ), -1]) =
      (match pushAll (TopN.new Unit 1)
          (((selectTop cfgC.beam_size [(0 : ℚ), -1]).filter
            (fun p => ! isStopWord cfgC p.1)).map (extendCap capA () ())) with
        | none => none
        | some pc' =>
          match pushAll (TopN.new Unit 1)
              (((selectTop cfgC.beam_size [(0 : ℚ), -1]).filter
                (fun p => isStopWord cfgC p.1)).map (extendCap capA () ())) with
          | none => none
          | some cc' => some (pc', cc'))) :=
  ⟨by decide,
    claim_C4 cfgC capA () () (TopN.new Unit 1) (TopN.new Unit 1) [0, -1] (by decide)⟩

/-- C5: two-run noninterference — two `beam_search` runs over the same
configuration whose step functions' example-`k` output rows depend only
on, and agree on, example `k`'s input rows, and whose initial memory
and output agree on row `k`, return identical caption lists for example
`k` whenever both runs return at all. -/
theorem claim_C5 {σ : Type} (cfg : Cfg) (step1 step2 : StepFun σ)
    (im1 io1 im2 io2 : List σ) (k : Nat)
    (r1 r2 : List (List (Caption σ)))
    (hrow : stepRowAgree σ k step1 step2)
    (him : im1.get? k = im2.get? k) (hio : io1.get? k = io2.get? k)
    (h1 : beam_search σ cfg step1 im1 io1 = some r1)
    (h2 : beam_search σ cfg step2 im2 io2 = some r2) :
    r1.get? k = r2.get? k := by
  obtain ⟨st01, stF1, hi1, hl1, hf1⟩ := beam_search_char cfg step1 im1 io1 r1 h1
  obtain ⟨st02, stF2, hi2, hl2, hf2⟩ := beam_search_char cfg step2 im2 io2 r2 h2
  have hsa0 := initState_agree cfg im1 io1 im2 io2 k st01 st02 him hio hi1 hi2
  have hsaF := runLoop_agree cfg step1 step2 k hrow cfg.max_sent_len 0
    st01 st02 stF1 stF2 hsa0 hl1 hl2
  obtain ⟨-, hg1⟩ := optMap_spec _ _ _ hf1
  obtain ⟨-, hg2⟩ := optMap_spec _ _ _ hf2
  rw [hg1 k, hg2 k, get?_range]
  by_cases hk : k < cfg.batch_size
  · rw [if_pos hk]
    show finalizeExample stF1.live stF1.comp k = finalizeExample stF2.live stF2.comp k
    exact finalizeExample_agree stF1.live stF1.comp stF2.live stF2.comp k
      hsaF.1 hsaF.2
  · rw [if_neg hk]
    rfl

theorem claim_C5_witness :
    stepRowAgree Unit 0 stepE1 stepE2 ∧
    beam_search Unit cfg2 stepE1 [(), ()] [(), ()] =
      some [[⟨[1], (), (), 0⟩], [⟨[1], (), (), 0⟩]] ∧
    beam_search Unit cfg2 stepE2 [(), ()] [(), ()] =
      some [[⟨[1], (), (), 0⟩], [⟨[0], (), (), 0⟩]] ∧
    ([[⟨[1], (), (), 0⟩], [⟨[1], (), (), 0⟩]] :
        List (List (Caption Unit))).get? 0 =
      ([[⟨[1], (), (), 0⟩], [⟨[0], (), (), 0⟩]] :
        List (List (Caption Unit))).get? 0 := by
  have hrow : stepRowAgree Unit 0 stepE1 stepE2 := by
    intro fl lw1 lm1 lo1 lw2 lm2 lo2 hw hm ho
    exact ⟨rfl, rfl, rfl⟩
  have h1 : beam_search Unit cfg2 stepE1 [(), ()] [(), ()] =
      some [[⟨[1], (), (), 0⟩], [⟨[1], (), (), 0⟩]] := by
    simp +decide [beam_search, initState, runLoop, runTimestep, runSlot, runSlots,
      processExample, expandCandidates, selectTop, optMap, TopN.push, TopN.extract,
      TopN.reset, TopN.new, heappush, siftdownLoop, heappushpop, siftup, siftupLoop,
      chooseChild, pyEnum, pyEnumFrom, sortDescBy, insDescBy, extendCap, isStopWord,
      finalizeExample, TopN.size, cfg2, stepE1, w2]
  have h2 : beam_search Unit cfg2 stepE2 [(), ()] [(), ()] =
      some [[⟨[1], (), (), 0⟩], [⟨[0], (), (), 0⟩]] := by
    simp +decide [beam_search, initState, runLoop, runTimestep, runSlot, runSlots,
      processExample, expandCandidates, selectTop, optMap, TopN.push, TopN.extract,
      TopN.reset, TopN.new, heappush, siftdownLoop, heappushpop, siftup, siftupLoop,
      chooseChild, pyEnum, pyEnumFrom, sortDescBy, insDescBy, extendCap, isStopWord,
      finalizeExample, TopN.size, cfg2, stepE2, w2]
  exact ⟨hrow, h1, h2,
    claim_C5 cfg2 stepE1 stepE2 [(), ()] [(), ()] [(), ()] [(), ()] 0 _ _
      hrow rfl rfl h1 h2⟩

/-- C6 (amended): pushing into a `TopN` constructed with capacity `≤ 0`
does not fail at all — every push returns successfully and the pushed
hypothesis is silently discarded, leaving the fresh empty container
unchanged.  (The original claim, that such pushes fail loudly, is
refuted by the counterexample.) -/
theorem claim_C6 (σ : Type) (n : Int) (hn : n ≤ 0) :
    ∀ cs : List (Caption σ), pushAll (TopN.new σ n) cs = some (TopN.new σ n) := by
  have hpush : ∀ c : Caption σ, (TopN.new σ n).push c = some (TopN.new σ n) := by
    intro c
    have hdef : (TopN.new σ n).push c =
        if (([] : List (Caption σ)).length : Int) < n then
          some ⟨n, some (heappush [] c)⟩
        else some ⟨n, some (heappushpop [] c).2⟩ := rfl
    rw [hdef, if_neg (by simp only [List.length_nil, Nat.cast_zero]; omega)]
    rfl
  intro cs
  induction cs with
  | nil => rfl
  | cons c cs' ih =>
    have hdef : pushAll (TopN.new σ n) (c :: cs') =
        match (TopN.new σ n).push c with
        | some t' => pushAll t' cs'
        | none => none := rfl
    rw [hdef, hpush c]
    exact ih

theorem claim_C6_witness :
    (0 : Int) ≤ 0 ∧
    pushAll (TopN.new Unit 0) [capA] = some (TopN.new Unit 0) :=
  ⟨by decide, claim_C6 Unit 0 (by decide) [capA]⟩

/-- C6 counterexample: a push into a capacity-0 set returns successfully
(`some`, not the `none` that models an assertion failure) and the
hypothesis is silently dropped, refuting "fails immediately and
loudly". -/
theorem claim_C6_counterexample :
    (TopN.new Unit 0).push capA = some (TopN.new Unit 0) := by
  simp +decide [TopN.push, TopN.new, heappushpop, capA]

/-- C7: after `extract` the returned container is drained — its data is
gone, `size` fails, and every `push` fails (the assertion model returns
`none`) — and after `reset` the container is empty with its capacity
preserved and every `push` succeeds again. -/
theorem claim_C7 {σ : Type} (t : TopN σ) (srt : Bool) (res : List (Caption σ))
    (t' : TopN σ) (hex : t.extract srt = some (res, t')) :
    t'.data = none ∧ t'.size = none ∧ (∀ c, t'.push c = none) ∧
    t'.reset = ⟨t.n, some []⟩ ∧ ∀ c : Caption σ, ∃ u, (t'.reset).push c = some u := by
  obtain ⟨d, hd, -, ht'⟩ := extract_mem t srt res t' hex
  subst ht'
  refine ⟨rfl, rfl, ?_, rfl, ?_⟩
  · intro c
    rfl
  · intro c
    have hdef : ((⟨t.n, none⟩ : TopN σ).reset).push c =
        if (([] : List (Caption σ)).length : Int) < t.n then
          some ⟨t.n, some (heappush [] c)⟩
        else some ⟨t.n, some (heappushpop [] c).2⟩ := rfl
    rw [hdef]
    by_cases h : (([] : List (Caption σ)).length : Int) < t.n
    · rw [if_pos h]
      exact ⟨_, rfl⟩
    · rw [if_neg h]
      exact ⟨_, rfl⟩

theorem claim_C7_witness :
    (⟨1, some [capA]⟩ : TopN Unit).extract true = some ([capA], ⟨1, none⟩) ∧
    ((⟨1, none⟩ : TopN Unit).data = none ∧ (⟨1, none⟩ : TopN Unit).size = none ∧
    (∀ c, (⟨1, none⟩ : TopN Unit).push c = none) ∧
    (⟨1, none⟩ : TopN Unit).reset = ⟨1, some []⟩ ∧
    ∀ c : Caption Unit, ∃ u, ((⟨1, none⟩ : TopN Unit).reset).push c = some u) :=
  ⟨rfl, claim_C7 ⟨1, some [capA]⟩ true [capA] ⟨1, none⟩ rfl⟩

/-- C8: `extract` with `sort = true` returns exactly the held
hypotheses (a permutation of the stored data) in non-increasing score
order and leaves the container drained. -/
theorem claim_C8 {σ : Type} (t : TopN σ) (d : List (Caption σ))
    (hd : t.data = some d) :
    ∃ res t', t.extract true = some (res, t') ∧ res.Perm d ∧
      (scoresOf res).Pairwise (· ≥ ·) ∧ t' = ⟨t.n, none⟩ ∧ t'.data = none := by
  refine ⟨sortDescBy Caption.score d, ⟨t.n, none⟩, ?_,
    sortDescBy_perm Caption.score d, ?_, rfl, rfl⟩
  · unfold TopN.extract
    rw [hd]
    rfl
  · show (List.map Caption.score (sortDescBy Caption.score d)).Pairwise (· ≥ ·)
    exact List.pairwise_map.mpr (sortDescBy_pairwise Caption.score d)

theorem claim_C8_witness :
    (⟨2, some [capA, capB]⟩ : TopN Unit).data = some [capA, capB] ∧
    ∃ res t', (⟨2, some [capA, capB]⟩ : TopN Unit).extract true = some (res, t') ∧
      res.Perm [capA, capB] ∧ (scoresOf res).Pairwise (· ≥ ·) ∧
      t' = ⟨2, none⟩ ∧ t'.data = none :=
  ⟨rfl, claim_C8 ⟨2, some [capA, capB]⟩ [capA, capB] rfl⟩

/-- C9 (amended): for beam width 1 and a (deterministic) step function
that never ranks the stop token first, the greedy decoder and
`beam_search` both succeed and produce, per example, the same token
sequence and the same cumulative score.  (For step functions that do
rank the stop token first before the final timestep the two differ:
the greedy decoder returns while `beam_search` crashes — see the
counterexample.) -/
theorem claim_C9 {σ : Type} (cfg : Cfg) (step : StepFun σ) (im io : List σ)
    (hbs1 : cfg.beam_size = 1)
    (hshape : StepShapes σ cfg step) (hns : NoStopChosen σ cfg step)
    (him : cfg.batch_size ≤ im.length) (hio : cfg.batch_size ≤ io.length) :
    ∃ results exs, beam_search σ cfg step im io = some results ∧
      greedyDecode σ cfg step im io = some exs ∧
      results.length = cfg.batch_size ∧ exs.length = cfg.batch_size ∧
      ∀ k < cfg.batch_size, ∃ (e : GreedyEx σ) (cap : Caption σ),
        exs.get? k = some e ∧ results.get? k = some [cap] ∧
        cap.sentence = e.tokens ∧ cap.score = e.score :=
  beam1_greedy_equiv cfg step im io hbs1 hshape hns him hio

theorem claim_C9_witness :
    cfgC.beam_size = 1 ∧ StepShapes Unit cfgC stepD ∧
    NoStopChosen Unit cfgC stepD ∧
    ∃ results exs, beam_search Unit cfgC stepD [()] [()] = some results ∧
      greedyDecode Unit cfgC stepD [()] [()] = some exs ∧
      results.length = cfgC.batch_size ∧ exs.length = cfgC.batch_size ∧
      ∀ k < cfgC.batch_size, ∃ (e : GreedyEx Unit) (cap : Caption Unit),
        exs.get? k = some e ∧ results.get? k = some [cap] ∧
        cap.sentence = e.tokens ∧ cap.score = e.score := by
  have hshapeD : StepShapes Unit cfgC stepD := by
    intro fl lw lm lo
    refine ⟨rfl, rfl, rfl, ?_⟩
    intro lp hlp
    have hl : lp = [(-1 : ℚ), 0] := by simpa [stepD] using hlp
    subst hl
    decide
  have hnsD : NoStopChosen Unit cfgC stepD := by
    intro fl lw lm lo lp hlp
    have hl : lp = [(-1 : ℚ), 0] := by simpa [stepD] using hlp
    subst hl
    decide
  exact ⟨rfl, hshapeD, hnsD,
    claim_C9 cfgC stepD [()] [()] rfl hshapeD hnsD (by decide) (by decide)⟩

/-- C9 counterexample: a deterministic step function that always ranks
the stop token first makes the greedy decoder return the caption `[0]`
with score 0, while `beam_search` with beam width 1 raises (the stop
hypothesis goes to the completed set, the partial set drains, and the
next timestep's slot read is out of bounds) — so the two decoders do
not agree for every deterministic step function. -/
theorem claim_C9_counterexample :
    greedyDecode Unit cfgC stepC [()] [()] = some [⟨[0], (), (), 0, true⟩] ∧
    beam_search Unit cfgC stepC [()] [()] = none := by
  constructor
  · simp +decide [greedyDecode, greedyInit, greedyLoop, greedyTimestep, argmaxPair,
      optMap, pyEnum, pyEnumFrom, sortDescBy, insDescBy, isStopWord, cfgC, stepC, w2]
  · simp +decide [beam_search, initState, runLoop, runTimestep, runSlot, runSlots,
      processExample, expandCandidates, selectTop, optMap, TopN.push, TopN.extract,
      TopN.reset, TopN.new, heappush, siftdownLoop, heappushpop, siftup, siftupLoop,
      chooseChild, pyEnum, pyEnumFrom, sortDescBy, insDescBy, extendCap, isStopWord,
      finalizeExample, TopN.size, cfgC, stepC, w2]

/-- C10: every state reachable by the timestep loop keeps the stop-token
discipline — hypotheses in partial sets contain no stop token,
hypotheses in completed sets end in exactly one stop token — and hence
every returned caption is stop-free or ends in exactly one stop
token. -/
theorem claim_C10 {σ : Type} (cfg : Cfg) (step : StepFun σ) (im io : List σ) :
    (∀ (t : Nat) (st0 st : BeamState σ), initState σ cfg im io = some st0 →
      runLoop cfg step 0 t st0 = some st →
      (∀ tn ∈ st.live, liveOk cfg tn) ∧ (∀ tn ∈ st.comp, compOk cfg tn)) ∧
    ∀ results, beam_search σ cfg step im io = some results →
      ∀ r ∈ results, ∀ cap ∈ r, stopFree cfg cap ∨ stopTerminated cfg cap := by
  constructor
  · intro t st0 st hinit hrun
    exact runLoop_stopInv cfg step t 0 st0 st hrun
      (initState_stopInv cfg im io st0 hinit)
  · intro results h
    exact beam_search_stop_discipline cfg step im io results h

theorem claim_C10_witness :
    ((∀ tn ∈ ([⟨1, some [⟨[1, 1], (), (), 0⟩]⟩] : List (TopN Unit)),
        liveOk cfgC tn) ∧
      (∀ tn ∈ ([⟨1, some []⟩] : List (TopN Unit)), compOk cfgC tn)) ∧
    (∀ r ∈ ([[⟨[1, 1], (), (), 0⟩]] : List (List (Caption Unit))), ∀ cap ∈ r,
      stopFree cfgC cap ∨ stopTerminated cfgC cap) := by
  constructor
  · exact (claim_C10 cfgC stepD [()] [()]).1 2
      ⟨[⟨1, some [⟨[], (), (), 0⟩]⟩], [⟨1, some []⟩]⟩
      ⟨[⟨1, some [⟨[1, 1], (), (), 0⟩]⟩], [⟨1, some []⟩]⟩
      (by simp +decide [initState, optMap, TopN.push, TopN.new, heappush,
        siftdownLoop, heappushpop, cfgC])
      (by simp +decide [runLoop, runTimestep, runSlot, runSlots, processExample,
        expandCandidates, selectTop, optMap, TopN.push, TopN.extract, TopN.reset,
        TopN.new, heappush, siftdownLoop, heappushpop, siftup, siftupLoop,
        chooseChild, pyEnum, pyEnumFrom, sortDescBy, insDescBy, extendCap,
        isStopWord, cfgC, stepD, w2])
  · exact (claim_C10 cfgC stepD [()] [()]).2 [[⟨[1, 1], (), (), 0⟩]]
      (by simp +decide [beam_search, initState, runLoop, runTimestep, runSlot,
        runSlots, processExample, expandCandidates, selectTop, optMap, TopN.push,
        TopN.extract, TopN.reset, TopN.new, heappush, siftdownLoop, heappushpop,
        siftup, siftupLoop, chooseChild, pyEnum, pyEnumFrom, sortDescBy, insDescBy,
        extendCap, isStopWord, finalizeExample, TopN.size, cfgC, stepD, w2])
